import Mathlib

/-!
Verification of the xsdmesh core: qualified names, the component registry
with its two storage backends (dict and Patricia-trie + Bloom filter),
lazy type references, the frozen-component mutability gate, QName
parsing/resolution, and the streaming parse engine with its lookahead
event buffer.

Each definition is a shallow embedding of the corresponding Python
function from the repository sources (file and symbol named in its doc
comment).  Python dicts are modelled as insertion-ordered association
lists, exceptions as `Except`, and in-place mutation as functional state
update.
-/

namespace Xsdmesh

/-! ## Association-list helpers (model of Python `dict`)

Python dicts are insertion ordered; keys are unique.  `alGet` is
`d.get(k)`, `alSet` is `d[k] = v` (replace in place, else append),
`alErase` is `del d[k]`, `alHasKey` is `k in d`. -/

def alGet {K V : Type} [DecidableEq K] (l : List (K × V)) (k : K) : Option V :=
  (l.find? (fun p => p.1 = k)).map (·.2)

def alSet {K V : Type} [DecidableEq K] (l : List (K × V)) (k : K) (v : V) :
    List (K × V) :=
  match l with
  | [] => [(k, v)]
  | (k2, v2) :: rest =>
      if k2 = k then (k, v) :: rest else (k2, v2) :: alSet rest k v

def alErase {K V : Type} [DecidableEq K] (l : List (K × V)) (k : K) :
    List (K × V) :=
  l.filter (fun p => p.1 ≠ k)

def alHasKey {K V : Type} [DecidableEq K] (l : List (K × V)) (k : K) : Bool :=
  l.any (fun p => p.1 = k)

theorem alGet_nil {K V : Type} [DecidableEq K] (k : K) :
    alGet ([] : List (K × V)) k = none := rfl

theorem alGet_cons {K V : Type} [DecidableEq K]
    (a : K) (b : V) (l : List (K × V)) (k : K) :
    alGet ((a, b) :: l) k = if a = k then some b else alGet l k := by
  by_cases h : a = k <;> simp [alGet, List.find?, h]

theorem alErase_cons {K V : Type} [DecidableEq K]
    (a : K) (b : V) (l : List (K × V)) (k : K) :
    alErase ((a, b) :: l) k =
      if a = k then alErase l k else (a, b) :: alErase l k := by
  by_cases h : a = k <;> simp [alErase, List.filter, h]

theorem alGet_alSet_self {K V : Type} [DecidableEq K]
    (l : List (K × V)) (k : K) (v : V) : alGet (alSet l k v) k = some v := by
  induction l with
  | nil => simp [alGet, alSet]
  | cons hd tl ih =>
      obtain ⟨k2, v2⟩ := hd
      by_cases h : k2 = k
      · simp [alSet, h, alGet_cons]
      · simp only [alSet, if_neg h]
        rw [alGet_cons, if_neg h]
        exact ih

theorem alGet_alSet_ne {K V : Type} [DecidableEq K]
    (l : List (K × V)) (k k2 : K) (v : V) (h : k2 ≠ k) :
    alGet (alSet l k v) k2 = alGet l k2 := by
  induction l with
  | nil => simp [alSet, alGet_cons, alGet_nil, Ne.symm h]
  | cons hd tl ih =>
      obtain ⟨k3, v3⟩ := hd
      by_cases h3 : k3 = k
      · subst h3
        simp [alSet, alGet_cons, Ne.symm h]
      · simp only [alSet, if_neg h3]
        rw [alGet_cons, alGet_cons, ih]

theorem alGet_alErase_self {K V : Type} [DecidableEq K]
    (l : List (K × V)) (k : K) : alGet (alErase l k) k = none := by
  induction l with
  | nil => simp [alGet, alErase]
  | cons hd tl ih =>
      obtain ⟨k2, v2⟩ := hd
      rw [alErase_cons]
      by_cases h : k2 = k
      · simpa [h] using ih
      · rw [if_neg h, alGet_cons, if_neg h]
        exact ih

theorem alGet_alErase_ne {K V : Type} [DecidableEq K]
    (l : List (K × V)) (k k2 : K) (h : k2 ≠ k) :
    alGet (alErase l k) k2 = alGet l k2 := by
  induction l with
  | nil => simp [alGet, alErase]
  | cons hd tl ih =>
      obtain ⟨k3, v3⟩ := hd
      rw [alErase_cons, alGet_cons]
      by_cases h3 : k3 = k
      · subst h3
        rw [if_pos rfl, if_neg (Ne.symm h)]
        exact ih
      · rw [if_neg h3, alGet_cons, ih]

/-! ## QName  (src/xsdmesh/parser/qname.py, class QName)

A qualified name is a pair of namespace URI and local name; `expanded`
is the Clark notation `{namespace}local` (just `local` when the
namespace is empty).  The Python field `namespace` is a Lean keyword and
is rendered `ns`. -/

structure QName where
  ns : String
  local_name : String
deriving DecidableEq, Repr

/-- `QName.expanded` (qname.py lines 28-33): Clark notation. -/
def QName.expanded (q : QName) : String :=
  if q.ns ≠ "" then "\x7b" ++ q.ns ++ "\x7d" ++ q.local_name
  else q.local_name

/-! ## Frozen-component mutability gate
(src/xsdmesh/types/base.py, `Component.freeze` / `Component.__setattr__`)

A component instance is modelled by its attribute dictionary.  Attribute
values are modelled by `PyVal`; `pyTruthy` is Python truthiness, used by
`is_frozen` through `getattr(self, "_frozen", False)`. -/

inductive PyVal where
  | vBool (b : Bool)
  | vStr (s : String)
  | vNone
deriving DecidableEq, Repr

def pyTruthy : PyVal → Bool
  | .vBool b => b
  | .vStr s => s ≠ ""
  | .vNone => false

structure CompObj where
  attrs : List (String × PyVal)
deriving DecidableEq, Repr

/-- `getattr(self, name, default)` on the attribute dictionary. -/
def CompObj.getattrD (c : CompObj) (name : String) (dflt : PyVal) : PyVal :=
  (alGet c.attrs name).getD dflt

/-- `Component.is_frozen` (base.py lines 133-136). -/
def CompObj.is_frozen (c : CompObj) : Bool :=
  pyTruthy (c.getattrD "_frozen" (.vBool false))

/-- `object.__setattr__`: unconditional attribute write. -/
def CompObj.objectSetattr (c : CompObj) (name : String) (v : PyVal) : CompObj :=
  ⟨alSet c.attrs name v⟩

/-- `Component.freeze` (base.py lines 138-151) for a leaf component:
early-return when already frozen, otherwise set `_frozen` via
`object.__setattr__`; `_freeze_children` is the default no-op hook. -/
def CompObj.freeze (c : CompObj) : CompObj :=
  if c.is_frozen then c
  else c.objectSetattr "_frozen" (.vBool true)

/-- `Component.__setattr__` (base.py lines 173-187): the write is allowed
when the attribute is `_frozen` or the component is not frozen; otherwise
a `FrozenError` is raised (before any mutation). -/
def CompObj.setattr (c : CompObj) (name : String) (v : PyVal) :
    Except String CompObj :=
  if name = "_frozen" || !c.is_frozen then
    .ok (c.objectSetattr name v)
  else
    .error "Cannot modify frozen component"

/-! ## Bloom filter  (src/xsdmesh/utils/bloom.py, class BloomFilter)

`size` and `num_hashes` are computed in Python from `expected_elements`
and `false_positive_rate` with floating-point logarithms; they are
carried here as plain parameters of the filter state.  The two base
hashes (md5 and sha1 of the UTF-8 serialisation) are modelled as
arbitrary functions `h1 h2 : String → Nat`; every property proved below
holds for every choice of `h1`, `h2`.  The bit array is modelled as a
total function `Nat → Bool` (bit index → bit). -/

structure BloomFilter where
  size : Nat
  num_hashes : Nat
  bits : Nat → Bool
  count : Nat

/-- `BloomFilter._hashes` (bloom.py lines 73-92): double hashing
`(h1 + i*h2) % size` for `i < num_hashes`. -/
def BloomFilter.hashes (h1 h2 : String → Nat) (bf : BloomFilter)
    (item : String) : List Nat :=
  (List.range bf.num_hashes).map (fun i => (h1 item + i * h2 item) % bf.size)

/-- `BloomFilter.add` (bloom.py lines 94-105): set each hash bit. -/
def BloomFilter.add (h1 h2 : String → Nat) (bf : BloomFilter)
    (item : String) : BloomFilter :=
  { bf with
    bits := fun j => if j ∈ bf.hashes h1 h2 item then true else bf.bits j
    count := bf.count + 1 }

/-- `BloomFilter.__contains__` (bloom.py lines 107-119): all hash bits set. -/
def BloomFilter.containsB (h1 h2 : String → Nat) (bf : BloomFilter)
    (item : String) : Bool :=
  (bf.hashes h1 h2 item).all (fun j => bf.bits j)

/-- `BloomFilter.clear` (bloom.py): fresh zero bit array, count 0. -/
def BloomFilter.clearB (bf : BloomFilter) : BloomFilter :=
  { bf with bits := fun _ => false, count := 0 }

theorem BloomFilter.hashes_add (h1 h2 : String → Nat) (bf : BloomFilter)
    (x y : String) : (bf.add h1 h2 y).hashes h1 h2 x = bf.hashes h1 h2 x := rfl

theorem BloomFilter.contains_add_self (h1 h2 : String → Nat)
    (bf : BloomFilter) (x : String) :
    (bf.add h1 h2 x).containsB h1 h2 x = true := by
  simp only [containsB, hashes_add, List.all_eq_true]
  intro j hj
  simp only [add, if_pos hj]

theorem BloomFilter.contains_add_mono (h1 h2 : String → Nat)
    (bf : BloomFilter) (x y : String)
    (h : bf.containsB h1 h2 x = true) :
    (bf.add h1 h2 y).containsB h1 h2 x = true := by
  simp only [containsB, hashes_add, List.all_eq_true] at h ⊢
  intro j hj
  simp only [add]
  split
  · rfl
  · exact h j hj

/-- One operation on a Bloom filter: `add(item)` or `clear()`. -/
inductive BOp where
  | badd (item : String)
  | bclear
deriving DecidableEq, Repr

def applyBOp (h1 h2 : String → Nat) (bf : BloomFilter) : BOp → BloomFilter
  | .badd item => bf.add h1 h2 item
  | .bclear => bf.clearB

/-! ## TypeReference  (src/xsdmesh/types/base.py, class TypeReference)

Lazy reference: target qualified name plus the `_resolved` cache.  The
referenced component type is generic (`C`); a registry is anything with
a `lookup` method, modelled as a function `QName → Option C`
(the `ComponentLookup` protocol). -/

structure TypeReference (C : Type) where
  ref_qname : QName
  _resolved : Option C
deriving DecidableEq, Repr

/-- `ResolutionError` carries the message, the unresolved qualified name
(`str(self.ref_qname)`, i.e. Clark form) and the reference type. -/
structure ResolutionErr where
  msg : String
  qname : String
  reference_type : String
deriving DecidableEq, Repr

/-- `TypeReference.resolve` (base.py lines 248-276): return the cache if
present; otherwise look up the target name, failing with a
`ResolutionError` on absence, else cache and return.  The updated
reference (the cache write `self._resolved = component`) is returned
alongside the component. -/
def TypeReference.resolve {C : Type} (t : TypeReference C)
    (registry : QName → Option C) :
    Except ResolutionErr (C × TypeReference C) :=
  match t._resolved with
  | some c => .ok (c, t)
  | none =>
      match registry t.ref_qname with
      | none =>
          .error ⟨"Cannot resolve type reference", t.ref_qname.expanded, "type"⟩
      | some c => .ok (c, { t with _resolved := some c })

/-- `TypeReference.is_resolved` (base.py lines 278-285). -/
def TypeReference.is_resolved {C : Type} (t : TypeReference C) : Bool :=
  t._resolved.isSome

/-! ## Patricia trie  (src/xsdmesh/utils/trie.py)

Keys are modelled as `List Char` (`key.data` of the Python `str`).  A
`TrieNode` carries an edge-label `pfx` (the Python field `prefix`,
renamed), an optional value, and a first-char-indexed dict of children.
The Python `while` loops of `__setitem__`, `get` and `keys_with_prefix`
are modelled with a fuel argument; on a well-formed trie every loop
iteration consumes at least one character of the remaining key, so fuel
`key.length + 1` (the value used by the wrappers below) never runs out —
the `0` fuel cases are unreachable there. -/

inductive TrieNode (V : Type) : Type where
  | mk (pfx : List Char) (value : Option V) (children : List (Char × TrieNode V))

def TrieNode.pfx {V : Type} : TrieNode V → List Char
  | .mk p _ _ => p

def TrieNode.value {V : Type} : TrieNode V → Option V
  | .mk _ v _ => v

def TrieNode.children {V : Type} : TrieNode V → List (Char × TrieNode V)
  | .mk _ _ c => c

theorem TrieNode.pfx_mk {V : Type} (p : List Char) (v : Option V)
    (ch : List (Char × TrieNode V)) : (TrieNode.mk p v ch).pfx = p := rfl

theorem TrieNode.value_mk {V : Type} (p : List Char) (v : Option V)
    (ch : List (Char × TrieNode V)) : (TrieNode.mk p v ch).value = v := rfl

theorem TrieNode.children_mk {V : Type} (p : List Char) (v : Option V)
    (ch : List (Char × TrieNode V)) : (TrieNode.mk p v ch).children = ch := rfl

/-- `PatriciaTrie._common_prefix_length` (trie.py lines 54-66). -/
def commonPfxLen : List Char → List Char → Nat
  | a :: t1, b :: t2 => if a = b then commonPfxLen t1 t2 + 1 else 0
  | _, _ => 0

/-- Loop body of `PatriciaTrie.__setitem__` (trie.py lines 67-128).
Returns the updated subtree together with the `self.size` increment
(0 or 1).  In-place mutation of `child.prefix` / `node.children` is
modelled by rebuilding the affected nodes. -/
def setLoop {V : Type} (value : V) :
    Nat → TrieNode V → List Char → TrieNode V × Nat
  | 0, node, _ => (node, 0)
  | fuel + 1, node, remaining =>
    match remaining with
    | [] =>
        -- loop exit: set value at current node
        (.mk node.pfx (some value) node.children,
          match node.value with | none => 1 | some _ => 0)
    | c :: rest =>
        match alGet node.children c with
        | none =>
            -- no matching child: new leaf holding the whole remainder
            (.mk node.pfx node.value
              (alSet node.children c (.mk (c :: rest) (some value) [])), 1)
        | some child =>
            let plen := commonPfxLen (c :: rest) child.pfx
            if plen = child.pfx.length then
              -- full edge match: descend into child
              let r := setLoop value fuel child ((c :: rest).drop plen)
              (.mk node.pfx node.value (alSet node.children c r.1), r.2)
            else
              -- plen < |child.pfx|: split the edge
              match child.pfx.drop plen with
              | [] => (node, 0)  -- the source's RuntimeError guard; unreachable
              | c2 :: t2 =>
                  let childShort : TrieNode V :=
                    .mk (c2 :: t2) child.value child.children
                  match (c :: rest).drop plen with
                  | [] =>
                      -- inserted key is a proper prefix of the edge
                      (.mk node.pfx node.value
                        (alSet node.children c
                          (.mk ((c :: rest).take plen) (some value)
                            [(c2, childShort)])), 1)
                  | c3 :: t3 =>
                      let r := setLoop value fuel
                        (.mk ((c :: rest).take plen) none [(c2, childShort)])
                        (c3 :: t3)
                      (.mk node.pfx node.value (alSet node.children c r.1), r.2)

/-- Loop of `PatriciaTrie.get` (trie.py, method `get`). -/
def getLoop {V : Type} : Nat → TrieNode V → List Char → Option V
  | 0, _, _ => none
  | fuel + 1, node, remaining =>
    match remaining with
    | [] => node.value
    | c :: rest =>
        match alGet node.children c with
        | none => none
        | some child =>
            let plen := commonPfxLen (c :: rest) child.pfx
            if plen < child.pfx.length then none
            else getLoop fuel child ((c :: rest).drop plen)

/-- Navigation loop of `PatriciaTrie.keys_with_prefix`: walk to the node
covering the prefix, accumulating the path; `none` models `return []`. -/
def navLoop {V : Type} :
    Nat → TrieNode V → List Char → List Char → Option (TrieNode V × List Char)
  | 0, _, _, _ => none
  | fuel + 1, node, remaining, path =>
    match remaining with
    | [] => some (node, path)
    | c :: rest =>
        match alGet node.children c with
        | none => none
        | some child =>
            let plen := commonPfxLen (c :: rest) child.pfx
            if plen < (c :: rest).length then
              if plen = child.pfx.length then
                navLoop fuel child ((c :: rest).drop plen) (path ++ child.pfx)
              else none
            else some (child, path ++ child.pfx)

mutual

/-- `PatriciaTrie._collect_keys` (trie.py): all keys in a subtree. -/
def collectKeys {V : Type} : TrieNode V → List Char → List (List Char)
  | .mk _ val children, path =>
      (match val with | some _ => [path] | none => []) ++
        collectChildren children path

def collectChildren {V : Type} :
    List (Char × TrieNode V) → List Char → List (List Char)
  | [], _ => []
  | (_, ch) :: rest, path =>
      collectKeys ch (path ++ ch.pfx) ++ collectChildren rest path

end

structure PatriciaTrie (V : Type) where
  root : TrieNode V
  size : Nat

def PatriciaTrie.emptyT {V : Type} : PatriciaTrie V := ⟨.mk [] none [], 0⟩

/-- `PatriciaTrie.__setitem__`: rejects the empty key, else runs the
insertion loop from the root. -/
def trieSet {V : Type} (t : PatriciaTrie V) (key : List Char) (value : V) :
    Except String (PatriciaTrie V) :=
  match key with
  | [] => .error "Key cannot be empty"
  | _ =>
      let r := setLoop value (key.length + 1) t.root key
      .ok ⟨r.1, t.size + r.2⟩

/-- `PatriciaTrie.get` (returning `None` as `none`). -/
def trieGet {V : Type} (t : PatriciaTrie V) (key : List Char) : Option V :=
  getLoop (key.length + 1) t.root key

/-- `PatriciaTrie.keys_with_prefix`. -/
def keysWithPfx {V : Type} (t : PatriciaTrie V) (p : List Char) :
    List (List Char) :=
  match navLoop (p.length + 1) t.root p [] with
  | none => []
  | some (n2, path2) => collectKeys n2 path2

/-- Structural invariant of tries built by `trieSet` from the empty trie:
every child sits in the dict under the first character of its nonempty
edge label, and child keys are unique (a Python dict cannot repeat
keys). -/
inductive NodeWF {V : Type} : TrieNode V → Prop where
  | mk {p : List Char} {val : Option V} {children : List (Char × TrieNode V)} :
      (children.map (·.1)).Nodup →
      (∀ c ch, (c, ch) ∈ children → ch.pfx.head? = some c) →
      (∀ c ch, (c, ch) ∈ children → NodeWF ch) →
      NodeWF (.mk p val children)

theorem NodeWF.nodup {V : Type} {node : TrieNode V} (h : NodeWF node) :
    (node.children.map (·.1)).Nodup := by
  cases h with
  | mk hn hh hc => exact hn

theorem NodeWF.childHead {V : Type} {node : TrieNode V} (h : NodeWF node)
    {c : Char} {ch : TrieNode V} (hm : (c, ch) ∈ node.children) :
    ch.pfx.head? = some c := by
  cases h with
  | mk hn hh hc => exact hh c ch hm

theorem NodeWF.childWF {V : Type} {node : TrieNode V} (h : NodeWF node)
    {c : Char} {ch : TrieNode V} (hm : (c, ch) ∈ node.children) :
    NodeWF ch := by
  cases h with
  | mk hn hh hc => exact hc c ch hm

theorem NodeWF.childPfxNe {V : Type} {node : TrieNode V} (h : NodeWF node)
    {c : Char} {ch : TrieNode V} (hm : (c, ch) ∈ node.children) :
    ch.pfx ≠ [] := by
  intro he
  have := h.childHead hm
  rw [he] at this
  simp at this

/-- Whole-trie invariant: well-formed root with no value at the root
(the empty key is never inserted). -/
structure TrieWF {V : Type} (t : PatriciaTrie V) : Prop where
  wf : NodeWF t.root
  rootv : t.root.value = none

/-! ### Association-list membership lemmas used by the trie proofs -/

theorem alGet_mem {K V : Type} [DecidableEq K]
    {l : List (K × V)} {k : K} {v : V} (h : alGet l k = some v) :
    (k, v) ∈ l := by
  induction l with
  | nil => simp [alGet] at h
  | cons hd tl ih =>
      obtain ⟨k2, v2⟩ := hd
      rw [alGet_cons] at h
      by_cases hk : k2 = k
      · rw [if_pos hk] at h
        cases h
        subst hk
        exact List.mem_cons_self _ _
      · rw [if_neg hk] at h
        exact List.mem_cons_of_mem _ (ih h)

theorem mem_alGet_of_nodup {K V : Type} [DecidableEq K]
    {l : List (K × V)} {k : K} {v : V}
    (hn : (l.map (·.1)).Nodup) (h : (k, v) ∈ l) : alGet l k = some v := by
  induction l with
  | nil => simp at h
  | cons hd tl ih =>
      obtain ⟨k2, v2⟩ := hd
      simp only [List.map_cons, List.nodup_cons] at hn
      rcases List.mem_cons.mp h with h1 | h1
      · cases h1
        rw [alGet_cons, if_pos rfl]
      · rw [alGet_cons]
        have hk : k2 ≠ k := by
          intro he
          subst he
          exact hn.1 (List.mem_map.mpr ⟨(k2, v), h1, rfl⟩)
        rw [if_neg hk]
        exact ih hn.2 h1

theorem mem_alSet {K V : Type} [DecidableEq K]
    {l : List (K × V)} {k : K} {v : V} {a : K} {b : V}
    (h : (a, b) ∈ alSet l k v) : (a, b) ∈ l ∨ (a = k ∧ b = v) := by
  induction l with
  | nil =>
      simp only [alSet, List.mem_singleton] at h
      cases h
      exact Or.inr ⟨rfl, rfl⟩
  | cons hd tl ih =>
      obtain ⟨k2, v2⟩ := hd
      simp only [alSet] at h
      by_cases hk : k2 = k
      · rw [if_pos hk] at h
        rcases List.mem_cons.mp h with h1 | h1
        · cases h1
          exact Or.inr ⟨rfl, rfl⟩
        · exact Or.inl (List.mem_cons_of_mem _ h1)
      · rw [if_neg hk] at h
        rcases List.mem_cons.mp h with h1 | h1
        · cases h1
          exact Or.inl (List.mem_cons_self _ _)
        · rcases ih h1 with h2 | h2
          · exact Or.inl (List.mem_cons_of_mem _ h2)
          · exact Or.inr h2

theorem alSet_keys {K V : Type} [DecidableEq K]
    (l : List (K × V)) (k : K) (v : V) :
    ((alSet l k v).map (·.1)) = l.map (·.1) ∨
      ((alSet l k v).map (·.1)) = l.map (·.1) ++ [k] := by
  induction l with
  | nil => simp [alSet]
  | cons hd tl ih =>
      obtain ⟨k2, v2⟩ := hd
      simp only [alSet]
      by_cases hk : k2 = k
      · subst hk
        simp
      · rw [if_neg hk]
        rcases ih with h | h <;> simp [h]

theorem alSet_nodup {K V : Type} [DecidableEq K]
    {l : List (K × V)} {k : K} {v : V}
    (hn : (l.map (·.1)).Nodup) (hne : alGet l k = none) :
    ((alSet l k v).map (·.1)).Nodup := by
  induction l with
  | nil => simp [alSet]
  | cons hd tl ih =>
      obtain ⟨k2, v2⟩ := hd
      rw [alGet_cons] at hne
      by_cases hk : k2 = k
      · rw [if_pos hk] at hne
        cases hne
      · rw [if_neg hk] at hne
        simp only [List.map_cons, List.nodup_cons] at hn
        simp only [alSet, if_neg hk, List.map_cons, List.nodup_cons]
        refine ⟨?_, ih hn.2 hne⟩
        intro hmem
        rcases List.mem_map.mp hmem with ⟨⟨a, b⟩, hab, he⟩
        rcases mem_alSet hab with h1 | h1
        · exact hn.1 (List.mem_map.mpr ⟨(a, b), h1, he⟩)
        · exact hk (he.symm ▸ h1.1.symm ▸ rfl)

/-! ### `commonPfxLen` lemmas -/

theorem cpl_nil_left (y : List Char) : commonPfxLen [] y = 0 := by
  cases y <;> rfl

theorem cpl_nil_right (x : List Char) : commonPfxLen x [] = 0 := by
  cases x <;> rfl

theorem cpl_cons (a b : Char) (x y : List Char) :
    commonPfxLen (a :: x) (b :: y) =
      if a = b then commonPfxLen x y + 1 else 0 := rfl

theorem cpl_le_left (x y : List Char) : commonPfxLen x y ≤ x.length := by
  induction x generalizing y with
  | nil => simp [cpl_nil_left]
  | cons a t ih =>
      cases y with
      | nil => simp [cpl_nil_right]
      | cons b u =>
          rw [cpl_cons]
          by_cases h : a = b
          · rw [if_pos h]
            simpa using Nat.succ_le_succ (ih u)
          · rw [if_neg h]
            exact Nat.zero_le _

theorem cpl_le_right (x y : List Char) : commonPfxLen x y ≤ y.length := by
  induction x generalizing y with
  | nil => simp [cpl_nil_left]
  | cons a t ih =>
      cases y with
      | nil => simp [cpl_nil_right]
      | cons b u =>
          rw [cpl_cons]
          by_cases h : a = b
          · rw [if_pos h]
            simpa using Nat.succ_le_succ (ih u)
          · rw [if_neg h]
            exact Nat.zero_le _

theorem cpl_append_left (x y : List Char) :
    commonPfxLen (x ++ y) x = x.length := by
  induction x with
  | nil => simp [cpl_nil_right]
  | cons a t ih => simp [cpl_cons, ih]

theorem cpl_append_right (x y : List Char) :
    commonPfxLen x (x ++ y) = x.length := by
  induction x with
  | nil => simp [cpl_nil_left]
  | cons a t ih => simp [cpl_cons, ih]

theorem cpl_append_both (t x y : List Char) :
    commonPfxLen (t ++ x) (t ++ y) = t.length + commonPfxLen x y := by
  induction t with
  | nil => simp
  | cons a u ih => simp [cpl_cons, ih]; omega

/-- If the common-prefix length reaches `y`'s length then `y` is a
prefix of `x`. -/
theorem prefix_of_cpl_eq {x y : List Char}
    (h : commonPfxLen x y = y.length) : y <+: x := by
  induction y generalizing x with
  | nil => exact List.nil_prefix
  | cons b u ih =>
      cases x with
      | nil => simp [cpl_nil_left] at h
      | cons a t =>
          rw [cpl_cons] at h
          by_cases hab : a = b
          · rw [if_pos hab] at h
            subst hab
            simp only [List.length_cons, Nat.add_right_cancel_iff] at h
            exact List.prefix_cons_inj _ |>.mpr (ih h) |>.trans (by rfl)
          · rw [if_neg hab] at h
            simp at h

/-- Conversely, a prefix realises its full length. -/
theorem cpl_of_prefix {x y : List Char} (h : y <+: x) :
    commonPfxLen x y = y.length := by
  obtain ⟨t, rfl⟩ := h
  exact cpl_append_left y t

/-- A mismatch strictly inside both lists survives extending the second
list beyond the mismatch point. -/
theorem cpl_ext_right {x y Y : List Char} (hp : y <+: Y)
    (h : commonPfxLen x y < y.length) :
    commonPfxLen x Y = commonPfxLen x y := by
  obtain ⟨t, rfl⟩ := hp
  induction y generalizing x with
  | nil => simp [cpl_nil_right] at h
  | cons b u ih =>
      cases x with
      | nil => simp [cpl_nil_left]
      | cons a s =>
          rw [cpl_cons] at h ⊢
          rw [List.cons_append, cpl_cons]
          by_cases hab : a = b
          · rw [if_pos hab] at h ⊢
            rw [if_pos hab]
            simp only [List.length_cons] at h
            have := ih (x := s) (by omega)
            omega
          · rw [if_neg hab, if_neg hab]

/-- A mismatch strictly inside the first list survives extending the
first list. -/
theorem cpl_ext_left {x X y : List Char} (hp : x <+: X)
    (h : commonPfxLen x y < x.length) :
    commonPfxLen X y = commonPfxLen x y := by
  obtain ⟨t, rfl⟩ := hp
  induction x generalizing y with
  | nil => simp [cpl_nil_left] at h
  | cons a s ih =>
      cases y with
      | nil => simp [cpl_nil_right]
      | cons b u =>
          rw [cpl_cons] at h ⊢
          rw [List.cons_append, cpl_cons]
          by_cases hab : a = b
          · rw [if_pos hab] at h ⊢
            rw [if_pos hab]
            simp only [List.length_cons] at h
            have := ih (y := u) (by omega)
            omega
          · rw [if_neg hab, if_neg hab]

theorem cpl_pos_of_head {x y : List Char} {c : Char}
    (hx : x.head? = some c) (hy : y.head? = some c) :
    1 ≤ commonPfxLen x y := by
  cases x with
  | nil => simp at hx
  | cons a t =>
      cases y with
      | nil => simp at hy
      | cons b u =>
          simp only [List.head?_cons, Option.some_inj] at hx hy
          rw [cpl_cons, if_pos (hx.trans hy.symm)]
          omega

/-! ### `getLoop`: fuel irrelevance and one-step unfolding under `NodeWF` -/

/-- `getLoop` never reads the node's own edge label. -/
theorem getLoop_pfx_irrel {V : Type} (fuel : Nat) (p1 p2 : List Char)
    (v : Option V) (ch : List (Char × TrieNode V)) (q : List Char) :
    getLoop fuel (.mk p1 v ch) q = getLoop fuel (.mk p2 v ch) q := by
  cases fuel with
  | zero => rfl
  | succ f =>
      cases q with
      | nil => rfl
      | cons c rest => simp only [getLoop, TrieNode.children, TrieNode.value]

/-- The canonical fuel for `getLoop`: `|q| + 1` steps, as used by
`trieGet`. -/
def nodeGet {V : Type} (node : TrieNode V) (q : List Char) : Option V :=
  getLoop (q.length + 1) node q

theorem getLoop_fuel {V : Type} :
    ∀ (fuel : Nat) (fuel2 : Nat) (node : TrieNode V) (q : List Char),
      NodeWF node → q.length < fuel → q.length < fuel2 →
      getLoop fuel node q = getLoop fuel2 node q := by
  intro fuel
  induction fuel with
  | zero => intro fuel2 node q _ h1 _; omega
  | succ f ih =>
      intro fuel2 node q hwf h1 h2
      cases fuel2 with
      | zero => omega
      | succ f2 =>
          cases q with
          | nil => rfl
          | cons c rest =>
              simp only [getLoop]
              cases hg : alGet node.children c with
              | none => rfl
              | some child =>
                  simp only []
                  have hmem := alGet_mem hg
                  have hhd := hwf.childHead hmem
                  have hwfc := hwf.childWF hmem
                  have hplen : 1 ≤ commonPfxLen (c :: rest) child.pfx :=
                    cpl_pos_of_head (by rfl) hhd
                  split
                  · rfl
                  · rename_i hge
                    have hle := cpl_le_left (c :: rest) child.pfx
                    apply ih
                    · exact hwfc
                    · simp only [List.length_drop, List.length_cons] at *
                      omega
                    · simp only [List.length_drop, List.length_cons] at *
                      omega

theorem getLoop_eq_nodeGet {V : Type} {fuel : Nat} {node : TrieNode V}
    {q : List Char} (hwf : NodeWF node) (h : q.length < fuel) :
    getLoop fuel node q = nodeGet node q :=
  getLoop_fuel fuel (q.length + 1) node q hwf h (Nat.lt_succ_self _)

theorem nodeGet_nil {V : Type} (node : TrieNode V) :
    nodeGet node [] = node.value := rfl

theorem nodeGet_cons_none {V : Type} {node : TrieNode V} {c : Char}
    {rest : List Char} (hg : alGet node.children c = none) :
    nodeGet node (c :: rest) = none := by
  simp only [nodeGet, getLoop, hg]

theorem nodeGet_cons_some {V : Type} {node : TrieNode V} {c : Char}
    {rest : List Char} {child : TrieNode V} (hwf : NodeWF node)
    (hg : alGet node.children c = some child) :
    nodeGet node (c :: rest) =
      if commonPfxLen (c :: rest) child.pfx < child.pfx.length then none
      else nodeGet child ((c :: rest).drop (commonPfxLen (c :: rest) child.pfx)) := by
  have hmem := alGet_mem hg
  have hhd := hwf.childHead hmem
  have hwfc := hwf.childWF hmem
  have hplen : 1 ≤ commonPfxLen (c :: rest) child.pfx :=
    cpl_pos_of_head (by rfl) hhd
  have h0 : nodeGet node (c :: rest) =
      (match alGet node.children c with
       | none => none
       | some ch =>
         if commonPfxLen (c :: rest) ch.pfx < ch.pfx.length then none
         else getLoop (c :: rest).length ch
           ((c :: rest).drop (commonPfxLen (c :: rest) ch.pfx))) := rfl
  rw [h0, hg]
  simp only []
  split
  · rfl
  · rename_i hge
    apply getLoop_eq_nodeGet hwfc
    simp only [List.length_drop, List.length_cons]
    omega

/-- Full characterisation of a descent step when the edge matches:
reading a key of the form `child.pfx ++ s` through a well-formed node
whose dict maps the head character to `child` continues inside `child`. -/
theorem nodeGet_edge {V : Type} {node : TrieNode V} {c : Char}
    {child : TrieNode V} (hwf : NodeWF node)
    (hg : alGet node.children c = some child) (s : List Char) :
    nodeGet node (child.pfx ++ s) = nodeGet child s := by
  have hmem := alGet_mem hg
  have hhd := hwf.childHead hmem
  have hne := hwf.childPfxNe hmem
  obtain ⟨c2, t2, hpfx⟩ : ∃ c2 t2, child.pfx = c2 :: t2 := by
    cases hp : child.pfx with
    | nil => exact absurd hp hne
    | cons a b => exact ⟨a, b, rfl⟩
  have hc2 : c2 = c := by
    rw [hpfx] at hhd
    simpa using hhd
  subst hc2
  have hcpl : commonPfxLen (child.pfx ++ s) child.pfx = child.pfx.length :=
    cpl_append_left _ _
  have hstep : nodeGet node (c2 :: (t2 ++ s)) =
      if commonPfxLen (c2 :: (t2 ++ s)) child.pfx < child.pfx.length then none
      else nodeGet child ((c2 :: (t2 ++ s)).drop
        (commonPfxLen (c2 :: (t2 ++ s)) child.pfx)) :=
    nodeGet_cons_some hwf hg
  have hkey : child.pfx ++ s = c2 :: (t2 ++ s) := by rw [hpfx]; rfl
  rw [hkey]
  rw [← hkey] at hstep ⊢
  rw [hstep, hcpl]
  rw [if_neg (by omega)]
  congr 1
  rw [List.drop_append_of_le_length (by rfl)]
  simp

/-! ### Helper lemmas for the `setLoop` correctness proof -/

theorem TrieNode.eta {V : Type} (node : TrieNode V) :
    node = .mk node.pfx node.value node.children := by
  cases node
  rfl

/-- For a non-empty key, `getLoop` never reads the node's own value. -/
theorem getLoop_value_irrel {V : Type} (fuel : Nat) (p : List Char)
    (va vb : Option V) (ch : List (Char × TrieNode V)) (c : Char)
    (x : List Char) :
    getLoop fuel (.mk p va ch) (c :: x) = getLoop fuel (.mk p vb ch) (c :: x) := by
  cases fuel with
  | zero => rfl
  | succ f => simp only [getLoop, TrieNode.children]

/-- For a non-empty key, `nodeGet` is determined by the dict lookup for
the head character. -/
theorem nodeGet_cons_ext {V : Type} {n1 n2 : TrieNode V} {a : Char}
    {x : List Char} (h : alGet n1.children a = alGet n2.children a) :
    nodeGet n1 (a :: x) = nodeGet n2 (a :: x) := by
  have h1 : nodeGet n1 (a :: x) =
      (match alGet n1.children a with
       | none => none
       | some ch =>
         if commonPfxLen (a :: x) ch.pfx < ch.pfx.length then none
         else getLoop (a :: x).length ch
           ((a :: x).drop (commonPfxLen (a :: x) ch.pfx))) := rfl
  have h2 : nodeGet n2 (a :: x) =
      (match alGet n2.children a with
       | none => none
       | some ch =>
         if commonPfxLen (a :: x) ch.pfx < ch.pfx.length then none
         else getLoop (a :: x).length ch
           ((a :: x).drop (commonPfxLen (a :: x) ch.pfx))) := rfl
  rw [h1, h2, h]

theorem cpl_take_eq :
    ∀ (x y : List Char), x.take (commonPfxLen x y) = y.take (commonPfxLen x y)
  | [], y => by simp [cpl_nil_left]
  | a :: t1, [] => by simp [cpl_nil_right]
  | a :: t1, b :: t2 => by
      rw [cpl_cons]
      by_cases h : a = b
      · rw [if_pos h]
        simp only [List.take_succ_cons, h]
        rw [cpl_take_eq t1 t2]
      · rw [if_neg h]
        simp

theorem cpl_cons_ne_zero {a b : Char} {x y : List Char} (h : a ≠ b) :
    commonPfxLen (a :: x) (b :: y) = 0 := by
  rw [cpl_cons, if_neg h]

theorem alSet_keys_of_mem {K V : Type} [DecidableEq K]
    {l : List (K × V)} {k : K} {w : V} (h : alGet l k = some w) (v : V) :
    ((alSet l k v).map (·.1)) = l.map (·.1) := by
  induction l with
  | nil => simp [alGet] at h
  | cons hd tl ih =>
      obtain ⟨k2, v2⟩ := hd
      rw [alGet_cons] at h
      simp only [alSet]
      by_cases hk : k2 = k
      · rw [if_pos hk]
        simp [hk]
      · rw [if_neg hk] at h ⊢
        simp [ih h]

theorem take_cons_head {n : Nat} (hn : 1 ≤ n) (c : Char)
    (l : List Char) : ((c :: l).take n).head? = some c := by
  cases n with
  | zero => omega
  | succ m => simp

theorem NodeWF_mk_val {V : Type} {p : List Char} {va vb : Option V}
    {children : List (Char × TrieNode V)}
    (h : NodeWF (.mk p va children)) : NodeWF (.mk p vb children) := by
  cases h with
  | mk hn hh hc => exact NodeWF.mk hn hh hc

theorem NodeWF_alSet {V : Type} {p : List Char} {val : Option V}
    {children : List (Char × TrieNode V)}
    (hwf : NodeWF (TrieNode.mk p val children)) (c : Char) (nc : TrieNode V)
    (hpfx : nc.pfx.head? = some c) (hwfc : NodeWF nc)
    (hkeys : ((alSet children c nc).map (·.1)).Nodup) :
    NodeWF (.mk p val (alSet children c nc)) := by
  refine NodeWF.mk hkeys ?_ ?_
  · intro a ch hm
    rcases mem_alSet hm with h1 | h1
    · exact hwf.childHead (by simpa [TrieNode.children] using h1)
    · rw [h1.2, h1.1]
      exact hpfx
  · intro a ch hm
    rcases mem_alSet hm with h1 | h1
    · exact hwf.childWF (by simpa [TrieNode.children] using h1)
    · rw [h1.2]
      exact hwfc

/-- The well-formedness of the intermediate node created by the
edge-splitting branch of `__setitem__`. -/
theorem NodeWF_split {V : Type} {child : TrieNode V} {t2 : List Char}
    {c2 : Char} (hwfc : NodeWF child) (t : List Char) (val : Option V) :
    NodeWF (.mk t val [(c2, .mk (c2 :: t2) child.value child.children)]) := by
  refine NodeWF.mk (by simp) ?_ ?_
  · intro a ch hm
    simp only [List.mem_singleton, Prod.mk.injEq] at hm
    rcases hm with ⟨rfl, rfl⟩
    rfl
  · intro a ch hm
    simp only [List.mem_singleton, Prod.mk.injEq] at hm
    rcases hm with ⟨rfl, rfl⟩
    cases hwfc with
    | mk hn hh hc => exact NodeWF.mk hn hh hc

/-- Reading through the split node produced by the edge-splitting branch
is the same as reading through the original edge. -/
theorem splitGet {V : Type} {child : TrieNode V} {t t2 : List Char}
    {c2 : Char} (hwfc : NodeWF child) (hpfx : child.pfx = t ++ c2 :: t2)
    (q3 : List Char) :
    nodeGet (.mk t none [(c2, .mk (c2 :: t2) child.value child.children)]) q3 =
      (if commonPfxLen (t ++ q3) child.pfx < child.pfx.length then none
       else nodeGet child ((t ++ q3).drop (commonPfxLen (t ++ q3) child.pfx))) := by
  have hlen : child.pfx.length = t.length + (t2.length + 1) := by
    rw [hpfx]; simp
  cases q3 with
  | nil =>
      have hc : commonPfxLen (t ++ []) child.pfx = t.length := by
        rw [List.append_nil, hpfx]
        exact cpl_append_right t (c2 :: t2)
      rw [hc, if_pos (by omega)]
      rfl
  | cons c5 q4 =>
      by_cases hc5 : c5 = c2
      · subst hc5
        have hsplit : alGet
            ([(c5, TrieNode.mk (c5 :: t2) child.value child.children)]) c5 =
            some (.mk (c5 :: t2) child.value child.children) := by
          rw [alGet_cons, if_pos rfl]
        have hstep := @nodeGet_cons_some V
          (.mk t none [(c5, TrieNode.mk (c5 :: t2) child.value child.children)])
          c5 q4 (TrieNode.mk (c5 :: t2) child.value child.children)
          (NodeWF_split hwfc t none) (by exact hsplit)
        rw [hstep]
        have hm3 : commonPfxLen (t ++ c5 :: q4) child.pfx =
            t.length + commonPfxLen (c5 :: q4) (c5 :: t2) := by
          rw [hpfx]
          exact cpl_append_both t _ _
        have hpfxS : (TrieNode.mk (c5 :: t2) child.value child.children).pfx
            = c5 :: t2 := rfl
        rw [hpfxS, hm3]
        have hcond : (commonPfxLen (c5 :: q4) (c5 :: t2) < (c5 :: t2).length) ↔
            (t.length + commonPfxLen (c5 :: q4) (c5 :: t2) < child.pfx.length) := by
          simp only [List.length_cons]
          omega
        by_cases hlt : commonPfxLen (c5 :: q4) (c5 :: t2) < (c5 :: t2).length
        · rw [if_pos hlt, if_pos (hcond.mp hlt)]
        · rw [if_neg hlt, if_neg (fun hx => hlt (hcond.mpr hx))]
          have hdrop : (t ++ c5 :: q4).drop
              (t.length + commonPfxLen (c5 :: q4) (c5 :: t2)) =
              (c5 :: q4).drop (commonPfxLen (c5 :: q4) (c5 :: t2)) := by
            rw [List.drop_append]
          rw [hdrop]
          cases hq : (c5 :: q4).drop (commonPfxLen (c5 :: q4) (c5 :: t2)) with
          | nil =>
              rw [nodeGet_nil, nodeGet_nil]
              rfl
          | cons a x =>
              have : nodeGet (TrieNode.mk (c5 :: t2) child.value child.children)
                  (a :: x) = nodeGet child (a :: x) := by
                conv_rhs => rw [TrieNode.eta child]
                exact getLoop_pfx_irrel _ _ _ _ _ _
              exact this
      · have hnone : alGet
            ([(c2, TrieNode.mk (c2 :: t2) child.value child.children)]) c5 =
            none := by
          rw [alGet_cons, if_neg (Ne.symm hc5), alGet_nil]
        rw [nodeGet_cons_none (by exact hnone)]
        have hm : commonPfxLen (t ++ c5 :: q4) child.pfx = t.length := by
          rw [hpfx, cpl_append_both, cpl_cons_ne_zero hc5]
          omega
        rw [hm, if_pos (by omega)]

/-! ### One-step equations for `setLoop` -/

theorem setLoop_nil {V : Type} (v : V) (f : Nat) (node : TrieNode V) :
    setLoop v (f + 1) node [] =
      (.mk node.pfx (some v) node.children,
        match node.value with | none => 1 | some _ => 0) := rfl

theorem setLoop_cons_none {V : Type} (v : V) (f : Nat) {node : TrieNode V}
    {c : Char} (rest : List Char) (hg : alGet node.children c = none) :
    setLoop v (f + 1) node (c :: rest) =
      (.mk node.pfx node.value
        (alSet node.children c (.mk (c :: rest) (some v) [])), 1) := by
  simp only [setLoop, hg]

theorem setLoop_cons_descend {V : Type} (v : V) (f : Nat) {node : TrieNode V}
    {c : Char} (rest : List Char) {child : TrieNode V}
    (hg : alGet node.children c = some child)
    (hfull : commonPfxLen (c :: rest) child.pfx = child.pfx.length) :
    setLoop v (f + 1) node (c :: rest) =
      (.mk node.pfx node.value
        (alSet node.children c
          (setLoop v f child
            ((c :: rest).drop (commonPfxLen (c :: rest) child.pfx))).1),
        (setLoop v f child
          ((c :: rest).drop (commonPfxLen (c :: rest) child.pfx))).2) := by
  simp only [setLoop, hg, if_pos hfull]

theorem setLoop_cons_splitEnd {V : Type} (v : V) (f : Nat) {node : TrieNode V}
    {c : Char} (rest : List Char) {child : TrieNode V} {c2 : Char}
    {t2 : List Char} (hg : alGet node.children c = some child)
    (hfull : ¬ commonPfxLen (c :: rest) child.pfx = child.pfx.length)
    (hd : child.pfx.drop (commonPfxLen (c :: rest) child.pfx) = c2 :: t2)
    (hd2 : (c :: rest).drop (commonPfxLen (c :: rest) child.pfx) = []) :
    setLoop v (f + 1) node (c :: rest) =
      (.mk node.pfx node.value
        (alSet node.children c
          (.mk ((c :: rest).take (commonPfxLen (c :: rest) child.pfx)) (some v)
            [(c2, .mk (c2 :: t2) child.value child.children)])), 1) := by
  simp only [setLoop, hg, if_neg hfull, hd, hd2]

theorem setLoop_cons_splitCont {V : Type} (v : V) (f : Nat) {node : TrieNode V}
    {c : Char} (rest : List Char) {child : TrieNode V} {c2 c3 : Char}
    {t2 t3 : List Char} (hg : alGet node.children c = some child)
    (hfull : ¬ commonPfxLen (c :: rest) child.pfx = child.pfx.length)
    (hd : child.pfx.drop (commonPfxLen (c :: rest) child.pfx) = c2 :: t2)
    (hd2 : (c :: rest).drop (commonPfxLen (c :: rest) child.pfx) = c3 :: t3) :
    setLoop v (f + 1) node (c :: rest) =
      (.mk node.pfx node.value
        (alSet node.children c
          (setLoop v f
            (.mk ((c :: rest).take (commonPfxLen (c :: rest) child.pfx)) none
              [(c2, .mk (c2 :: t2) child.value child.children)])
            (c3 :: t3)).1),
        (setLoop v f
          (.mk ((c :: rest).take (commonPfxLen (c :: rest) child.pfx)) none
            [(c2, .mk (c2 :: t2) child.value child.children)])
          (c3 :: t3)).2) := by
  simp only [setLoop, hg, if_neg hfull, hd, hd2]

/-- Correctness of one `__setitem__` insertion pass: the updated subtree
stays well-formed, keeps its edge label (and, for non-empty keys, its
value), and reads back as the functional update of the original
subtree. -/
theorem setLoop_spec {V : Type} (v : V) :
    ∀ (fuel : Nat) (node : TrieNode V) (k : List Char),
      NodeWF node → k.length < fuel →
      NodeWF (setLoop v fuel node k).1 ∧
      (setLoop v fuel node k).1.pfx = node.pfx ∧
      (k ≠ [] → (setLoop v fuel node k).1.value = node.value) ∧
      (∀ q : List Char,
        nodeGet (setLoop v fuel node k).1 q =
          if q = k then some v else nodeGet node q) := by
  intro fuel
  induction fuel with
  | zero => intro node k _ h; omega
  | succ f ih =>
    intro node k hwf hlen
    cases k with
    | nil =>
        rw [setLoop_nil]
        refine ⟨NodeWF_mk_val (TrieNode.eta node ▸ hwf), rfl,
          fun h => absurd rfl h, ?_⟩
        intro q
        cases q with
        | nil =>
            rw [if_pos rfl, nodeGet_nil]
            rfl
        | cons a x =>
            rw [if_neg (by simp)]
            exact nodeGet_cons_ext rfl
    | cons c rest =>
      cases hg : alGet node.children c with
      | none =>
          rw [setLoop_cons_none v f rest hg]
          have hleafwf : NodeWF (TrieNode.mk (c :: rest) (some v)
              ([] : List (Char × TrieNode V))) :=
            NodeWF.mk (by simp) (by intro a ch hm; simp at hm)
              (by intro a ch hm; simp at hm)
          have hwf2 : NodeWF (TrieNode.mk node.pfx node.value
              (alSet node.children c (.mk (c :: rest) (some v) []))) :=
            NodeWF_alSet (TrieNode.eta node ▸ hwf) c _ rfl hleafwf
              (alSet_nodup hwf.nodup hg)
          refine ⟨hwf2, rfl, fun _ => rfl, ?_⟩
          intro q
          cases q with
          | nil =>
              rw [if_neg (by simp), nodeGet_nil, nodeGet_nil]
              rfl
          | cons c4 q2 =>
              by_cases hc4 : c4 = c
              · subst hc4
                have hself : alGet (alSet node.children c4
                    (TrieNode.mk (c4 :: rest) (some v) [])) c4 =
                    some (.mk (c4 :: rest) (some v) []) := alGet_alSet_self _ _ _
                rw [nodeGet_cons_some hwf2 (by exact hself)]
                simp only [TrieNode.pfx_mk]
                by_cases heq : q2 = rest
                · subst heq
                  have hc : commonPfxLen (c4 :: q2) (c4 :: q2) =
                      (c4 :: q2).length := cpl_of_prefix (List.prefix_refl _)
                  rw [if_pos rfl, hc, if_neg (by omega), List.drop_length,
                    nodeGet_nil]
                  rfl
                · rw [if_neg (show ¬(c4 :: q2 = c4 :: rest) by simp [heq]),
                    nodeGet_cons_none hg]
                  by_cases hm : commonPfxLen (c4 :: q2) (c4 :: rest) <
                      (c4 :: rest).length
                  · rw [if_pos hm]
                  · rw [if_neg hm]
                    have hmeq : commonPfxLen (c4 :: q2) (c4 :: rest) =
                        (c4 :: rest).length :=
                      le_antisymm (cpl_le_right _ _) (not_lt.mp hm)
                    obtain ⟨s, hs⟩ := prefix_of_cpl_eq hmeq
                    have hdrop : (c4 :: q2).drop
                        (commonPfxLen (c4 :: q2) (c4 :: rest)) = s := by
                      rw [hmeq, ← hs, List.drop_left]
                    rw [hdrop]
                    cases s with
                    | nil =>
                        exfalso
                        apply heq
                        have := hs
                        simp only [List.append_nil, List.cons.injEq] at this
                        exact this.2.symm
                    | cons c5 s4 => exact nodeGet_cons_none (alGet_nil c5)
              · rw [if_neg (by simp [hc4])]
                exact nodeGet_cons_ext (alGet_alSet_ne _ _ _ _ hc4)
      | some child =>
          have hmem := alGet_mem hg
          have hhd := hwf.childHead hmem
          have hwfc := hwf.childWF hmem
          have hplen1 : 1 ≤ commonPfxLen (c :: rest) child.pfx :=
            cpl_pos_of_head rfl hhd
          have hplenle : commonPfxLen (c :: rest) child.pfx ≤
              child.pfx.length := cpl_le_right _ _
          have hplenlek : commonPfxLen (c :: rest) child.pfx ≤
              rest.length + 1 := by
            have := cpl_le_left (c :: rest) child.pfx
            simpa using this
          by_cases hfull : commonPfxLen (c :: rest) child.pfx =
              child.pfx.length
          · -- full edge match: descend into the child
            rw [setLoop_cons_descend v f rest hg hfull]
            have hk2len : ((c :: rest).drop
                (commonPfxLen (c :: rest) child.pfx)).length < f := by
              simp only [List.length_drop, List.length_cons]
              simp only [List.length_cons] at hlen
              omega
            obtain ⟨ihwf, ihpfx, ihval, ihget⟩ := ih child _ hwfc hk2len
            have hwf2 : NodeWF (TrieNode.mk node.pfx node.value
                (alSet node.children c
                  (setLoop v f child ((c :: rest).drop
                    (commonPfxLen (c :: rest) child.pfx))).1)) := by
              refine NodeWF_alSet (TrieNode.eta node ▸ hwf) c _ ?_ ihwf ?_
              · rw [ihpfx]; exact hhd
              · rw [alSet_keys_of_mem hg]; exact hwf.nodup
            refine ⟨hwf2, rfl, fun _ => rfl, ?_⟩
            intro q
            cases q with
            | nil =>
              rw [if_neg (by simp), nodeGet_nil, nodeGet_nil]
              rfl
            | cons c4 q2 =>
                by_cases hc4 : c4 = c
                · subst hc4
                  have hself : alGet (alSet node.children c4
                      (setLoop v f child ((c4 :: rest).drop
                        (commonPfxLen (c4 :: rest) child.pfx))).1) c4 =
                      some (setLoop v f child ((c4 :: rest).drop
                        (commonPfxLen (c4 :: rest) child.pfx))).1 :=
                    alGet_alSet_self _ _ _
                  rw [nodeGet_cons_some hwf2 (by exact hself), ihpfx,
                    nodeGet_cons_some hwf hg]
                  by_cases hm : commonPfxLen (c4 :: q2) child.pfx <
                      child.pfx.length
                  · rw [if_pos hm, if_pos hm]
                    have hne : (c4 :: q2) ≠ (c4 :: rest) := by
                      intro he
                      rw [he, hfull] at hm
                      omega
                    rw [if_neg hne]
                  · rw [if_neg hm, if_neg hm]
                    have hmeq : commonPfxLen (c4 :: q2) child.pfx =
                        child.pfx.length :=
                      le_antisymm (cpl_le_right _ _) (not_lt.mp hm)
                    obtain ⟨s, hs⟩ := prefix_of_cpl_eq hmeq
                    obtain ⟨s2, hs2⟩ := prefix_of_cpl_eq hfull
                    have hdrop : (c4 :: q2).drop
                        (commonPfxLen (c4 :: q2) child.pfx) = s := by
                      rw [hmeq, ← hs, List.drop_left]
                    have hdrop2 : (c4 :: rest).drop
                        (commonPfxLen (c4 :: rest) child.pfx) = s2 := by
                      rw [hfull, ← hs2, List.drop_left]
                    rw [hdrop, ihget s]
                    by_cases hss : s = s2
                    · rw [if_pos (hss.trans hdrop2.symm),
                        if_pos (by rw [← hs, ← hs2, hss])]
                    · rw [if_neg (fun h => hss (h.trans hdrop2)),
                        if_neg (fun h => hss
                          (List.append_cancel_left (hs.trans (h.trans hs2.symm))))]
                · rw [if_neg (by simp [hc4])]
                  exact nodeGet_cons_ext (alGet_alSet_ne _ _ _ _ hc4)
          · -- split the edge
            have hlt : commonPfxLen (c :: rest) child.pfx < child.pfx.length :=
              lt_of_le_of_ne hplenle hfull
            have hdne : child.pfx.drop
                (commonPfxLen (c :: rest) child.pfx) ≠ [] := by
              intro he
              have := congrArg List.length he
              simp only [List.length_drop, List.length_nil] at this
              omega
            cases hd : child.pfx.drop (commonPfxLen (c :: rest) child.pfx) with
            | nil => exact absurd hd hdne
            | cons c2 t2 =>
              have hpfx_decomp : child.pfx =
                  (c :: rest).take (commonPfxLen (c :: rest) child.pfx) ++
                    c2 :: t2 := by
                have h1 := cpl_take_eq (c :: rest) child.pfx
                have h2 := (List.take_append_drop
                  (commonPfxLen (c :: rest) child.pfx) child.pfx).symm
                rw [hd] at h2
                rw [h1]
                exact h2
              have ht_head : ((c :: rest).take
                  (commonPfxLen (c :: rest) child.pfx)).head? = some c :=
                take_cons_head hplen1 c rest
              have ht_len : ((c :: rest).take
                  (commonPfxLen (c :: rest) child.pfx)).length =
                  commonPfxLen (c :: rest) child.pfx := by
                rw [List.length_take]
                exact min_eq_left (by simpa using hplenlek)
              cases hd2 : (c :: rest).drop
                  (commonPfxLen (c :: rest) child.pfx) with
              | nil =>
                  -- inserted key is a proper prefix of the edge
                  have hplenk : commonPfxLen (c :: rest) child.pfx =
                      rest.length + 1 := by
                    have := congrArg List.length hd2
                    simp only [List.length_drop, List.length_cons,
                      List.length_nil] at this
                    omega
                  have ht_full : (c :: rest).take
                      (commonPfxLen (c :: rest) child.pfx) = c :: rest := by
                    have : commonPfxLen (c :: rest) child.pfx =
                        (c :: rest).length := by simpa using hplenk
                    rw [this, List.take_length]
                  rw [setLoop_cons_splitEnd v f rest hg hfull hd hd2]
                  rw [ht_full]
                  have hpfx_decomp2 : child.pfx = (c :: rest) ++ c2 :: t2 :=
                    hpfx_decomp.trans (by rw [ht_full])
                  have hkpfx : (c :: rest) <+: child.pfx :=
                    ⟨c2 :: t2, hpfx_decomp2.symm⟩
                  have hsvwf : NodeWF (TrieNode.mk (c :: rest) (some v)
                      [(c2, TrieNode.mk (c2 :: t2) child.value
                        child.children)]) :=
                    NodeWF_split hwfc _ _
                  have hwf2 : NodeWF (TrieNode.mk node.pfx node.value
                      (alSet node.children c
                        (.mk (c :: rest) (some v)
                          [(c2, .mk (c2 :: t2) child.value
                            child.children)]))) := by
                    refine NodeWF_alSet (TrieNode.eta node ▸ hwf) c _ rfl
                      hsvwf ?_
                    rw [alSet_keys_of_mem hg]; exact hwf.nodup
                  refine ⟨hwf2, rfl, fun _ => rfl, ?_⟩
                  intro q
                  cases q with
                  | nil =>
              rw [if_neg (by simp), nodeGet_nil, nodeGet_nil]
              rfl
                  | cons c4 q2 =>
                      by_cases hc4 : c4 = c
                      · subst hc4
                        have hself : alGet (alSet node.children c4
                            (TrieNode.mk (c4 :: rest) (some v)
                              [(c2, TrieNode.mk (c2 :: t2) child.value
                                child.children)])) c4 =
                            some (.mk (c4 :: rest) (some v)
                              [(c2, .mk (c2 :: t2) child.value
                                child.children)]) := alGet_alSet_self _ _ _
                        rw [nodeGet_cons_some hwf2 (by exact hself)]
                        simp only [TrieNode.pfx_mk]
                        by_cases hm : commonPfxLen (c4 :: q2) (c4 :: rest) <
                            (c4 :: rest).length
                        · rw [if_pos hm]
                          have hneq : (c4 :: q2) ≠ (c4 :: rest) := by
                            intro he
                            rw [he, cpl_of_prefix (List.prefix_refl _)] at hm
                            omega
                          rw [if_neg hneq, nodeGet_cons_some hwf hg]
                          have hmx : commonPfxLen (c4 :: q2) child.pfx =
                              commonPfxLen (c4 :: q2) (c4 :: rest) :=
                            cpl_ext_right hkpfx hm
                          have hcond : commonPfxLen (c4 :: q2) (c4 :: rest) <
                              child.pfx.length := by
                            have h9 := congrArg List.length hpfx_decomp2
                            simp only [List.length_append,
                              List.length_cons] at h9
                            have hm2 : commonPfxLen (c4 :: q2) (c4 :: rest) <
                                rest.length + 1 := by simpa using hm
                            omega
                          rw [hmx, if_pos hcond]
                        · rw [if_neg hm]
                          have hmeq : commonPfxLen (c4 :: q2) (c4 :: rest) =
                              (c4 :: rest).length :=
                            le_antisymm (cpl_le_right _ _) (not_lt.mp hm)
                          obtain ⟨q3, hq3⟩ := prefix_of_cpl_eq hmeq
                          have hdropq : (c4 :: q2).drop
                              (commonPfxLen (c4 :: q2) (c4 :: rest)) = q3 := by
                            rw [hmeq, ← hq3, List.drop_left]
                          rw [hdropq]
                          cases q3 with
                          | nil =>
                              have hqk : (c4 :: q2) = (c4 :: rest) := by
                                rw [← hq3]; simp
                              rw [if_pos hqk, nodeGet_nil]
                              rfl
                          | cons c5 q4 =>
                              have hqk : (c4 :: q2) ≠ (c4 :: rest) := by
                                intro he
                                have := congrArg List.length (hq3.trans he)
                                simp at this
                              rw [if_neg hqk]
                              have hvi : nodeGet (TrieNode.mk (c4 :: rest)
                                  (some v) [(c2, TrieNode.mk (c2 :: t2)
                                    child.value child.children)]) (c5 :: q4) =
                                  nodeGet (TrieNode.mk (c4 :: rest)
                                    (none : Option V)
                                    [(c2, TrieNode.mk (c2 :: t2)
                                      child.value child.children)])
                                    (c5 :: q4) :=
                                getLoop_value_irrel _ _ _ _ _ _ _
                              rw [hvi, splitGet hwfc hpfx_decomp2 (c5 :: q4),
                                hq3, nodeGet_cons_some hwf hg]
                      · rw [if_neg (by simp [hc4])]
                        exact nodeGet_cons_ext (alGet_alSet_ne _ _ _ _ hc4)
              | cons c3 t3 =>
                  -- split, then continue inserting below the split node
                  rw [setLoop_cons_splitCont v f rest hg hfull hd hd2]
                  have hkdec : (c :: rest) =
                      (c :: rest).take (commonPfxLen (c :: rest) child.pfx) ++
                        c3 :: t3 := by
                    have := (List.take_append_drop
                      (commonPfxLen (c :: rest) child.pfx) (c :: rest)).symm
                    rw [hd2] at this
                    exact this
                  have hsblen : (c3 :: t3).length < f := by
                    have := congrArg List.length hd2
                    simp only [List.length_drop, List.length_cons] at this ⊢
                    simp only [List.length_cons] at hlen
                    omega
                  have hsbwf : NodeWF (TrieNode.mk
                      ((c :: rest).take (commonPfxLen (c :: rest) child.pfx))
                      none [(c2, TrieNode.mk (c2 :: t2) child.value
                        child.children)]) := NodeWF_split hwfc _ _
                  obtain ⟨ihwf, ihpfx, ihval, ihget⟩ :=
                    ih _ (c3 :: t3) hsbwf hsblen
                  have hwf2 : NodeWF (TrieNode.mk node.pfx node.value
                      (alSet node.children c
                        (setLoop v f
                          (.mk ((c :: rest).take
                            (commonPfxLen (c :: rest) child.pfx)) none
                            [(c2, .mk (c2 :: t2) child.value child.children)])
                          (c3 :: t3)).1)) := by
                    refine NodeWF_alSet (TrieNode.eta node ▸ hwf) c _ ?_
                      ihwf ?_
                    · rw [ihpfx]
                      exact ht_head
                    · rw [alSet_keys_of_mem hg]; exact hwf.nodup
                  refine ⟨hwf2, rfl, fun _ => rfl, ?_⟩
                  intro q
                  cases q with
                  | nil =>
              rw [if_neg (by simp), nodeGet_nil, nodeGet_nil]
              rfl
                  | cons c4 q2 =>
                      by_cases hc4 : c4 = c
                      · subst hc4
                        have hself : alGet (alSet node.children c4
                            (setLoop v f
                              (TrieNode.mk ((c4 :: rest).take
                                (commonPfxLen (c4 :: rest) child.pfx)) none
                                [(c2, TrieNode.mk (c2 :: t2) child.value
                                  child.children)])
                              (c3 :: t3)).1) c4 =
                            some (setLoop v f
                              (.mk ((c4 :: rest).take
                                (commonPfxLen (c4 :: rest) child.pfx)) none
                                [(c2, .mk (c2 :: t2) child.value
                                  child.children)])
                              (c3 :: t3)).1 := alGet_alSet_self _ _ _
                        rw [nodeGet_cons_some hwf2 (by exact hself), ihpfx]
                        simp only [TrieNode.pfx_mk]
                        rw [ht_len]
                        by_cases hm : commonPfxLen (c4 :: q2)
                            ((c4 :: rest).take
                              (commonPfxLen (c4 :: rest) child.pfx)) <
                            commonPfxLen (c4 :: rest) child.pfx
                        · rw [if_pos hm]
                          have htk : (c4 :: rest).take
                              (commonPfxLen (c4 :: rest) child.pfx) <+:
                              (c4 :: rest) := List.take_prefix _ _
                          have htc : (c4 :: rest).take
                              (commonPfxLen (c4 :: rest) child.pfx) <+:
                              child.pfx := ⟨c2 :: t2, hpfx_decomp.symm⟩
                          have hmk : commonPfxLen (c4 :: q2) (c4 :: rest) =
                              commonPfxLen (c4 :: q2)
                                ((c4 :: rest).take
                                  (commonPfxLen (c4 :: rest) child.pfx)) :=
                            cpl_ext_right htk (by rw [ht_len]; exact hm)
                          have hneq : (c4 :: q2) ≠ (c4 :: rest) := by
                            intro he
                            have h3 : commonPfxLen (c4 :: rest)
                                ((c4 :: rest).take
                                  (commonPfxLen (c4 :: rest) child.pfx)) =
                                ((c4 :: rest).take
                                  (commonPfxLen (c4 :: rest)
                                    child.pfx)).length :=
                              cpl_of_prefix htk
                            rw [he, h3, ht_len] at hm
                            exact absurd hm (lt_irrefl _)
                          rw [if_neg hneq, nodeGet_cons_some hwf hg]
                          have hmc : commonPfxLen (c4 :: q2) child.pfx =
                              commonPfxLen (c4 :: q2)
                                ((c4 :: rest).take
                                  (commonPfxLen (c4 :: rest) child.pfx)) :=
                            cpl_ext_right htc (by rw [ht_len]; exact hm)
                          have hcond : commonPfxLen (c4 :: q2)
                              ((c4 :: rest).take
                                (commonPfxLen (c4 :: rest) child.pfx)) <
                              child.pfx.length := lt_trans hm hlt
                          rw [hmc, if_pos hcond]
                        · rw [if_neg hm]
                          have hmeq : commonPfxLen (c4 :: q2)
                              ((c4 :: rest).take
                                (commonPfxLen (c4 :: rest) child.pfx)) =
                              commonPfxLen (c4 :: rest) child.pfx :=
                            le_antisymm (by
                              have := cpl_le_right (c4 :: q2)
                                ((c4 :: rest).take
                                  (commonPfxLen (c4 :: rest) child.pfx))
                              rw [ht_len] at this
                              exact this) (not_lt.mp hm)
                          obtain ⟨q3, hq3⟩ := prefix_of_cpl_eq
                            (hmeq.trans ht_len.symm)
                          have hdropq : (c4 :: q2).drop
                              (commonPfxLen (c4 :: q2)
                                ((c4 :: rest).take
                                  (commonPfxLen (c4 :: rest) child.pfx))) =
                              q3 := by
                            have h1 : List.drop ((c4 :: rest).take
                                (commonPfxLen (c4 :: rest) child.pfx)).length
                                (((c4 :: rest).take
                                  (commonPfxLen (c4 :: rest) child.pfx)) ++ q3) =
                                q3 := List.drop_left _ _
                            rw [hq3, ht_len] at h1
                            rw [hmeq]
                            exact h1
                          rw [hdropq, ihget q3]
                          by_cases hq3k : q3 = c3 :: t3
                          · rw [if_pos hq3k,
                              if_pos (by rw [← hq3, hq3k, ← hkdec])]
                          · rw [if_neg hq3k]
                            have hqneq : (c4 :: q2) ≠ (c4 :: rest) := by
                              intro he
                              apply hq3k
                              have h2 : ((c4 :: rest).take
                                  (commonPfxLen (c4 :: rest) child.pfx)) ++ q3 =
                                  ((c4 :: rest).take
                                    (commonPfxLen (c4 :: rest) child.pfx)) ++
                                    c3 :: t3 := by
                                rw [hq3, he]
                                exact hkdec
                              exact List.append_cancel_left h2
                            rw [if_neg hqneq,
                              splitGet hwfc hpfx_decomp q3, hq3,
                              nodeGet_cons_some hwf hg]
                      · rw [if_neg (by simp [hc4])]
                        exact nodeGet_cons_ext (alGet_alSet_ne _ _ _ _ hc4)

/-! ### Characterisation of `keys_with_prefix` -/

theorem prefix_of_cpl_eq_left {x y : List Char}
    (h : commonPfxLen x y = x.length) : x <+: y := by
  induction x generalizing y with
  | nil => exact List.nil_prefix
  | cons a t ih =>
      cases y with
      | nil => simp [cpl_nil_right] at h
      | cons b u =>
          rw [cpl_cons] at h
          by_cases hab : a = b
          · rw [if_pos hab] at h
            subst hab
            simp only [List.length_cons, Nat.add_right_cancel_iff] at h
            exact (List.prefix_cons_inj _).mpr (ih h)
          · rw [if_neg hab] at h
            simp at h

/-- A non-empty key reads through a well-formed node exactly when it
decomposes as a child's edge label followed by a key read inside that
child. -/
theorem nodeGet_decomp {V : Type} {node : TrieNode V} (hwf : NodeWF node)
    {s : List Char} (hne : s ≠ []) :
    (nodeGet node s).isSome = true ↔
      ∃ c ch s2, (c, ch) ∈ node.children ∧ s = ch.pfx ++ s2 ∧
        (nodeGet ch s2).isSome = true := by
  cases s with
  | nil => exact absurd rfl hne
  | cons c s1 =>
      constructor
      · intro h
        cases hg : alGet node.children c with
        | none => rw [nodeGet_cons_none hg] at h; simp at h
        | some ch =>
            rw [nodeGet_cons_some hwf hg] at h
            by_cases hlt : commonPfxLen (c :: s1) ch.pfx < ch.pfx.length
            · rw [if_pos hlt] at h; simp at h
            · rw [if_neg hlt] at h
              have hmeq : commonPfxLen (c :: s1) ch.pfx = ch.pfx.length :=
                le_antisymm (cpl_le_right _ _) (not_lt.mp hlt)
              obtain ⟨s2, hs2⟩ := prefix_of_cpl_eq hmeq
              have hdrop : (c :: s1).drop
                  (commonPfxLen (c :: s1) ch.pfx) = s2 := by
                rw [hmeq, ← hs2, List.drop_left]
              rw [hdrop] at h
              exact ⟨c, ch, s2, alGet_mem hg, hs2.symm, h⟩
      · rintro ⟨c2, ch, s2, hmem, hseq, hget⟩
        have hg : alGet node.children c2 = some ch :=
          mem_alGet_of_nodup hwf.nodup hmem
        have := nodeGet_edge hwf hg s2
        rw [← hseq] at this
        rw [this]
        exact hget

theorem sizeOf_child_lt {V : Type} {p : List Char} {val : Option V}
    {children : List (Char × TrieNode V)} {c : Char} {ch : TrieNode V}
    (hm : (c, ch) ∈ children) :
    sizeOf ch < sizeOf (TrieNode.mk p val children) := by
  have h1 := List.sizeOf_lt_of_mem hm
  simp only [Prod.mk.sizeOf_spec] at h1
  simp only [TrieNode.mk.sizeOf_spec]
  omega

/-- `_collect_keys` collects exactly the keys that read successfully in
the subtree, each prefixed by the path to the subtree. -/
theorem collectKeys_mem {V : Type} :
    ∀ (N : Nat) (node : TrieNode V), sizeOf node ≤ N →
      ∀ (path q : List Char), NodeWF node →
      (q ∈ collectKeys node path ↔
        ∃ s, q = path ++ s ∧ (nodeGet node s).isSome = true) := by
  intro N
  induction N with
  | zero =>
      intro node hsz
      exfalso
      cases node with
      | mk p val children =>
          simp only [TrieNode.mk.sizeOf_spec] at hsz
          omega
  | succ n ihN =>
      intro node hsz path q hwf
      cases node with
      | mk p val children =>
          have hcc : ∀ (cs : List (Char × TrieNode V)),
              (∀ x, x ∈ cs → x ∈ children) →
              (q ∈ collectChildren cs path ↔
                ∃ c ch s2, (c, ch) ∈ cs ∧ q = path ++ (ch.pfx ++ s2) ∧
                  (nodeGet ch s2).isSome = true) := by
            intro cs hsub
            induction cs with
            | nil => simp [collectChildren]
            | cons hd tl ihtl =>
                obtain ⟨c, ch⟩ := hd
                have hchm : (c, ch) ∈ children :=
                  hsub _ (List.mem_cons_self _ _)
                have hchwf : NodeWF ch :=
                  hwf.childWF (by simpa using hchm)
                have hchsz : sizeOf ch ≤ n := by
                  have := @sizeOf_child_lt V p val children c ch hchm
                  omega
                have ihch := ihN ch hchsz (path ++ ch.pfx) q hchwf
                simp only [collectChildren, List.mem_append]
                rw [ihch, ihtl (fun x hx => hsub x (List.mem_cons_of_mem _ hx))]
                constructor
                · rintro (⟨s2, hq, hs⟩ | ⟨c3, ch3, s3, hm3, hq3, hs3⟩)
                  · exact ⟨c, ch, s2, List.mem_cons_self _ _,
                      by rw [hq, List.append_assoc], hs⟩
                  · exact ⟨c3, ch3, s3, List.mem_cons_of_mem _ hm3, hq3, hs3⟩
                · rintro ⟨c3, ch3, s3, hm3, hq3, hs3⟩
                  rcases List.mem_cons.mp hm3 with h | h
                  · obtain ⟨h1, h2⟩ := Prod.mk.injEq .. ▸ h
                    left
                    cases h
                    exact ⟨s3, by rw [hq3, List.append_assoc], hs3⟩
                  · right
                    exact ⟨c3, ch3, s3, h, hq3, hs3⟩
          simp only [collectKeys, List.mem_append]
          rw [hcc children (fun x hx => hx)]
          constructor
          · rintro (hval | ⟨c, ch, s2, hm, hq, hs⟩)
            · refine ⟨[], ?_, ?_⟩
              · cases hv : val with
                | none => rw [hv] at hval; simp at hval
                | some w =>
                    rw [hv] at hval
                    simp only [List.mem_singleton] at hval
                    simp [hval]
              · rw [nodeGet_nil]
                cases hv : val with
                | none => rw [hv] at hval; simp at hval
                | some w => simp [TrieNode.value_mk]
            · refine ⟨ch.pfx ++ s2, hq, ?_⟩
              have hg : alGet (TrieNode.mk p val children).children c =
                  some ch := mem_alGet_of_nodup hwf.nodup (by simpa using hm)
              rw [nodeGet_edge hwf hg s2]
              exact hs
          · rintro ⟨s, hq, hs⟩
            cases s with
            | nil =>
                left
                rw [nodeGet_nil, TrieNode.value_mk] at hs
                cases hv : val with
                | none => rw [hv] at hs; simp at hs
                | some w => simp [hq]
            | cons c s1 =>
                right
                have hd := (nodeGet_decomp hwf (by simp)).mp hs
                obtain ⟨c2, ch, s2, hm, hseq, hget⟩ := hd
                exact ⟨c2, ch, s2, by simpa using hm,
                  by rw [hq, hseq], hget⟩

/-- The navigation loop of `keys_with_prefix` collects exactly the
successfully-reading keys extending the requested prefix. -/
theorem navLoop_mem {V : Type} :
    ∀ (fuel : Nat) (node : TrieNode V) (p path q : List Char),
      NodeWF node → p.length < fuel →
      ((q ∈ (match navLoop fuel node p path with
        | none => ([] : List (List Char))
        | some (n2, path2) => collectKeys n2 path2)) ↔
        ∃ s, q = path ++ s ∧ p <+: s ∧ (nodeGet node s).isSome = true) := by
  intro fuel
  induction fuel with
  | zero => intro node p path q _ h; omega
  | succ f ih =>
      intro node p path q hwf hlen
      cases p with
      | nil =>
          simp only [navLoop]
          rw [collectKeys_mem (sizeOf node) node (le_refl _) path q hwf]
          constructor
          · rintro ⟨s, hq, hs⟩
            exact ⟨s, hq, List.nil_prefix, hs⟩
          · rintro ⟨s, hq, _, hs⟩
            exact ⟨s, hq, hs⟩
      | cons c rest =>
          simp only [navLoop]
          cases hg : alGet node.children c with
          | none =>
              simp only [List.not_mem_nil, false_iff]
              rintro ⟨s, hq, hpf, hs⟩
              obtain ⟨s1, hs1⟩ := hpf
              have hsne : s = c :: (rest ++ s1) := by rw [← hs1]; rfl
              rw [hsne, nodeGet_cons_none hg] at hs
              simp at hs
          | some child =>
              have hmem := alGet_mem hg
              have hhd := hwf.childHead hmem
              have hwfc := hwf.childWF hmem
              have hplen1 : 1 ≤ commonPfxLen (c :: rest) child.pfx :=
                cpl_pos_of_head rfl hhd
              simp only []
              by_cases hlt : commonPfxLen (c :: rest) child.pfx <
                  (c :: rest).length
              · rw [if_pos hlt]
                by_cases heq : commonPfxLen (c :: rest) child.pfx =
                    child.pfx.length
                · rw [if_pos heq]
                  have hrec := ih child ((c :: rest).drop
                      (commonPfxLen (c :: rest) child.pfx))
                      (path ++ child.pfx) q hwfc (by
                        simp only [List.length_drop, List.length_cons]
                        simp only [List.length_cons] at hlen
                        omega)
                  rw [hrec]
                  obtain ⟨dp, hdp⟩ := prefix_of_cpl_eq heq
                  have hdrop : (c :: rest).drop
                      (commonPfxLen (c :: rest) child.pfx) = dp := by
                    rw [heq, ← hdp, List.drop_left]
                  rw [hdrop]
                  constructor
                  · rintro ⟨s3, hq3, hpf3, hs3⟩
                    refine ⟨child.pfx ++ s3, by rw [hq3, List.append_assoc],
                      ?_, ?_⟩
                    · obtain ⟨s4, hs4⟩ := hpf3
                      exact ⟨s4, by rw [← hs4, ← List.append_assoc, hdp]⟩
                    · rw [nodeGet_edge hwf hg s3]
                      exact hs3
                  · rintro ⟨s, hq, hpf, hs⟩
                    obtain ⟨s1, hs1⟩ := hpf
                    have hshead : s.head? = some c := by
                      rw [← hs1]; rfl
                    obtain ⟨cs, s2, hs2⟩ : ∃ cs s2, s = cs :: s2 := by
                      cases s with
                      | nil => simp at hshead
                      | cons a b => exact ⟨a, b, rfl⟩
                    have hcs : cs = c := by
                      rw [hs2] at hshead
                      simpa using hshead
                    subst hcs
                    subst hs2
                    rw [nodeGet_cons_some hwf hg] at hs
                    by_cases hlt2 : commonPfxLen (cs :: s2) child.pfx <
                        child.pfx.length
                    · rw [if_pos hlt2] at hs; simp at hs
                    · rw [if_neg hlt2] at hs
                      have hmeq2 : commonPfxLen (cs :: s2) child.pfx =
                          child.pfx.length :=
                        le_antisymm (cpl_le_right _ _) (not_lt.mp hlt2)
                      obtain ⟨s3, hs3⟩ := prefix_of_cpl_eq hmeq2
                      have hdrop2 : (cs :: s2).drop
                          (commonPfxLen (cs :: s2) child.pfx) = s3 := by
                        rw [hmeq2, ← hs3, List.drop_left]
                      rw [hdrop2] at hs
                      refine ⟨s3, ?_, ?_, hs⟩
                      · rw [List.append_assoc, hs3]
                        exact hq
                      · -- dp <+: s3 from  (c::rest) = child.pfx ++ dp <+: s
                        have hcat : child.pfx ++ (dp ++ s1) =
                            child.pfx ++ s3 := by
                          rw [hs3, ← List.append_assoc, hdp, hs1]
                        exact ⟨s1, List.append_cancel_left hcat⟩
                · -- mismatch strictly inside both: no key matches
                  rw [if_neg heq]
                  simp only [List.not_mem_nil, false_iff]
                  rintro ⟨s, hq, hpf, hs⟩
                  obtain ⟨s1, hs1⟩ := hpf
                  have hsne : s = c :: (rest ++ s1) := by rw [← hs1]; rfl
                  rw [hsne, nodeGet_cons_some hwf hg] at hs
                  have hcx : commonPfxLen (c :: (rest ++ s1)) child.pfx =
                      commonPfxLen (c :: rest) child.pfx := by
                    have hpfx2 : (c :: rest) <+: (c :: (rest ++ s1)) :=
                      ⟨s1, by simp⟩
                    exact cpl_ext_left hpfx2 (by simpa using hlt)
                  rw [hcx, if_pos (lt_of_le_of_ne (cpl_le_right _ _) heq)] at hs
                  simp at hs
              · -- the prefix ends inside (or exactly at) this edge
                rw [if_neg hlt]
                have hple : commonPfxLen (c :: rest) child.pfx =
                    (c :: rest).length :=
                  le_antisymm (cpl_le_left _ _) (not_lt.mp hlt)
                have hppfx : (c :: rest) <+: child.pfx :=
                  prefix_of_cpl_eq_left hple
                rw [collectKeys_mem (sizeOf child) child (le_refl _)
                  (path ++ child.pfx) q hwfc]
                constructor
                · rintro ⟨s3, hq3, hs3⟩
                  refine ⟨child.pfx ++ s3, by rw [hq3, List.append_assoc],
                    hppfx.trans ⟨s3, rfl⟩, ?_⟩
                  rw [nodeGet_edge hwf hg s3]
                  exact hs3
                · rintro ⟨s, hq, hpf, hs⟩
                  obtain ⟨s1, hs1⟩ := hpf
                  have hshead : s.head? = some c := by rw [← hs1]; rfl
                  obtain ⟨cs, s2, hs2⟩ : ∃ cs s2, s = cs :: s2 := by
                    cases s with
                    | nil => simp at hshead
                    | cons a b => exact ⟨a, b, rfl⟩
                  have hcs : cs = c := by
                    rw [hs2] at hshead
                    simpa using hshead
                  subst hcs
                  subst hs2
                  rw [nodeGet_cons_some hwf hg] at hs
                  by_cases hlt2 : commonPfxLen (cs :: s2) child.pfx <
                      child.pfx.length
                  · rw [if_pos hlt2] at hs; simp at hs
                  · rw [if_neg hlt2] at hs
                    have hmeq2 : commonPfxLen (cs :: s2) child.pfx =
                        child.pfx.length :=
                      le_antisymm (cpl_le_right _ _) (not_lt.mp hlt2)
                    obtain ⟨s3, hs3⟩ := prefix_of_cpl_eq hmeq2
                    have hdrop2 : (cs :: s2).drop
                        (commonPfxLen (cs :: s2) child.pfx) = s3 := by
                      rw [hmeq2, ← hs3, List.drop_left]
                    rw [hdrop2] at hs
                    exact ⟨s3, by rw [List.append_assoc, hs3]; exact hq, hs⟩

/-- `keys_with_prefix` on a well-formed trie returns exactly the stored
keys extending the prefix. -/
theorem keysWithPfx_mem {V : Type} {t : PatriciaTrie V} (hwf : TrieWF t)
    (p q : List Char) :
    q ∈ keysWithPfx t p ↔ p <+: q ∧ (trieGet t q).isSome = true := by
  have h := navLoop_mem (p.length + 1) t.root p [] q hwf.wf
    (Nat.lt_succ_self _)
  rw [keysWithPfx]
  rw [h]
  constructor
  · rintro ⟨s, hq, hpf, hs⟩
    simp only [List.nil_append] at hq
    subst hq
    exact ⟨hpf, hs⟩
  · rintro ⟨hpf, hs⟩
    exact ⟨q, by simp, hpf, hs⟩

/-! ## Storage backends  (src/xsdmesh/types/storage.py)

Both backends are generic over the stored component type `T`; the
component's `qname` property (needed by `DictStorage.remove`'s
namespace-index filter) is passed as a function `qnameOf`.  Python dicts
(`_items`, `_namespace_index`, the trie's per-namespace buckets) are
insertion-ordered association lists. -/

theorem alHasKey_iff_isSome {K V : Type} [DecidableEq K]
    (l : List (K × V)) (k : K) :
    alHasKey l k = true ↔ (alGet l k).isSome = true := by
  induction l with
  | nil => simp [alHasKey, alGet]
  | cons hd tl ih =>
      obtain ⟨k2, v2⟩ := hd
      rw [alGet_cons]
      by_cases h : k2 = k
      · simp [alHasKey, h]
      · simpa [alHasKey, h] using ih

theorem alHasKey_eq_isSome {K V : Type} [DecidableEq K]
    (l : List (K × V)) (k : K) :
    alHasKey l k = (alGet l k).isSome := by
  induction l with
  | nil => simp [alHasKey, alGet]
  | cons hd tl ih =>
      obtain ⟨k2, v2⟩ := hd
      rw [alGet_cons]
      by_cases h : k2 = k
      · simp [alHasKey, h]
      · simpa [alHasKey, h] using ih

theorem alHasKey_false_iff {K V : Type} [DecidableEq K]
    (l : List (K × V)) (k : K) :
    alHasKey l k = false ↔ alGet l k = none := by
  rw [← Bool.not_eq_true, alHasKey_iff_isSome]
  cases alGet l k <;> simp

/-- `DictStorage` (storage.py lines 158-253): exact-match dict plus a
namespace index. -/
structure DictStorage (T : Type) where
  items : List (QName × T)
  namespace_index : List (String × List T)

def DictStorage.emptyD {T : Type} : DictStorage T := ⟨[], []⟩

/-- `DictStorage.store` (storage.py lines 172-184). -/
def DictStorage.store {T : Type} (s : DictStorage T) (qn : QName)
    (component : T) : Except String (DictStorage T) :=
  if alHasKey s.items qn then
    .error ("Component already registered: " ++ qn.expanded)
  else
    .ok { items := alSet s.items qn component
          namespace_index :=
            alSet s.namespace_index qn.ns
              (((alGet s.namespace_index qn.ns).getD []) ++ [component]) }

/-- `DictStorage.lookup` (storage.py lines 186-188). -/
def DictStorage.lookupD {T : Type} (s : DictStorage T) (qn : QName) :
    Option T :=
  alGet s.items qn

/-- `DictStorage.remove` (storage.py lines 190-202). -/
def DictStorage.removeD {T : Type} (qnameOf : T → QName) (s : DictStorage T)
    (qn : QName) : Bool × DictStorage T :=
  match alGet s.items qn with
  | none => (false, s)
  | some _ =>
      let items2 := alErase s.items qn
      let idx2 :=
        match alGet s.namespace_index qn.ns with
        | none => s.namespace_index
        | some comps =>
            let comps2 := comps.filter (fun c => qnameOf c ≠ qn)
            if comps2.isEmpty then alErase s.namespace_index qn.ns
            else alSet s.namespace_index qn.ns comps2
      (true, ⟨items2, idx2⟩)

/-- `DictStorage.__contains__` (storage.py lines 204-206). -/
def DictStorage.containsD {T : Type} (s : DictStorage T) (qn : QName) : Bool :=
  alHasKey s.items qn

/-- `DictStorage.by_namespace_prefix` (storage.py lines 220-226):
linear scan of the namespace index, `str.startswith` modelled on the
character lists. -/
def DictStorage.byNamespacePfx {T : Type} (s : DictStorage T) (pfx : String) :
    List T :=
  (s.namespace_index.filter (fun e => pfx.data.isPrefixOf e.1.data)).flatMap (·.2)

/-- `DictStorage.clear` (storage.py lines 236-239). -/
def DictStorage.clearD {T : Type} (_ : DictStorage T) : DictStorage T :=
  ⟨[], []⟩

/-- `TrieStorage` (storage.py lines 256-437): Patricia trie of
per-namespace buckets guarded by a Bloom filter, plus an item count. -/
structure TrieStorage (T : Type) where
  trie : PatriciaTrie (List (String × T))
  bloom : BloomFilter
  countT : Nat

/-- A fresh `TrieStorage`; the Bloom geometry (`size`, `num_hashes`) is
whatever the float sizing formulas produced. -/
def TrieStorage.emptyTS {T : Type} (size num_hashes : Nat) : TrieStorage T :=
  ⟨PatriciaTrie.emptyT, ⟨size, num_hashes, fun _ => false, 0⟩, 0⟩

/-- `TrieStorage.store` (storage.py lines 297-316).  When the namespace
is new, Python inserts an empty bucket dict into the trie and then fills
it in place; the net trie value is the one-entry bucket.  When the
bucket exists, the in-place `ns_dict[local] = component` is modelled as
updating the trie's value at that namespace. -/
def TrieStorage.store {T : Type} (h1 h2 : String → Nat) (s : TrieStorage T)
    (qn : QName) (component : T) : Except String (TrieStorage T) :=
  match trieGet s.trie qn.ns.data with
  | none =>
      match trieSet s.trie qn.ns.data (alSet [] qn.local_name component) with
      | .error e => .error e
      | .ok t2 =>
          .ok { trie := t2, bloom := s.bloom.add h1 h2 qn.expanded,
                countT := s.countT + 1 }
  | some bucket =>
      if alHasKey bucket qn.local_name then
        .error ("Component already registered: " ++ qn.expanded)
      else
        match trieSet s.trie qn.ns.data
            (alSet bucket qn.local_name component) with
        | .error e => .error e  -- unreachable: a found namespace key is nonempty
        | .ok t2 =>
            .ok { trie := t2, bloom := s.bloom.add h1 h2 qn.expanded,
                  countT := s.countT + 1 }

/-- The trie-and-bucket part of `TrieStorage.lookup`, without the Bloom
pre-test. -/
def TrieStorage.rawLookup {T : Type} (s : TrieStorage T) (qn : QName) :
    Option T :=
  match trieGet s.trie qn.ns.data with
  | none => none
  | some bucket => alGet bucket qn.local_name

/-- `TrieStorage.lookup` (storage.py lines 318-329): Bloom fast-negative
then trie descent. -/
def TrieStorage.lookupT {T : Type} (h1 h2 : String → Nat) (s : TrieStorage T)
    (qn : QName) : Option T :=
  if s.bloom.containsB h1 h2 qn.expanded = false then none
  else
    match trieGet s.trie qn.ns.data with
    | none => none
    | some bucket => alGet bucket qn.local_name

/-- `TrieStorage.remove` (storage.py lines 331-345): deletes from the
bucket; the Bloom filter is left untouched. -/
def TrieStorage.removeT {T : Type} (s : TrieStorage T) (qn : QName) :
    Bool × TrieStorage T :=
  match trieGet s.trie qn.ns.data with
  | none => (false, s)
  | some bucket =>
      if alHasKey bucket qn.local_name then
        match trieSet s.trie qn.ns.data (alErase bucket qn.local_name) with
        | .error _ => (false, s)  -- unreachable: a found namespace key is nonempty
        | .ok t2 =>
            (true, { trie := t2, bloom := s.bloom, countT := s.countT - 1 })
      else (false, s)

/-- `TrieStorage.__contains__` (storage.py lines 347-357). -/
def TrieStorage.containsT {T : Type} (h1 h2 : String → Nat)
    (s : TrieStorage T) (qn : QName) : Bool :=
  if s.bloom.containsB h1 h2 qn.expanded = false then false
  else
    match trieGet s.trie qn.ns.data with
    | none => false
    | some bucket => alHasKey bucket qn.local_name

/-- `TrieStorage.by_namespace_prefix` (storage.py lines 378-389): trie
prefix search, skipping empty buckets (`if ns_dict:`). -/
def TrieStorage.byNamespacePfx {T : Type} (s : TrieStorage T) (pfx : String) :
    List T :=
  (keysWithPfx s.trie pfx.data).flatMap (fun ns =>
    match trieGet s.trie ns with
    | none => []
    | some bucket => if bucket.isEmpty then [] else bucket.map (·.2))

/-- `TrieStorage.clear` (storage.py lines 404-408). -/
def TrieStorage.clearT {T : Type} (s : TrieStorage T) : TrieStorage T :=
  { trie := PatriciaTrie.emptyT, bloom := s.bloom.clearB, countT := 0 }

/-! ### Trie wrapper lemmas -/

theorem strData_inj {s1 s2 : String} (h : s1.data = s2.data) : s1 = s2 := by
  cases s1
  cases s2
  exact congrArg String.mk h

theorem strData_ne_nil {s : String} (h : s ≠ "") : s.data ≠ [] := by
  intro hd
  exact h (strData_inj (by simpa using hd))

theorem TrieWF_emptyT {V : Type} : TrieWF (PatriciaTrie.emptyT : PatriciaTrie V) := by
  constructor
  · exact NodeWF.mk (by simp) (by intro c ch hm; simp at hm)
      (by intro c ch hm; simp at hm)
  · rfl

theorem trieGet_emptyT {V : Type} (k : List Char) :
    trieGet (PatriciaTrie.emptyT : PatriciaTrie V) k = none := by
  cases k with
  | nil => rfl
  | cons c rest => rfl

theorem trieGet_eq_nodeGet {V : Type} (t : PatriciaTrie V) (k : List Char) :
    trieGet t k = nodeGet t.root k := rfl

/-- `__setitem__` on a well-formed trie with a non-empty key: succeeds,
preserves well-formedness, and updates the key map pointwise. -/
theorem trieSet_ok {V : Type} {t : PatriciaTrie V} (hwf : TrieWF t)
    {k : List Char} (hk : k ≠ []) (v : V) :
    ∃ t2, trieSet t k v = .ok t2 ∧ TrieWF t2 ∧
      (∀ q, trieGet t2 q = if q = k then some v else trieGet t q) := by
  obtain ⟨c, rest, hck⟩ : ∃ c rest, k = c :: rest := by
    cases k with
    | nil => exact absurd rfl hk
    | cons a b => exact ⟨a, b, rfl⟩
  subst hck
  obtain ⟨hwf2, hpfx2, hval2, hget2⟩ :=
    setLoop_spec v ((c :: rest).length + 1) t.root (c :: rest) hwf.wf
      (Nat.lt_succ_self _)
  refine ⟨⟨(setLoop v ((c :: rest).length + 1) t.root (c :: rest)).1,
    t.size + (setLoop v ((c :: rest).length + 1) t.root (c :: rest)).2⟩,
    rfl, ⟨hwf2, ?_⟩, fun q => hget2 q⟩
  rw [hval2 (by simp)]
  exact hwf.rootv

/-- Invariant of a `TrieStorage` reachable from empty: well-formed trie,
no-false-negative Bloom filter with respect to the stored keys, and
duplicate-free buckets. -/
structure TSInv {T : Type} (h1 h2 : String → Nat) (s : TrieStorage T) : Prop where
  twf : TrieWF s.trie
  bloom_ok : ∀ qn : QName, (TrieStorage.rawLookup s qn).isSome = true →
    s.bloom.containsB h1 h2 qn.expanded = true
  bucket_nodup : ∀ (k : List Char) bucket, trieGet s.trie k = some bucket →
    (bucket.map (·.1)).Nodup

theorem TSInv_emptyTS {T : Type} (h1 h2 : String → Nat) (size num : Nat) :
    TSInv h1 h2 (TrieStorage.emptyTS (T := T) size num) := by
  refine ⟨TrieWF_emptyT, ?_, ?_⟩
  · intro qn h
    rw [TrieStorage.rawLookup] at h
    rw [show (TrieStorage.emptyTS (T := T) size num).trie =
      PatriciaTrie.emptyT from rfl, trieGet_emptyT] at h
    simp at h
  · intro k bucket h
    rw [show (TrieStorage.emptyTS (T := T) size num).trie =
      PatriciaTrie.emptyT from rfl, trieGet_emptyT] at h
    cases h

/-- Under the invariant, the Bloom pre-test never changes the result:
`lookup` computes `rawLookup`. -/
theorem lookupT_eq_raw {T : Type} {h1 h2 : String → Nat} {s : TrieStorage T}
    (hinv : TSInv h1 h2 s) (qn : QName) :
    TrieStorage.lookupT h1 h2 s qn = TrieStorage.rawLookup s qn := by
  rw [TrieStorage.lookupT, TrieStorage.rawLookup]
  by_cases hb : s.bloom.containsB h1 h2 qn.expanded = false
  · rw [if_pos hb]
    cases hr : trieGet s.trie qn.ns.data with
    | none => rfl
    | some bucket =>
        cases hl : alGet bucket qn.local_name with
        | none => exact hl.symm
        | some c =>
            exfalso
            have : (TrieStorage.rawLookup s qn).isSome = true := by
              simp [TrieStorage.rawLookup, hr, hl]
            rw [hinv.bloom_ok qn this] at hb
            cases hb
  · rw [if_neg hb]

/-- Same fact for `__contains__`. -/
theorem containsT_eq_raw {T : Type} {h1 h2 : String → Nat} {s : TrieStorage T}
    (hinv : TSInv h1 h2 s) (qn : QName) :
    TrieStorage.containsT h1 h2 s qn = (TrieStorage.rawLookup s qn).isSome := by
  rw [TrieStorage.containsT]
  by_cases hb : s.bloom.containsB h1 h2 qn.expanded = false
  · rw [if_pos hb]
    cases hr : trieGet s.trie qn.ns.data with
    | none => rw [TrieStorage.rawLookup, hr]; rfl
    | some bucket =>
        cases hl : alGet bucket qn.local_name with
        | none =>
            rw [TrieStorage.rawLookup, hr]
            simp [hl]
        | some c =>
            exfalso
            have : (TrieStorage.rawLookup s qn).isSome = true := by
              simp [TrieStorage.rawLookup, hr, hl]
            rw [hinv.bloom_ok qn this] at hb
            cases hb
  · rw [if_neg hb]
    rw [TrieStorage.rawLookup]
    cases hr : trieGet s.trie qn.ns.data with
    | none => rfl
    | some bucket => simp [alHasKey_eq_isSome]

/-- Successful `TrieStorage.store`: the spec of the state update. -/
theorem TrieStorage.store_ok {T : Type} {h1 h2 : String → Nat}
    {s : TrieStorage T} (hinv : TSInv h1 h2 s) {qn : QName} (hns : qn.ns ≠ "")
    (c : T) (hraw : TrieStorage.rawLookup s qn = none) :
    ∃ s2, TrieStorage.store h1 h2 s qn c = .ok s2 ∧ TSInv h1 h2 s2 ∧
      s2.bloom = s.bloom.add h1 h2 qn.expanded ∧
      (∀ k, trieGet s2.trie k =
        if k = qn.ns.data then
          some (alSet ((trieGet s.trie qn.ns.data).getD [])
            qn.local_name c)
        else trieGet s.trie k) := by
  have hdata : qn.ns.data ≠ [] := strData_ne_nil hns
  rw [TrieStorage.rawLookup] at hraw
  cases hb : trieGet s.trie qn.ns.data with
  | none =>
      obtain ⟨t2, hok, hwf2, hget2⟩ :=
        trieSet_ok hinv.twf hdata (alSet [] qn.local_name c)
      refine ⟨⟨t2, s.bloom.add h1 h2 qn.expanded, s.countT + 1⟩, ?_, ?_, rfl, ?_⟩
      · rw [TrieStorage.store, hb, hok]
      · refine ⟨hwf2, ?_, ?_⟩
        · intro qn2 h2r
          rw [TrieStorage.rawLookup] at h2r
          simp only [] at h2r
          rw [hget2 qn2.ns.data] at h2r
          by_cases hk : qn2.ns.data = qn.ns.data
          · rw [if_pos hk] at h2r
            simp only [Option.isSome_some] at h2r
            have hns2 : qn2.ns = qn.ns := strData_inj hk
            by_cases hl : qn2.local_name = qn.local_name
            · have : qn2 = qn := by
                cases qn2; cases qn
                simp only [QName.mk.injEq]
                exact ⟨hns2, hl⟩
              rw [this]
              exact BloomFilter.contains_add_self h1 h2 s.bloom qn.expanded
            · rw [alGet_alSet_ne _ _ _ _ hl] at h2r
              simp [alGet] at h2r
          · rw [if_neg hk] at h2r
            apply BloomFilter.contains_add_mono
            apply hinv.bloom_ok
            rw [TrieStorage.rawLookup]
            exact h2r
        · intro k bucket hget
          rw [hget2 k] at hget
          by_cases hk : k = qn.ns.data
          · rw [if_pos hk] at hget
            cases hget
            simp [alSet]
          · rw [if_neg hk] at hget
            exact hinv.bucket_nodup k bucket hget
      · intro k
        rw [hget2 k]
        rfl
  | some bucket =>
      rw [hb] at hraw
      have hkey : alHasKey bucket qn.local_name = false :=
        (alHasKey_false_iff _ _).mpr hraw
      obtain ⟨t2, hok, hwf2, hget2⟩ :=
        trieSet_ok hinv.twf hdata (alSet bucket qn.local_name c)
      refine ⟨⟨t2, s.bloom.add h1 h2 qn.expanded, s.countT + 1⟩, ?_, ?_, rfl, ?_⟩
      · simp only [TrieStorage.store, hb, hkey, hok]
        rfl
      · refine ⟨hwf2, ?_, ?_⟩
        · intro qn2 h2r
          rw [TrieStorage.rawLookup] at h2r
          simp only [] at h2r
          rw [hget2 qn2.ns.data] at h2r
          by_cases hk : qn2.ns.data = qn.ns.data
          · rw [if_pos hk] at h2r
            simp only [Option.isSome_some] at h2r
            have hns2 : qn2.ns = qn.ns := strData_inj hk
            by_cases hl : qn2.local_name = qn.local_name
            · have : qn2 = qn := by
                cases qn2; cases qn
                simp only [QName.mk.injEq]
                exact ⟨hns2, hl⟩
              rw [this]
              exact BloomFilter.contains_add_self h1 h2 s.bloom qn.expanded
            · rw [alGet_alSet_ne _ _ _ _ hl] at h2r
              apply BloomFilter.contains_add_mono
              apply hinv.bloom_ok
              rw [TrieStorage.rawLookup]
              rw [show trieGet s.trie qn2.ns.data = some bucket by
                rw [hns2]; exact hb]
              exact h2r
          · rw [if_neg hk] at h2r
            apply BloomFilter.contains_add_mono
            apply hinv.bloom_ok
            rw [TrieStorage.rawLookup]
            exact h2r
        · intro k bucket2 hget
          rw [hget2 k] at hget
          by_cases hk : k = qn.ns.data
          · rw [if_pos hk] at hget
            cases hget
            exact alSet_nodup (hinv.bucket_nodup _ _ hb) hraw
          · rw [if_neg hk] at hget
            exact hinv.bucket_nodup k bucket2 hget
      · intro k
        rw [hget2 k]
        rfl

/-- `TrieStorage.store` raises the duplicate error exactly when the raw
lookup finds the name. -/
theorem TrieStorage.store_dup {T : Type} (h1 h2 : String → Nat)
    {s : TrieStorage T} {qn : QName} {c0 : T}
    (hraw : TrieStorage.rawLookup s qn = some c0) (c : T) :
    TrieStorage.store h1 h2 s qn c =
      .error ("Component already registered: " ++ qn.expanded) := by
  rw [TrieStorage.rawLookup] at hraw
  cases hb : trieGet s.trie qn.ns.data with
  | none => rw [hb] at hraw; cases hraw
  | some bucket =>
      rw [hb] at hraw
      have hkey : alHasKey bucket qn.local_name = true := by
        have hl : alGet bucket qn.local_name = some c0 := hraw
        rw [alHasKey_eq_isSome, hl]
        rfl
      simp only [TrieStorage.store, hb, hkey]
      rfl

/-- Successful `TrieStorage.remove`: the spec of the state update; the
Bloom filter is untouched. -/
theorem TrieStorage.remove_spec {T : Type} {h1 h2 : String → Nat}
    {s : TrieStorage T} (hinv : TSInv h1 h2 s) (qn : QName) :
    (TrieStorage.rawLookup s qn = none →
      TrieStorage.removeT s qn = (false, s)) ∧
    (∀ c0, TrieStorage.rawLookup s qn = some c0 →
      ∃ s2, TrieStorage.removeT s qn = (true, s2) ∧ TSInv h1 h2 s2 ∧
        s2.bloom = s.bloom ∧
        (∀ k, trieGet s2.trie k =
          if k = qn.ns.data then
            some (alErase ((trieGet s.trie qn.ns.data).getD [])
              qn.local_name)
          else trieGet s.trie k)) := by
  constructor
  · intro hraw
    rw [TrieStorage.rawLookup] at hraw
    cases hb : trieGet s.trie qn.ns.data with
    | none => rw [TrieStorage.removeT, hb]
    | some bucket =>
        rw [hb] at hraw
        have hkey : alHasKey bucket qn.local_name = false :=
          (alHasKey_false_iff _ _).mpr hraw
        simp only [TrieStorage.removeT, hb, hkey]
        rfl
  · intro c0 hraw
    rw [TrieStorage.rawLookup] at hraw
    cases hb : trieGet s.trie qn.ns.data with
    | none => rw [hb] at hraw; cases hraw
    | some bucket =>
        rw [hb] at hraw
        have hkey : alHasKey bucket qn.local_name = true := by
          have hl : alGet bucket qn.local_name = some c0 := hraw
          rw [alHasKey_eq_isSome, hl]
          rfl
        have hdata : qn.ns.data ≠ [] := by
          intro hd
          have : trieGet s.trie qn.ns.data = s.trie.root.value := by
            rw [hd]; rfl
          rw [hinv.twf.rootv] at this
          rw [this] at hb
          cases hb
        obtain ⟨t2, hok, hwf2, hget2⟩ :=
          trieSet_ok hinv.twf hdata (alErase bucket qn.local_name)
        refine ⟨⟨t2, s.bloom, s.countT - 1⟩, ?_, ?_, rfl, ?_⟩
        · simp only [TrieStorage.removeT, hb, hkey, hok]
          simp
        · refine ⟨hwf2, ?_, ?_⟩
          · intro qn2 h2r
            rw [TrieStorage.rawLookup] at h2r
            simp only [] at h2r
            rw [hget2 qn2.ns.data] at h2r
            by_cases hk : qn2.ns.data = qn.ns.data
            · rw [if_pos hk] at h2r
              simp only [Option.isSome_some] at h2r
              have hns2 : qn2.ns = qn.ns := strData_inj hk
              by_cases hl : qn2.local_name = qn.local_name
              · rw [hl, alGet_alErase_self] at h2r
                simp at h2r
              · rw [alGet_alErase_ne _ _ _ hl] at h2r
                apply hinv.bloom_ok
                rw [TrieStorage.rawLookup]
                rw [show trieGet s.trie qn2.ns.data = some bucket by
                  rw [hns2]; exact hb]
                exact h2r
            · rw [if_neg hk] at h2r
              apply hinv.bloom_ok
              rw [TrieStorage.rawLookup]
              exact h2r
          · intro k bucket2 hget
            rw [hget2 k] at hget
            by_cases hk : k = qn.ns.data
            · rw [if_pos hk] at hget
              cases hget
              apply List.Nodup.sublist ?_ (hinv.bucket_nodup _ _ hb)
              exact List.Sublist.map _ (List.filter_sublist _)
            · rw [if_neg hk] at hget
              exact hinv.bucket_nodup k bucket2 hget
        · intro k
          rw [hget2 k]
          rfl

/-- `TrieStorage.clear` restores the invariant and the empty map. -/
theorem TrieStorage.clear_spec {T : Type} (h1 h2 : String → Nat)
    (s : TrieStorage T) :
    TSInv h1 h2 (TrieStorage.clearT s) ∧
      ∀ k, trieGet (TrieStorage.clearT s).trie k = none := by
  refine ⟨⟨TrieWF_emptyT, ?_, ?_⟩, fun k => trieGet_emptyT k⟩
  · intro qn h
    rw [TrieStorage.rawLookup] at h
    rw [show (TrieStorage.clearT s).trie = PatriciaTrie.emptyT from rfl,
      trieGet_emptyT] at h
    simp at h
  · intro k bucket h
    rw [show (TrieStorage.clearT s).trie = PatriciaTrie.emptyT from rfl,
      trieGet_emptyT] at h
    cases h

/-! ## Component registry  (src/xsdmesh/types/registry.py)

`ComponentRegistry[T]` delegates storage to a pluggable backend
(`StorageOps` bundles the two operations the registry claims use) and
keeps the deferred-resolution callback dict.  Callbacks are opaque
identifiers (`Nat`); invoking a callback with a component is recorded in
an event trace `List (Nat × T)` in invocation order. -/

structure StorageOps (S T : Type) where
  store : S → QName → T → Except String S
  lookup : S → QName → Option T

def dictOps (T : Type) : StorageOps (DictStorage T) T :=
  ⟨DictStorage.store, DictStorage.lookupD⟩

def trieOps (h1 h2 : String → Nat) (T : Type) :
    StorageOps (TrieStorage T) T :=
  ⟨TrieStorage.store h1 h2, TrieStorage.lookupT h1 h2⟩

structure RegState (S : Type) where
  storage : S
  callbacks : List (QName × List Nat)

/-- `ComponentRegistry.register` (registry.py lines 94-107) together
with `_process_callbacks` (lines 229-238): store under the component's
qname (propagating the backend's duplicate error), then pop and fire the
callbacks pending on that name, in order. -/
def ComponentRegistry.register {S T : Type} (ops : StorageOps S T)
    (qnameOf : T → QName) (st : RegState S) (component : T) :
    Except String (RegState S × List (Nat × T)) :=
  match ops.store st.storage (qnameOf component) component with
  | .error e => .error e
  | .ok s2 =>
      let fired := (alGet st.callbacks (qnameOf component)).getD []
      .ok (⟨s2, alErase st.callbacks (qnameOf component)⟩,
        fired.map (fun cb => (cb, component)))

/-- `ComponentRegistry.lookup` (registry.py lines 109-120). -/
def ComponentRegistry.lookupR {S T : Type} (ops : StorageOps S T)
    (st : RegState S) (qn : QName) : Option T :=
  ops.lookup st.storage qn

/-- `ComponentRegistry.defer_resolution` (registry.py lines 204-227):
if the name is registered the callback fires immediately (trace of one
event, result `true`); otherwise it is queued (result `false`). -/
def ComponentRegistry.defer_resolution {S T : Type} (ops : StorageOps S T)
    (st : RegState S) (qn : QName) (cb : Nat) :
    Bool × RegState S × List (Nat × T) :=
  match ops.lookup st.storage qn with
  | some component => (true, st, [(cb, component)])
  | none =>
      (false,
        ⟨st.storage,
          alSet st.callbacks qn (((alGet st.callbacks qn).getD []) ++ [cb])⟩,
        [])

/-- The number of callbacks pending on one name (the per-name summand of
`stats().pending_callbacks`). -/
def pendingOn {S : Type} (st : RegState S) (qn : QName) : Nat :=
  ((alGet st.callbacks qn).getD []).length

/-- Iterate `defer_resolution` over a list of callbacks (left to right),
collecting the returned booleans, the final state and the concatenated
invocation traces. -/
def deferAll {S T : Type} (ops : StorageOps S T) (qn : QName)
    (cbs : List Nat) (st : RegState S) :
    List Bool × RegState S × List (Nat × T) :=
  match cbs with
  | [] => ([], st, [])
  | cb :: rest =>
      let r1 := ComponentRegistry.defer_resolution (T := T) ops st qn cb
      let r2 := deferAll ops qn rest r1.2.1
      (r1.1 :: r2.1, r2.2.1, r1.2.2 ++ r2.2.2)

/-- Deferring on an unregistered name: every call reports "deferred"
(`false`), fires nothing, leaves the storage untouched, and appends the
callbacks (in order) to the pending list of that name only. -/
theorem deferAll_unregistered {S T : Type} (ops : StorageOps S T)
    (qn : QName) (cbs : List Nat) :
    ∀ (st : RegState S), ops.lookup st.storage qn = none →
      (deferAll (T := T) ops qn cbs st).1 =
        List.replicate cbs.length false ∧
      (deferAll (T := T) ops qn cbs st).2.2 = [] ∧
      (deferAll (T := T) ops qn cbs st).2.1.storage = st.storage ∧
      ((alGet (deferAll (T := T) ops qn cbs st).2.1.callbacks qn).getD []) =
        ((alGet st.callbacks qn).getD []) ++ cbs ∧
      (∀ qn2, qn2 ≠ qn →
        alGet (deferAll (T := T) ops qn cbs st).2.1.callbacks qn2 =
          alGet st.callbacks qn2) := by
  induction cbs with
  | nil =>
      intro st _
      exact ⟨rfl, rfl, rfl, by simp [deferAll], fun _ _ => rfl⟩
  | cons cb rest ih =>
      intro st hlook
      have hstep : ComponentRegistry.defer_resolution (T := T) ops st qn cb =
          (false,
            ⟨st.storage,
              alSet st.callbacks qn
                (((alGet st.callbacks qn).getD []) ++ [cb])⟩,
            []) := by
        rw [ComponentRegistry.defer_resolution, hlook]
      obtain ⟨ih1, ih2, ih3, ih4, ih5⟩ := ih
        ⟨st.storage,
          alSet st.callbacks qn (((alGet st.callbacks qn).getD []) ++ [cb])⟩
        hlook
      refine ⟨?_, ?_, ?_, ?_, ?_⟩
      · simp only [deferAll, hstep, List.length_cons, List.replicate]
        rw [← ih1]
      · simp only [deferAll, hstep]
        rw [ih2]
        rfl
      · simp only [deferAll, hstep]
        rw [ih3]
      · simp only [deferAll, hstep]
        rw [ih4]
        simp [alGet_alSet_self]
      · intro qn2 hne
        simp only [deferAll, hstep]
        rw [ih5 qn2 hne]
        exact alGet_alSet_ne _ _ _ _ hne

/-! ## Claim theorems -/

/-- Concrete stand-ins for the two base hashes (md5 / sha1) used by the
witnesses; every Bloom theorem holds for arbitrary hash functions. -/
def hashA : String → Nat := fun s => s.length

def hashB : String → Nat := fun _ => 1

/-- C1 (amended): for every registry backend, if T is not yet registered
and the backend accepts the registration of a component with qname T
(DictStorage always does; TrieStorage requires T's namespace to be
non-empty), then: queueing N callbacks on T via `defer_resolution` makes
each call report "deferred" (`False`) and fire nothing, and the
subsequent `register` synchronously fires the pending callbacks of T
exactly once each, with that component, in deferral order (the N new
ones after any previously pending ones), after which the number of
callbacks pending on T is 0. -/
theorem claim_C1_registry_defer_register {S T : Type} (ops : StorageOps S T)
    (qnameOf : T → QName) (st : RegState S) (qn : QName) (cbs : List Nat)
    (c : T) (s2 : S)
    (hq : qnameOf c = qn)
    (hlook : ops.lookup st.storage qn = none)
    (hstore : ops.store st.storage qn c = .ok s2) :
    (deferAll (T := T) ops qn cbs st).1 = List.replicate cbs.length false ∧
    (deferAll (T := T) ops qn cbs st).2.2 = [] ∧
    ComponentRegistry.register ops qnameOf (deferAll (T := T) ops qn cbs st).2.1
        c =
      .ok (⟨s2, alErase (deferAll (T := T) ops qn cbs st).2.1.callbacks qn⟩,
        (((alGet st.callbacks qn).getD []) ++ cbs).map (fun cb => (cb, c))) ∧
    pendingOn
      (⟨s2, alErase (deferAll (T := T) ops qn cbs st).2.1.callbacks qn⟩ :
        RegState S) qn = 0 := by
  obtain ⟨h1d, h2d, h3d, h4d, h5d⟩ := deferAll_unregistered ops qn cbs st hlook
  refine ⟨h1d, h2d, ?_, ?_⟩
  · rw [ComponentRegistry.register, hq, h3d, hstore, h4d]
  · rw [pendingOn]
    rw [alGet_alErase_self]
    rfl

/-- C1 witness: two callbacks deferred on an unregistered name in a
dict-backed registry; registering fires both in order and clears the
pending list. -/
theorem claim_C1_witness :
    (deferAll (T := Nat) (dictOps Nat) ⟨"n", "l"⟩ [0, 1]
      ⟨DictStorage.emptyD, []⟩).1 = List.replicate 2 false ∧
    (deferAll (T := Nat) (dictOps Nat) ⟨"n", "l"⟩ [0, 1]
      ⟨DictStorage.emptyD, []⟩).2.2 = [] ∧
    ComponentRegistry.register (dictOps Nat) (fun _ => ⟨"n", "l"⟩)
        (deferAll (T := Nat) (dictOps Nat) ⟨"n", "l"⟩ [0, 1]
          ⟨DictStorage.emptyD, []⟩).2.1 5 =
      .ok (⟨⟨[(⟨"n", "l"⟩, 5)], [("n", [5])]⟩,
        alErase (deferAll (T := Nat) (dictOps Nat) ⟨"n", "l"⟩ [0, 1]
          ⟨DictStorage.emptyD, []⟩).2.1.callbacks ⟨"n", "l"⟩⟩,
        [(0, 5), (1, 5)]) ∧
    pendingOn
      (⟨(⟨[(⟨"n", "l"⟩, 5)], [("n", [5])]⟩ : DictStorage Nat),
        alErase (deferAll (T := Nat) (dictOps Nat) ⟨"n", "l"⟩ [0, 1]
          ⟨DictStorage.emptyD, []⟩).2.1.callbacks ⟨"n", "l"⟩⟩ :
        RegState (DictStorage Nat)) ⟨"n", "l"⟩ = 0 :=
  claim_C1_registry_defer_register (dictOps Nat) (fun _ => ⟨"n", "l"⟩)
    ⟨DictStorage.emptyD, []⟩ ⟨"n", "l"⟩ [0, 1] 5
    ⟨[(⟨"n", "l"⟩, 5)], [("n", [5])]⟩ rfl rfl (by rfl)

/-- C1 counterexample: on the default trie backend, with the qualified
name T = ("", "x") (empty namespace) not registered, one callback is
deferred (reporting "deferred"); but registering a component with qname
T raises `ValueError("Key cannot be empty")` from the Patricia trie, so
no callback is invoked and T's pending count stays 1 — refuting the
claim as stated for this registry. -/
theorem claim_C1_counterexample :
    ComponentRegistry.defer_resolution (T := Nat) (trieOps hashA hashB Nat)
        ⟨TrieStorage.emptyTS 8 1, []⟩ ⟨"", "x"⟩ 0 =
      (false, ⟨TrieStorage.emptyTS 8 1, [(⟨"", "x"⟩, [0])]⟩, []) ∧
    ComponentRegistry.register (trieOps hashA hashB Nat) (fun _ => ⟨"", "x"⟩)
        ⟨TrieStorage.emptyTS 8 1, [(⟨"", "x"⟩, [0])]⟩ 7 =
      .error "Key cannot be empty" ∧
    pendingOn (⟨TrieStorage.emptyTS 8 1, [(⟨"", "x"⟩, [0])]⟩ :
      RegState (TrieStorage Nat)) ⟨"", "x"⟩ = 1 := by
  refine ⟨?_, ?_, ?_⟩
  · rfl
  · rfl
  · rfl

/-- C4 counterexample: an attribute assignment to `_frozen` on a frozen
component succeeds (and even unfreezes it), because `__setattr__`
explicitly exempts the `_frozen` attribute — so "every attribute
assignment on a frozen component fails" is false as stated. -/
theorem claim_C4_counterexample :
    CompObj.is_frozen ⟨[("_frozen", PyVal.vBool true)]⟩ = true ∧
    CompObj.setattr ⟨[("_frozen", PyVal.vBool true)]⟩ "_frozen"
        (PyVal.vBool false) =
      .ok ⟨[("_frozen", PyVal.vBool false)]⟩ ∧
    CompObj.is_frozen ⟨[("_frozen", PyVal.vBool false)]⟩ = false := by
  refine ⟨rfl, ?_, rfl⟩
  rfl

/-- C4 (amended): `freeze` is idempotent (freezing a frozen component
changes nothing), and once a component is frozen, every attribute
assignment other than to the internal `_frozen` flag fails with a
`FrozenError` raised before any mutation. -/
theorem claim_C4_freeze_idempotent_and_guard (c : CompObj) :
    c.freeze.freeze = c.freeze ∧
    (c.is_frozen = true → ∀ (name : String) (v : PyVal), name ≠ "_frozen" →
      c.setattr name v = .error "Cannot modify frozen component") := by
  constructor
  · have hf : (c.objectSetattr "_frozen" (PyVal.vBool true)).is_frozen = true := by
      rw [CompObj.is_frozen, CompObj.getattrD, CompObj.objectSetattr]
      rw [show (⟨alSet c.attrs "_frozen" (PyVal.vBool true)⟩ :
        CompObj).attrs = alSet c.attrs "_frozen" (PyVal.vBool true) from rfl]
      rw [alGet_alSet_self]
      rfl
    have hf2 : c.freeze.is_frozen = true := by
      by_cases h : c.is_frozen
      · rw [CompObj.freeze, if_pos h]
        exact h
      · rw [CompObj.freeze, if_neg h]
        exact hf
    conv_lhs => rw [CompObj.freeze]
    rw [if_pos hf2]
  · intro h name v hne
    rw [CompObj.setattr]
    rw [if_neg (by simp [hne, h])]

/-- C4 witness: a concrete frozen component rejects a write to an
ordinary attribute. -/
theorem claim_C4_witness :
    CompObj.is_frozen ⟨[("_frozen", PyVal.vBool true)]⟩ = true ∧
    CompObj.setattr ⟨[("_frozen", PyVal.vBool true)]⟩ "name"
        (PyVal.vStr "n") = .error "Cannot modify frozen component" :=
  ⟨by rfl,
    (claim_C4_freeze_idempotent_and_guard ⟨[("_frozen", PyVal.vBool true)]⟩).2
      (by rfl) "name" (PyVal.vStr "n") (by decide)⟩

/-- C2 (amended): register-then-lookup roundtrip and duplicate
rejection, for both backends: on `DictStorage` unconditionally, and on
`TrieStorage` whenever the component's namespace is non-empty (the
storage invariant `TSInv` holds of every reachable trie state).  After
a successful `register(c)`, `lookup` on c's qname returns `c`, and a
second `register` of any component with the same qname raises
"Component already registered: " followed by the Clark form of the
name, leaving the registry unchanged (the error is raised before any
state is produced). -/
theorem claim_C2_register_lookup_duplicate {T : Type} (qnameOf : T → QName)
    (c : T) :
    (∀ (d : DictStorage T) (cbl : List (QName × List Nat)),
      DictStorage.lookupD d (qnameOf c) = none →
      ∃ st2 fired,
        ComponentRegistry.register (dictOps T) qnameOf ⟨d, cbl⟩ c =
          .ok (st2, fired) ∧
        ComponentRegistry.lookupR (dictOps T) st2 (qnameOf c) = some c ∧
        ∀ c2, qnameOf c2 = qnameOf c →
          ComponentRegistry.register (dictOps T) qnameOf st2 c2 =
            .error ("Component already registered: " ++
              (qnameOf c).expanded)) ∧
    (∀ (h1 h2 : String → Nat) (ts : TrieStorage T)
      (cbl : List (QName × List Nat)),
      TSInv h1 h2 ts → (qnameOf c).ns ≠ "" →
      TrieStorage.rawLookup ts (qnameOf c) = none →
      ∃ st2 fired,
        ComponentRegistry.register (trieOps h1 h2 T) qnameOf ⟨ts, cbl⟩ c =
          .ok (st2, fired) ∧
        ComponentRegistry.lookupR (trieOps h1 h2 T) st2 (qnameOf c) =
          some c ∧
        ∀ c2, qnameOf c2 = qnameOf c →
          ComponentRegistry.register (trieOps h1 h2 T) qnameOf st2 c2 =
            .error ("Component already registered: " ++
              (qnameOf c).expanded)) := by
  constructor
  · intro d cbl hlk
    have hkey : alHasKey d.items (qnameOf c) = false :=
      (alHasKey_false_iff _ _).mpr hlk
    have hstore : DictStorage.store d (qnameOf c) c = .ok
        ⟨alSet d.items (qnameOf c) c,
          alSet d.namespace_index (qnameOf c).ns
            (((alGet d.namespace_index (qnameOf c).ns).getD []) ++ [c])⟩ := by
      rw [DictStorage.store, if_neg (by simp [hkey])]
    refine ⟨⟨⟨alSet d.items (qnameOf c) c,
        alSet d.namespace_index (qnameOf c).ns
          (((alGet d.namespace_index (qnameOf c).ns).getD []) ++ [c])⟩,
        alErase cbl (qnameOf c)⟩,
      ((alGet cbl (qnameOf c)).getD []).map (fun cb => (cb, c)), ?_, ?_, ?_⟩
    · simp only [ComponentRegistry.register, dictOps]
      rw [hstore]
    · show alGet (alSet d.items (qnameOf c) c) (qnameOf c) = some c
      exact alGet_alSet_self _ _ _
    · intro c2 hc2
      have hkey2 : alHasKey (alSet d.items (qnameOf c) c) (qnameOf c) = true := by
        rw [alHasKey_eq_isSome, alGet_alSet_self]
        rfl
      have hdup : DictStorage.store
          ⟨alSet d.items (qnameOf c) c,
            alSet d.namespace_index (qnameOf c).ns
              (((alGet d.namespace_index (qnameOf c).ns).getD []) ++ [c])⟩
          (qnameOf c) c2 =
          .error ("Component already registered: " ++ (qnameOf c).expanded) := by
        rw [DictStorage.store, if_pos (by simp [hkey2])]
      simp only [ComponentRegistry.register, dictOps, hc2]
      rw [hdup]
  · intro h1 h2 ts cbl hinv hns hraw
    obtain ⟨s2, hok, hinv2, hbl, hget⟩ := TrieStorage.store_ok hinv hns c hraw
    have hraw2 : TrieStorage.rawLookup s2 (qnameOf c) = some c := by
      rw [TrieStorage.rawLookup]
      rw [hget (qnameOf c).ns.data]
      rw [if_pos rfl]
      exact alGet_alSet_self _ _ _
    refine ⟨⟨s2, alErase cbl (qnameOf c)⟩,
      ((alGet cbl (qnameOf c)).getD []).map (fun cb => (cb, c)), ?_, ?_, ?_⟩
    · simp only [ComponentRegistry.register, trieOps]
      rw [hok]
    · show TrieStorage.lookupT h1 h2 s2 (qnameOf c) = some c
      rw [lookupT_eq_raw hinv2, hraw2]
    · intro c2 hc2
      have hdup := TrieStorage.store_dup h1 h2 hraw2 c2
      simp only [ComponentRegistry.register, trieOps, hc2]
      rw [hdup]

/-- C2 witness: both backends at a concrete name ("n", "l") and
component `5`: registration succeeds from the empty state, lookup finds
it, and re-registering any component under the same name errors. -/
theorem claim_C2_witness :
    DictStorage.lookupD (DictStorage.emptyD (T := Nat)) ⟨"n", "l"⟩ = none ∧
    TrieStorage.rawLookup (TrieStorage.emptyTS (T := Nat) 8 1)
      ⟨"n", "l"⟩ = none ∧
    (∃ st2 fired,
      ComponentRegistry.register (dictOps Nat)
          (fun _ => (⟨"n", "l"⟩ : QName)) ⟨DictStorage.emptyD, []⟩ 5 =
        .ok (st2, fired) ∧
      ComponentRegistry.lookupR (dictOps Nat) st2 ⟨"n", "l"⟩ = some 5 ∧
      ∀ c2 : Nat, (⟨"n", "l"⟩ : QName) = ⟨"n", "l"⟩ →
        ComponentRegistry.register (dictOps Nat)
            (fun _ => (⟨"n", "l"⟩ : QName)) st2 c2 =
          .error ("Component already registered: " ++
            QName.expanded ⟨"n", "l"⟩)) ∧
    (∃ st2 fired,
      ComponentRegistry.register (trieOps hashA hashB Nat)
          (fun _ => (⟨"n", "l"⟩ : QName)) ⟨TrieStorage.emptyTS 8 1, []⟩ 5 =
        .ok (st2, fired) ∧
      ComponentRegistry.lookupR (trieOps hashA hashB Nat) st2 ⟨"n", "l"⟩ =
        some 5 ∧
      ∀ c2 : Nat, (⟨"n", "l"⟩ : QName) = ⟨"n", "l"⟩ →
        ComponentRegistry.register (trieOps hashA hashB Nat)
            (fun _ => (⟨"n", "l"⟩ : QName)) st2 c2 =
          .error ("Component already registered: " ++
            QName.expanded ⟨"n", "l"⟩)) :=
  ⟨rfl, rfl,
    (claim_C2_register_lookup_duplicate (fun _ => ⟨"n", "l"⟩) 5).1
      DictStorage.emptyD [] rfl,
    (claim_C2_register_lookup_duplicate (fun _ => ⟨"n", "l"⟩) 5).2
      hashA hashB (TrieStorage.emptyTS 8 1) []
      (TSInv_emptyTS hashA hashB 8 1) (by decide) rfl⟩

/-- C2 counterexample: the claim as stated fails on the trie backend for
an empty-namespace name ("", "x"): the name is absent, yet `register`
raises `ValueError("Key cannot be empty")` from the Patricia trie
instead of succeeding. -/
theorem claim_C2_counterexample :
    TrieStorage.lookupT hashA hashB (TrieStorage.emptyTS (T := Nat) 8 1)
      ⟨"", "x"⟩ = none ∧
    ComponentRegistry.register (trieOps hashA hashB Nat)
        (fun _ => (⟨"", "x"⟩ : QName)) ⟨TrieStorage.emptyTS 8 1, []⟩ 7 =
      .error "Key cannot be empty" :=
  ⟨rfl, rfl⟩

/-- C3: `TypeReference.resolve` returns the cached component without
consulting the registry when already resolved (the result does not
depend on the registry argument at all); otherwise it fails with a
`ResolutionError` carrying the Clark form of the target name when the
lookup reports absence, and caches and returns the component on
success.  Resolution is idempotent, and once resolved no later registry
mutation (any `reg2`, including one lacking the name) changes the
result. -/
theorem claim_C3_resolve (C : Type) (t : TypeReference C)
    (registry : QName → Option C) :
    (∀ c, t._resolved = some c →
      ∀ reg2 : QName → Option C, t.resolve reg2 = .ok (c, t)) ∧
    (t._resolved = none → registry t.ref_qname = none →
      t.resolve registry =
        .error ⟨"Cannot resolve type reference", t.ref_qname.expanded,
          "type"⟩) ∧
    (t._resolved = none → ∀ c, registry t.ref_qname = some c →
      t.resolve registry = .ok (c, { t with _resolved := some c })) ∧
    (∀ c t2 (reg2 : QName → Option C), t.resolve registry = .ok (c, t2) →
      t2.resolve reg2 = .ok (c, t2)) := by
  refine ⟨?_, ?_, ?_, ?_⟩
  · intro c hc reg2
    rw [TypeReference.resolve, hc]
  · intro hn hreg
    rw [TypeReference.resolve, hn, hreg]
  · intro hn c hreg
    rw [TypeReference.resolve, hn, hreg]
  · intro c t2 reg2 hres
    cases hc : t._resolved with
    | some c0 =>
        rw [TypeReference.resolve, hc] at hres
        cases hres
        rw [TypeReference.resolve, hc]
    | none =>
        rw [TypeReference.resolve, hc] at hres
        cases hreg : registry t.ref_qname with
        | none => rw [hreg] at hres; cases hres
        | some c0 =>
            rw [hreg] at hres
            cases hres
            rw [TypeReference.resolve]

/-- C3 witness: resolving a fresh reference against a registry holding
the name caches the component; resolving the cached reference against
an empty registry still returns it. -/
theorem claim_C3_witness :
    TypeReference.resolve (⟨⟨"n", "l"⟩, none⟩ : TypeReference Nat)
        (fun q => if q = ⟨"n", "l"⟩ then some 42 else none) =
      .ok (42, ⟨⟨"n", "l"⟩, some 42⟩) ∧
    TypeReference.resolve (⟨⟨"n", "l"⟩, some 42⟩ : TypeReference Nat)
        (fun _ => none) = .ok (42, ⟨⟨"n", "l"⟩, some 42⟩) :=
  ⟨(claim_C3_resolve Nat ⟨⟨"n", "l"⟩, none⟩ _).2.2.1 rfl 42 (by simp),
    (claim_C3_resolve Nat ⟨⟨"n", "l"⟩, some 42⟩ (fun _ => none)).1 42 rfl
      (fun _ => none)⟩

/-- C7: the Bloom filter has no false negatives: after any sequence of
operations containing `add(x)` with no `clear` after it, `x in filter`
is `True` — for every pair of base hash functions and every starting
filter state. -/
theorem claim_C7_no_false_negative (h1 h2 : String → Nat)
    (bf : BloomFilter) (pre post : List BOp) (x : String)
    (hpost : BOp.bclear ∉ post) :
    BloomFilter.containsB h1 h2
      ((pre ++ BOp.badd x :: post).foldl (applyBOp h1 h2) bf) x = true := by
  rw [List.foldl_append]
  rw [List.foldl_cons]
  have hstep : applyBOp h1 h2 (pre.foldl (applyBOp h1 h2) bf) (BOp.badd x) =
      (pre.foldl (applyBOp h1 h2) bf).add h1 h2 x := rfl
  rw [hstep]
  have hbase := BloomFilter.contains_add_self h1 h2
    (pre.foldl (applyBOp h1 h2) bf) x
  revert hbase
  generalize (pre.foldl (applyBOp h1 h2) bf).add h1 h2 x = bf2
  intro hbase
  induction post generalizing bf2 with
  | nil => simpa using hbase
  | cons op rest ih =>
      have hop : op ≠ BOp.bclear := fun he => hpost (he ▸ List.mem_cons_self _ _)
      have hrest : BOp.bclear ∉ rest := fun hm => hpost (List.mem_cons_of_mem _ hm)
      cases op with
      | bclear => exact absurd rfl hop
      | badd y =>
          rw [List.foldl_cons]
          exact ih hrest _ (BloomFilter.contains_add_mono h1 h2 bf2 x y hbase)

/-- C7 witness: a concrete filter, adds around the probe element, no
clear. -/
theorem claim_C7_witness :
    BOp.bclear ∉ [BOp.badd "b"] ∧
    BloomFilter.containsB hashA hashB
      (([BOp.badd "a"] ++ BOp.badd "x" :: [BOp.badd "b"]).foldl
        (applyBOp hashA hashB) ⟨16, 2, fun _ => false, 0⟩) "x" = true :=
  ⟨by decide,
    claim_C7_no_false_negative hashA hashB ⟨16, 2, fun _ => false, 0⟩
      [BOp.badd "a"] [BOp.badd "b"] "x" (by decide)⟩

/-- C8: on the trie backend, after a successful `remove(q)` (returning
`True`), `lookup(q)` returns absence and `q in storage` is false, while
the Bloom filter state is exactly the one before the removal — its bits
for `q` are not retracted, so the filter may still answer "possibly
present"; the trie descent alone guarantees the stale name is not
returned. -/
theorem claim_C8_remove_no_stale {T : Type} (h1 h2 : String → Nat)
    (s s2 : TrieStorage T) (qn : QName)
    (hinv : TSInv h1 h2 s)
    (hrem : TrieStorage.removeT s qn = (true, s2)) :
    TrieStorage.lookupT h1 h2 s2 qn = none ∧
    TrieStorage.containsT h1 h2 s2 qn = false ∧
    s2.bloom = s.bloom ∧
    (s.bloom.containsB h1 h2 qn.expanded = true →
      s2.bloom.containsB h1 h2 qn.expanded = true) := by
  obtain ⟨hnone, hsome⟩ := TrieStorage.remove_spec hinv qn
  cases hraw : TrieStorage.rawLookup s qn with
  | none =>
      rw [hnone hraw] at hrem
      cases hrem
  | some c0 =>
      obtain ⟨s2x, hremx, hinv2, hbl, hget⟩ := hsome c0 hraw
      rw [hremx] at hrem
      have hs2 : s2 = s2x := by
        cases hrem
        rfl
      subst hs2
      have hraw2 : TrieStorage.rawLookup s2 qn = none := by
        rw [TrieStorage.rawLookup, hget qn.ns.data, if_pos rfl]
        simp [alGet_alErase_self]
      refine ⟨?_, ?_, hbl, fun h => by rw [hbl]; exact h⟩
      · rw [lookupT_eq_raw hinv2, hraw2]
      · rw [containsT_eq_raw hinv2, hraw2]
        rfl

/-- The trie storage holding exactly ("a", "x") ↦ 7, reached by a
`store` from the empty state (the C8 witness scenario). -/
def c8Stored : TrieStorage Nat :=
  match TrieStorage.store hashA hashB (TrieStorage.emptyTS 8 1)
      ⟨"a", "x"⟩ 7 with
  | .ok s1 => s1
  | .error _ => TrieStorage.emptyTS 8 1

/-- C8 witness: store ("a", "x") from empty, remove it; lookup and
membership report absence while the Bloom filter keeps its bits. -/
theorem claim_C8_witness :
    (TrieStorage.removeT c8Stored ⟨"a", "x"⟩).1 = true ∧
    TrieStorage.lookupT hashA hashB
      (TrieStorage.removeT c8Stored ⟨"a", "x"⟩).2 ⟨"a", "x"⟩ = none ∧
    TrieStorage.containsT hashA hashB
      (TrieStorage.removeT c8Stored ⟨"a", "x"⟩).2 ⟨"a", "x"⟩ = false ∧
    (TrieStorage.removeT c8Stored ⟨"a", "x"⟩).2.bloom = c8Stored.bloom := by
  obtain ⟨s1, hok, hinv1, hbl1, hget1⟩ :=
    TrieStorage.store_ok (TSInv_emptyTS hashA hashB 8 1)
      (show QName.ns ⟨"a", "x"⟩ ≠ "" by decide) 7 rfl
  have hc8 : c8Stored = s1 := by rw [c8Stored, hok]
  have hraw1 : TrieStorage.rawLookup s1 ⟨"a", "x"⟩ = some 7 := by
    rw [TrieStorage.rawLookup]
    rw [hget1 (QName.ns ⟨"a", "x"⟩).data]
    rw [if_pos rfl]
    exact alGet_alSet_self _ _ _
  obtain ⟨s2, hrem, hinv2, hbl2, hget2⟩ :=
    (TrieStorage.remove_spec hinv1 ⟨"a", "x"⟩).2 7 hraw1
  have hmain := claim_C8_remove_no_stale hashA hashB s1 s2 ⟨"a", "x"⟩
    hinv1 hrem
  rw [hc8, hrem]
  exact ⟨rfl, hmain.1, hmain.2.1, hmain.2.2.1⟩

/-! ## QName parsing and namespace resolution
(src/xsdmesh/parser/qname.py `parse_qname`,
src/xsdmesh/parser/context.py `ParseContext.resolve_qname`)

`parse_qname` strips the text, tries the Clark regex
`^\x5c\x7b([^\x7d]*)\x5c\x7d(.+)$` (re.match: group 1 runs to the first
closing brace; `.` does not match a newline; `$` matches at the end or
just before one trailing newline), then the `prefix:local` split at the
first colon, then falls back to the default namespace.  Python error
messages interpolate the offending text; the surrounding single-quote
punctuation of the f-strings is not reproduced. -/

def lbraceC : Char := '\x7b'

def rbraceC : Char := '\x7d'

def nlC : Char := '\x0a'

/-- The whitespace set of Python's `str.strip()`: exactly the
characters on which `str.isspace()` is true — 0x09-0x0d, 0x1c-0x1f,
the space, 0x85, 0xa0, 0x1680, the 0x2000-0x200a range, 0x2028,
0x2029, 0x202f, 0x205f and 0x3000. -/
def isPySpace (c : Char) : Bool :=
  (0x09 ≤ c.toNat && c.toNat ≤ 0x0d) ||
    (0x1c ≤ c.toNat && c.toNat ≤ 0x20) ||
    c.toNat == 0x85 || c.toNat == 0xa0 || c.toNat == 0x1680 ||
    (0x2000 ≤ c.toNat && c.toNat ≤ 0x200a) ||
    c.toNat == 0x2028 || c.toNat == 0x2029 ||
    c.toNat == 0x202f || c.toNat == 0x205f || c.toNat == 0x3000

/-- Python `str.strip()`. -/
def pyStrip (s : String) : String :=
  ⟨((s.data.dropWhile isPySpace).reverse.dropWhile isPySpace).reverse⟩

/-- The `(.+)$` tail of the Clark regex applied to the text after the
first closing brace: a non-empty newline-free remainder, or one with a
single trailing newline (which `$` permits and the group excludes). -/
def clarkLocal (r2 : List Char) : Option (List Char) :=
  if r2 ≠ [] ∧ nlC ∉ r2 then some r2
  else if r2.dropLast ≠ [] ∧ r2.getLast? = some nlC ∧ nlC ∉ r2.dropLast then
    some r2.dropLast
  else none

/-- `_CLARK_PATTERN.match` (qname.py line 47): `some (group1, group2)`
on success. -/
def clarkMatch (s : List Char) : Option (List Char × List Char) :=
  match s with
  | [] => none
  | c :: rest =>
      if c = lbraceC then
        match rest.dropWhile (fun ch => ch != rbraceC) with
        | [] => none
        | _ :: r2 =>
            match clarkLocal r2 with
            | some loc => some (rest.takeWhile (fun ch => ch != rbraceC), loc)
            | none => none
      else none

/-- `parse_qname` (qname.py lines 50-114). -/
def parse_qname (text : String) (resolver : Option (List (String × String)))
    (default_namespace : String) : Except String QName :=
  if text.data = [] ∨ (pyStrip text).data = [] then
    .error "QName text cannot be empty"
  else
    let t := pyStrip text
    match clarkMatch t.data with
    | some (nsl, loc) => .ok ⟨⟨nsl⟩, ⟨loc⟩⟩
    | none =>
        if ':' ∈ t.data then
          let pfx := t.data.takeWhile (fun ch => ch != ':')
          let loc := (t.data.dropWhile (fun ch => ch != ':')).tail
          if pfx = [] then
            .error ("Empty prefix in QName: " ++ t)
          else if loc = [] then
            .error ("Empty local name in QName: " ++ t)
          else
            match resolver with
            | none =>
                .error ("No namespace resolver provided for prefixed QName: "
                  ++ t)
            | some res =>
                match alGet res (⟨pfx⟩ : String) with
                | none =>
                    .error ("Undefined namespace prefix: " ++
                      (⟨pfx⟩ : String) ++ " in QName: " ++ t)
                | some nsu => .ok ⟨nsu, ⟨loc⟩⟩
        else .ok ⟨default_namespace, t⟩

def XML_NAMESPACE : String := "http://www.w3.org/XML/1998/namespace"

def XMLNS_NAMESPACE : String := "http://www.w3.org/2000/xmlns/"

def XSD_NAMESPACE : String := "http://www.w3.org/2001/XMLSchema"

/-- The root scope installed by `ParseContext._init_builtin_namespaces`
(context.py lines 87-96). -/
def builtinNS : List (String × String) :=
  [("xml", XML_NAMESPACE), ("xmlns", XMLNS_NAMESPACE),
    ("xs", XSD_NAMESPACE), ("xsd", XSD_NAMESPACE)]

/-- The slice of `ParseContext` that `resolve_qname` reads: the
namespace scope stack (root scope first, innermost scope last, as in
the Python list) and the schema's target namespace. -/
structure ParseContext where
  namespace_stack : List (List (String × String))
  target_namespace : Option String

/-- `ParseContext.resolve_qname` (context.py lines 160-201): flatten
the scope stack into one resolver dict in stack order — inner scopes
override outer ones — defaulting unprefixed names to the target
namespace (or ""). -/
def ParseContext.resolve_qname (ctx : ParseContext) (text : String)
    (dns : Option String) : Except String QName :=
  let d := match dns with
    | none =>
        match ctx.target_namespace with
        | none => ""
        | some t => t
    | some x => x
  let resolver := ctx.namespace_stack.foldl
    (fun acc scope => scope.foldl (fun a p => alSet a p.1 p.2) acc) []
  parse_qname text (some resolver) d

theorem strDataAppend (a b : String) : (a ++ b).data = a.data ++ b.data := rfl

theorem dropWhile_head_false {p : Char → Bool} {l : List Char}
    (h : ∀ c, l.head? = some c → p c = false) : l.dropWhile p = l := by
  cases l with
  | nil => rfl
  | cons a t => simp [List.dropWhile_cons, h a rfl]

theorem pyStrip_eq_self {s : String}
    (hh : ∀ c, s.data.head? = some c → isPySpace c = false)
    (hl : ∀ c, s.data.getLast? = some c → isPySpace c = false) :
    pyStrip s = s := by
  rw [pyStrip]
  rw [dropWhile_head_false hh]
  rw [dropWhile_head_false
    (fun c hc => hl c (by rw [← List.head?_reverse]; exact hc))]
  rw [List.reverse_reverse]

theorem dropWhile_ne_append (l1 l2 : List Char) (h : rbraceC ∉ l1) :
    (l1 ++ rbraceC :: l2).dropWhile (fun ch => ch != rbraceC) =
      rbraceC :: l2 := by
  induction l1 with
  | nil => simp [List.dropWhile_cons]
  | cons a t ih =>
      have ha : a ≠ rbraceC := fun he => h (he ▸ List.mem_cons_self _ _)
      have ht : rbraceC ∉ t := fun hm => h (List.mem_cons_of_mem _ hm)
      simp only [List.cons_append, List.dropWhile_cons]
      rw [if_pos (by simp [ha]), ih ht]

theorem takeWhile_ne_append (l1 l2 : List Char) (h : rbraceC ∉ l1) :
    (l1 ++ rbraceC :: l2).takeWhile (fun ch => ch != rbraceC) = l1 := by
  induction l1 with
  | nil => simp [List.takeWhile_cons]
  | cons a t ih =>
      have ha : a ≠ rbraceC := fun he => h (he ▸ List.mem_cons_self _ _)
      have ht : rbraceC ∉ t := fun hm => h (List.mem_cons_of_mem _ hm)
      simp only [List.cons_append, List.takeWhile_cons]
      rw [if_pos (by simp [ha]), ih ht]

/-- C5 (amended): the Clark-form round-trip
`resolve_qname (q.expanded) = q` holds in every context (any target
namespace and any scope stack) for every qualified name q whose
namespace is non-empty and free of the closing brace, and whose local
name is non-empty, newline-free, and does not end in strippable
whitespace. -/
theorem claim_C5_clark_roundtrip (q : QName) (ctx : ParseContext)
    (hns : q.ns ≠ "")
    (hnb : rbraceC ∉ q.ns.data)
    (hloc : q.local_name.data ≠ [])
    (hnl : nlC ∉ q.local_name.data)
    (hlast : Option.all (fun c => !isPySpace c)
      q.local_name.data.getLast? = true) :
    ParseContext.resolve_qname ctx (QName.expanded q) none = .ok q := by
  have hexp : (QName.expanded q).data =
      lbraceC :: (q.ns.data ++ rbraceC :: q.local_name.data) := by
    rw [QName.expanded, if_pos hns]
    rw [strDataAppend, strDataAppend, strDataAppend]
    show ((lbraceC :: q.ns.data) ++ [rbraceC]) ++ q.local_name.data = _
    simp
  have hgl : (QName.expanded q).data.getLast? =
      q.local_name.data.getLast? := by
    rw [hexp]
    rw [show (lbraceC :: (q.ns.data ++ rbraceC :: q.local_name.data)) =
      (lbraceC :: q.ns.data ++ [rbraceC]) ++ q.local_name.data by simp]
    rw [List.getLast?_append]
    have hsome : (q.local_name.data.getLast?).isSome = true := by
      rw [List.getLast?_isSome]
      exact hloc
    obtain ⟨c, hc⟩ := Option.isSome_iff_exists.mp hsome
    rw [hc]
    rfl
  have hstrip : pyStrip (QName.expanded q) = QName.expanded q := by
    refine pyStrip_eq_self ?_ ?_
    · intro c hc
      rw [hexp] at hc
      cases hc
      decide
    · intro c hc
      rw [hgl] at hc
      rw [hc] at hlast
      simpa using hlast
  have hcl : clarkLocal q.local_name.data = some q.local_name.data := by
    rw [clarkLocal, if_pos ⟨hloc, hnl⟩]
  have hclark : clarkMatch (QName.expanded q).data =
      some (q.ns.data, q.local_name.data) := by
    rw [hexp]
    simp only [clarkMatch]
    rw [if_pos trivial]
    rw [dropWhile_ne_append _ _ hnb, takeWhile_ne_append _ _ hnb]
    simp only [hcl]
  have hne : ¬((QName.expanded q).data = [] ∨
      (pyStrip (QName.expanded q)).data = []) := by
    rw [hstrip, hexp]
    simp
  simp only [ParseContext.resolve_qname, parse_qname]
  rw [if_neg hne, hstrip, hclark]

/-- C5 witness: a concrete namespaced name round-trips in a context
whose target namespace differs. -/
theorem claim_C5_witness :
    ParseContext.resolve_qname ⟨[builtinNS], some "http://t"⟩
      (QName.expanded ⟨"http://x", "el"⟩) none = .ok ⟨"http://x", "el"⟩ :=
  claim_C5_clark_roundtrip ⟨"http://x", "el"⟩ ⟨[builtinNS], some "http://t"⟩
    (by decide) (by decide) (by decide) (by decide) (by decide)

/-- C5 counterexample: for the empty-namespace name ("", "a") — which
the claim explicitly includes — in a context whose target namespace is
"http://x", the Clark form is just "a", and resolving it applies the
default namespace: the round trip returns ("http://x", "a") ≠ q. -/
theorem claim_C5_counterexample :
    ParseContext.resolve_qname ⟨[builtinNS], some "http://x"⟩
        (QName.expanded ⟨"", "a"⟩) none = .ok ⟨"http://x", "a"⟩ ∧
    (⟨"http://x", "a"⟩ : QName) ≠ (⟨"", "a"⟩ : QName) := by
  exact ⟨rfl, by decide⟩

/-! ## SAX engine (src/xsdmesh/parser/xml_parser.py `SAXParser.parse`,
src/xsdmesh/parser/events.py `EventBuffer`)

The stream produced by lxml.iterparse is modelled as a list of
`PEvent`s: the event kind (start/end), the element's qualified name as
`_get_qname` extracts it, the element's xmlns declarations, and the
source line.  Handlers are a parameter of the model: a handler is a
pure function of the event kind, the tag and the context, returning the
list of qualified names it registers.  The lxml element tree itself —
in particular the `elem.clear(keep_tail=True)` and threshold-triggered
`parent.clear()` reclamation — is outside the model's observables. -/

inductive EvKind where
  | startE
  | endE
deriving DecidableEq, Repr

structure PEvent where
  kind : EvKind
  tag : QName
  nsDecls : List (String × String)
  line : Nat
deriving DecidableEq, Repr

/-- `EventBuffer.push` (events.py lines 76-82): `deque(maxlen=3)`
append — keep the newest three. -/
def pushB (buf : List PEvent) (e : PEvent) : List PEvent :=
  (buf ++ [e]).drop ((buf ++ [e]).length - 3)

/-- The engine loop of `SAXParser.parse` (xml_parser.py lines 278-307)
restricted to its buffer discipline: each incoming event is pushed into
the lookahead buffer and then dispatched; the engine never calls
`consume` or `clear`.  The result records, per dispatch, the event and
the exact buffer contents the handler sees. -/
def engineBufTrace (buf : List PEvent) (events : List PEvent) :
    List (PEvent × List PEvent) :=
  match events with
  | [] => []
  | e :: rest =>
      let b2 := pushB buf e
      (e, b2) :: engineBufTrace b2 rest

/-- The `ParseContext` state the engine mutates during the loop: the
namespace scope stack and the element path. -/
structure SAXCtx where
  namespace_stack : List (List (String × String))
  current_path : List (String × String)
deriving DecidableEq, Repr

/-- `ParseContext.push_namespace_scope` (context.py lines 121-132). -/
def SAXCtx.push_namespace_scope (ctx : SAXCtx)
    (m : List (String × String)) : SAXCtx :=
  { ctx with namespace_stack := ctx.namespace_stack ++ [m] }

/-- `pop_namespace_scope` wrapped in the engine's
`try ... except ParseError: pass` (xml_parser.py lines 207-212): the
root scope is never popped. -/
def SAXCtx.pop_namespace_scope_tolerant (ctx : SAXCtx) : SAXCtx :=
  if ctx.namespace_stack.length ≤ 1 then ctx
  else { ctx with namespace_stack := ctx.namespace_stack.dropLast }

/-- `ParseContext.push_element` (context.py lines 203-210). -/
def SAXCtx.push_element (ctx : SAXCtx) (p : String × String) : SAXCtx :=
  { ctx with current_path := ctx.current_path ++ [p] }

/-- `ParseContext.pop_element` (context.py lines 212-219); the engine
discards the returned tuple, and an empty path is left empty. -/
def SAXCtx.pop_element (ctx : SAXCtx) : SAXCtx :=
  { ctx with current_path := ctx.current_path.dropLast }

/-- An element of the document as the handlers see it: its identity,
its parent's identity, and its attribute dict.  lxml hands the same
element object to the handlers; the threshold-triggered
`parent.clear()` wipes a still-open parent's attributes in place. -/
structure XElem where
  eid : Nat
  parent : Option Nat
  attrs : List (String × String)
deriving DecidableEq, Repr

/-- A parse event with its element (the C9 model). -/
structure SEvent where
  kind : EvKind
  tag : QName
  nsDecls : List (String × String)
  elem : XElem
deriving DecidableEq, Repr

/-- `elem.get(...)` as the handlers observe it: an element hit by a
`clear` has lost its attributes. -/
def visibleAttrs (cleared : List Nat) (e : XElem) : List (String × String) :=
  if e.eid ∈ cleared then [] else e.attrs

/-- The accumulated engine state of one `parse` run: context, element
count, the `_elements_since_clear` counter, the identities of elements
whose attributes have been wiped by `elem.clear`/`parent.clear`, and
the concatenated registrations made by the handlers. -/
structure ParseAcc where
  ctx : SAXCtx
  count : Nat
  since_clear : Nat
  cleared : List Nat
  regs : List QName

/-- `SAXParser._handle_start_element` (xml_parser.py lines 131-170)
plus the loop's `elements_count += 1`: push a namespace scope with the
element's declarations (an empty scope when there are none), push the
element, then dispatch with the element's currently visible
attributes. -/
def SAXParser.handleStart
    (handlers : EvKind → QName → List (String × String) → SAXCtx →
      List QName)
    (acc : ParseAcc) (ev : SEvent) : ParseAcc :=
  let ctx1 := (acc.ctx.push_namespace_scope ev.nsDecls).push_element
    (ev.tag.ns, ev.tag.local_name)
  { ctx := ctx1, count := acc.count + 1, since_clear := acc.since_clear,
    cleared := acc.cleared,
    regs := acc.regs ++
      handlers .startE ev.tag (visibleAttrs acc.cleared ev.elem) ctx1 }

/-- `SAXParser._handle_end_element` (xml_parser.py lines 172-227):
dispatch with the element's currently visible attributes and the
current context, pop the element and the scope, then the memory
bookkeeping — `elem.clear(keep_tail=True)`, the counter increment, and
at the threshold `parent.clear()` (wiping the still-open parent's
attributes) with a counter reset. -/
def SAXParser.handleEnd
    (handlers : EvKind → QName → List (String × String) → SAXCtx →
      List QName)
    (memory_threshold : Nat) (acc : ParseAcc) (ev : SEvent) : ParseAcc :=
  let regs2 := acc.regs ++
    handlers .endE ev.tag (visibleAttrs acc.cleared ev.elem) acc.ctx
  let ctx1 := (acc.ctx.pop_element).pop_namespace_scope_tolerant
  let cleared1 := ev.elem.eid :: acc.cleared
  if acc.since_clear + 1 ≥ memory_threshold then
    { ctx := ctx1, count := acc.count, since_clear := 0,
      cleared := match ev.elem.parent with
        | some pid => pid :: cleared1
        | none => cleared1,
      regs := regs2 }
  else
    { ctx := ctx1, count := acc.count, since_clear := acc.since_clear + 1,
      cleared := cleared1, regs := regs2 }

def parseStep
    (handlers : EvKind → QName → List (String × String) → SAXCtx →
      List QName)
    (memory_threshold : Nat) (acc : ParseAcc) (ev : SEvent) : ParseAcc :=
  match ev.kind with
  | .startE => SAXParser.handleStart handlers acc ev
  | .endE => SAXParser.handleEnd handlers memory_threshold acc ev

/-- `SAXParser.parse` (xml_parser.py lines 229-336): fold the engine
step over the event stream from the initial state (builtin root scope,
zero counters, nothing cleared). -/
def SAXParser.parseEvents
    (handlers : EvKind → QName → List (String × String) → SAXCtx →
      List QName)
    (memory_threshold : Nat) (events : List SEvent) : ParseAcc :=
  events.foldl (parseStep handlers memory_threshold)
    ⟨⟨[builtinNS], []⟩, 0, 0, [], []⟩

/-- The number of END_ELEMENT events of a stream (each increments
`_elements_since_clear`). -/
def endCount (events : List SEvent) : Nat :=
  (events.filter (fun e => e.kind == EvKind.endE)).length

theorem endCount_cons (e : SEvent) (rest : List SEvent) :
    endCount (e :: rest) =
      (if e.kind == EvKind.endE then 1 else 0) + endCount rest := by
  rw [endCount, endCount, List.filter_cons]
  split
  · simp [Nat.add_comm]
  · simp

theorem handleEnd_ctx
    (h : EvKind → QName → List (String × String) → SAXCtx → List QName)
    (mt : Nat) (acc : ParseAcc) (ev : SEvent) :
    (SAXParser.handleEnd h mt acc ev).ctx =
      (acc.ctx.pop_element).pop_namespace_scope_tolerant := by
  simp only [SAXParser.handleEnd]
  split <;> rfl

theorem handleEnd_count
    (h : EvKind → QName → List (String × String) → SAXCtx → List QName)
    (mt : Nat) (acc : ParseAcc) (ev : SEvent) :
    (SAXParser.handleEnd h mt acc ev).count = acc.count := by
  simp only [SAXParser.handleEnd]
  split <;> rfl

/-- Element count and context never depend on the threshold (or on the
cleared set). -/
theorem parseFold_count_ctx
    (h : EvKind → QName → List (String × String) → SAXCtx → List QName)
    (t1 t2 : Nat) :
    ∀ (events : List SEvent) (a1 a2 : ParseAcc),
      a1.ctx = a2.ctx → a1.count = a2.count →
      (events.foldl (parseStep h t1) a1).ctx =
        (events.foldl (parseStep h t2) a2).ctx ∧
      (events.foldl (parseStep h t1) a1).count =
        (events.foldl (parseStep h t2) a2).count := by
  intro events
  induction events with
  | nil => exact fun a1 a2 hc hn => ⟨hc, hn⟩
  | cons e rest ih =>
      intro a1 a2 hc hn
      rw [List.foldl_cons, List.foldl_cons]
      apply ih
      · cases he : e.kind with
        | startE =>
            simp only [parseStep, he, SAXParser.handleStart, hc]
        | endE =>
            simp only [parseStep, he, handleEnd_ctx, hc]
      · cases he : e.kind with
        | startE =>
            simp only [parseStep, he, SAXParser.handleStart, hn]
        | endE =>
            simp only [parseStep, he, handleEnd_count, hn]

/-- While the counter stays below both thresholds for the whole
remaining stream, the two runs coincide entirely. -/
theorem parseFold_below_threshold
    (h : EvKind → QName → List (String × String) → SAXCtx → List QName) :
    ∀ (events : List SEvent) (acc : ParseAcc) (t1 t2 : Nat),
      acc.since_clear + endCount events < t1 →
      acc.since_clear + endCount events < t2 →
      events.foldl (parseStep h t1) acc =
        events.foldl (parseStep h t2) acc := by
  intro events
  induction events with
  | nil => intro acc t1 t2 _ _; rfl
  | cons e rest ih =>
      intro acc t1 t2 ht1 ht2
      rw [endCount_cons] at ht1 ht2
      rw [List.foldl_cons, List.foldl_cons]
      cases he : e.kind with
      | startE =>
          have hs1 : parseStep h t1 acc e = SAXParser.handleStart h acc e := by
            simp only [parseStep, he]
          have hs2 : parseStep h t2 acc e = SAXParser.handleStart h acc e := by
            simp only [parseStep, he]
          rw [hs1, hs2]
          apply ih
          · show (SAXParser.handleStart h acc e).since_clear +
              endCount rest < t1
            rw [he] at ht1
            simpa using Nat.lt_of_le_of_lt (Nat.le_refl _)
              (by simpa using ht1)
          · show (SAXParser.handleStart h acc e).since_clear +
              endCount rest < t2
            rw [he] at ht2
            simpa using Nat.lt_of_le_of_lt (Nat.le_refl _)
              (by simpa using ht2)
      | endE =>
          rw [he] at ht1 ht2
          simp only [beq_self_eq_true, if_pos] at ht1 ht2
          have hlt1 : ¬ (acc.since_clear + 1 ≥ t1) := by omega
          have hlt2 : ¬ (acc.since_clear + 1 ≥ t2) := by omega
          have hE : ∀ t : Nat, ¬ (acc.since_clear + 1 ≥ t) →
              SAXParser.handleEnd h t acc e =
                { ctx := (acc.ctx.pop_element).pop_namespace_scope_tolerant,
                  count := acc.count,
                  since_clear := acc.since_clear + 1,
                  cleared := e.elem.eid :: acc.cleared,
                  regs := acc.regs ++ h .endE e.tag
                    (visibleAttrs acc.cleared e.elem) acc.ctx } := by
            intro t ht
            simp only [SAXParser.handleEnd]
            rw [if_neg ht]
          have hp1 : parseStep h t1 acc e = SAXParser.handleEnd h t1 acc e := by
            simp only [parseStep, he]
          have hp2 : parseStep h t2 acc e = SAXParser.handleEnd h t2 acc e := by
            simp only [parseStep, he]
          rw [hp1, hp2, hE t1 hlt1, hE t2 hlt2]
          apply ih
          · show acc.since_clear + 1 + endCount rest < t1
            omega
          · show acc.since_clear + 1 + endCount rest < t2
            omega

/-- C9 (corrected): the memoryThreshold never changes the element
count or the final context; and whenever neither positive threshold is
low enough for the aggressive cleanup to trigger — both exceed the
number of END_ELEMENT events — the entire result, including the list
of registered qualified names, is identical.  Below that, the claim is
false: the threshold-triggered `parent.clear()` wipes a still-open
parent's attributes before its end handler reads them (see the
counterexample). -/
theorem claim_C9_threshold_independence
    (handlers : EvKind → QName → List (String × String) → SAXCtx →
      List QName)
    (events : List SEvent) (t1 t2 : Nat) (_h1 : 0 < t1) (_h2 : 0 < t2) :
    (SAXParser.parseEvents handlers t1 events).count =
      (SAXParser.parseEvents handlers t2 events).count ∧
    (SAXParser.parseEvents handlers t1 events).ctx =
      (SAXParser.parseEvents handlers t2 events).ctx ∧
    (endCount events < t1 → endCount events < t2 →
      (SAXParser.parseEvents handlers t1 events).regs =
        (SAXParser.parseEvents handlers t2 events).regs) := by
  obtain ⟨hc, hn⟩ := parseFold_count_ctx handlers t1 t2 events
    ⟨⟨[builtinNS], []⟩, 0, 0, [], []⟩ ⟨⟨[builtinNS], []⟩, 0, 0, [], []⟩
    rfl rfl
  refine ⟨hn, hc, ?_⟩
  intro he1 he2
  have hfull := parseFold_below_threshold handlers events
    ⟨⟨[builtinNS], []⟩, 0, 0, [], []⟩ t1 t2
    (by simpa using he1) (by simpa using he2)
  rw [SAXParser.parseEvents, SAXParser.parseEvents, hfull]

/-- The registering handler and the four-event stream of the C9
witness. -/
def c9h : EvKind → QName → List (String × String) → SAXCtx →
    List QName := fun _ q _ _ => [q]

def c9events : List SEvent :=
  [⟨.startE, ⟨"n", "a"⟩, [], ⟨0, none, []⟩⟩,
    ⟨.startE, ⟨"n", "b"⟩, [], ⟨1, some 0, []⟩⟩,
    ⟨.endE, ⟨"n", "b"⟩, [], ⟨1, some 0, []⟩⟩,
    ⟨.endE, ⟨"n", "a"⟩, [], ⟨0, none, []⟩⟩]

/-- C9 witness: thresholds 5 and 1000 on a concrete stream with two
end events. -/
theorem claim_C9_witness :
    0 < 5 ∧ 0 < 1000 ∧ endCount c9events < 5 ∧ endCount c9events < 1000 ∧
    ((SAXParser.parseEvents c9h 5 c9events).count =
      (SAXParser.parseEvents c9h 1000 c9events).count ∧
    (SAXParser.parseEvents c9h 5 c9events).ctx =
      (SAXParser.parseEvents c9h 1000 c9events).ctx ∧
    (endCount c9events < 5 → endCount c9events < 1000 →
      (SAXParser.parseEvents c9h 5 c9events).regs =
        (SAXParser.parseEvents c9h 1000 c9events).regs)) :=
  ⟨by decide, by decide, by decide, by decide,
    claim_C9_threshold_independence c9h c9events 5 1000 (by decide)
      (by decide)⟩

/-- The end-handler of the C9 counterexample: it registers a qualified
name read from the element's `name` attribute, as the component
handlers do. -/
def c9endNameHandlers : EvKind → QName → List (String × String) →
    SAXCtx → List QName :=
  fun k _ attrs _ =>
    if k == EvKind.endE then [⟨"", (alGet attrs "name").getD "missing"⟩]
    else []

/-- The two-element document of the C9 counterexample: a root carrying
`name="root"` with one child carrying `name="child"`. -/
def c9doc : List SEvent :=
  [⟨.startE, ⟨"n", "a"⟩, [], ⟨0, none, [("name", "root")]⟩⟩,
    ⟨.startE, ⟨"n", "b"⟩, [], ⟨1, some 0, [("name", "child")]⟩⟩,
    ⟨.endE, ⟨"n", "b"⟩, [], ⟨1, some 0, [("name", "child")]⟩⟩,
    ⟨.endE, ⟨"n", "a"⟩, [], ⟨0, none, [("name", "root")]⟩⟩]

/-- C9 counterexample: two positive thresholds, different registered
names.  With threshold 1 the child's end triggers `parent.clear()` on
the still-open root, so the root's end handler finds its `name`
attribute gone and registers a different qualified name than the
threshold-10 run; the element counts still agree. -/
theorem claim_C9_counterexample :
    0 < 1 ∧ 0 < 10 ∧
    (SAXParser.parseEvents c9endNameHandlers 1 c9doc).regs =
      [⟨"", "child"⟩, ⟨"", "missing"⟩] ∧
    (SAXParser.parseEvents c9endNameHandlers 10 c9doc).regs =
      [⟨"", "child"⟩, ⟨"", "root"⟩] ∧
    (SAXParser.parseEvents c9endNameHandlers 1 c9doc).regs ≠
      (SAXParser.parseEvents c9endNameHandlers 10 c9doc).regs ∧
    (SAXParser.parseEvents c9endNameHandlers 1 c9doc).count =
      (SAXParser.parseEvents c9endNameHandlers 10 c9doc).count := by
  refine ⟨by decide, by decide, rfl, rfl, by decide, rfl⟩

/-- The buffer trace of a pushed-then-dispatched engine: each entry's
buffer is the newest (at most three) of the events processed so far,
ending with the entry's own event. -/
theorem engineBufTrace_get (events : List PEvent) :
    ∀ (done buf0 : List PEvent), buf0 <:+ done →
    ∀ (i : Nat) (ev : PEvent), events[i]? = some ev →
      ∃ buf, (engineBufTrace buf0 events)[i]? = some (ev, buf) ∧
        buf.getLast? = some ev ∧ buf.length ≤ 3 ∧
        buf <:+ done ++ events.take (i + 1) := by
  induction events with
  | nil =>
      intro done buf0 _ i ev hev
      simp at hev
  | cons e rest ih =>
      intro done buf0 hsuf i ev hev
      have hm : (buf0 ++ [e]).length - 3 ≤ buf0.length := by
        simp
      have hpush : pushB buf0 e =
          buf0.drop ((buf0 ++ [e]).length - 3) ++ [e] := by
        rw [pushB, List.drop_append_of_le_length hm]
      have hsuf2 : pushB buf0 e <:+ done ++ [e] := by
        obtain ⟨u, hu⟩ := (List.drop_suffix ((buf0 ++ [e]).length - 3)
          buf0).trans hsuf
        exact ⟨u, by rw [hpush, ← List.append_assoc, hu]⟩
      cases i with
      | zero =>
          rw [List.getElem?_cons_zero] at hev
          cases hev
          refine ⟨pushB buf0 e, ?_, ?_, ?_, ?_⟩
          · simp [engineBufTrace]
          · rw [hpush]
            exact List.getLast?_concat _
          · rw [pushB]
            simp
            omega
          · simpa using hsuf2
      | succ i2 =>
          simp only [List.getElem?_cons_succ] at hev
          obtain ⟨buf, htr, hlast, hlen, hsuf3⟩ :=
            ih (done ++ [e]) (pushB buf0 e) hsuf2 i2 ev hev
          refine ⟨buf, ?_, hlast, hlen, ?_⟩
          · simpa [engineBufTrace] using htr
          · rw [List.take_succ_cons]
            rw [show done ++ e :: List.take (i2 + 1) rest =
              (done ++ [e]) ++ List.take (i2 + 1) rest by simp]
            exact hsuf3

/-- C10: the engine pushes each event into the lookahead buffer
immediately before dispatching it and never consumes from or clears
that buffer; hence at every handler invocation the buffer holds at most
three events, its newest entry is exactly the event being dispatched,
and every buffered entry is among the events already processed (the
first `i+1` of the stream) — a handler's lookahead never observes an
event the engine has not yet processed. -/
theorem claim_C10_buffer_invariant (events : List PEvent) (i : Nat)
    (ev : PEvent) (hev : events[i]? = some ev) :
    ∃ buf, (engineBufTrace [] events)[i]? = some (ev, buf) ∧
      buf.getLast? = some ev ∧
      buf.length ≤ 3 ∧
      buf <:+ events.take (i + 1) ∧
      ∀ e2 ∈ buf, e2 ∈ events.take (i + 1) := by
  obtain ⟨buf, htr, hlast, hlen, hsuf⟩ :=
    engineBufTrace_get events [] [] List.nil_suffix i ev hev
  rw [List.nil_append] at hsuf
  exact ⟨buf, htr, hlast, hlen, hsuf, fun e2 h2 => hsuf.subset h2⟩

/-- The stream of the C10 witness. -/
def c10e (n : Nat) : PEvent := ⟨.startE, ⟨"n", "l"⟩, [], n⟩

/-- C10 witness: the fourth dispatch of a four-event stream sees the
three newest events, ending with the current one. -/
theorem claim_C10_witness :
    ([c10e 1, c10e 2, c10e 3, c10e 4][3]? = some (c10e 4)) ∧
    ∃ buf,
      (engineBufTrace [] [c10e 1, c10e 2, c10e 3, c10e 4])[3]? =
        some (c10e 4, buf) ∧
      buf.getLast? = some (c10e 4) ∧
      buf.length ≤ 3 ∧
      buf <:+ [c10e 1, c10e 2, c10e 3, c10e 4].take 4 ∧
      ∀ e2 ∈ buf, e2 ∈ [c10e 1, c10e 2, c10e 3, c10e 4].take 4 :=
  ⟨rfl, claim_C10_buffer_invariant [c10e 1, c10e 2, c10e 3, c10e 4] 3
    (c10e 4) rfl⟩

/-! ## Backend equivalence (DictStorage vs TrieStorage)

A sequence of storage operations is applied identically to both
backends; a raised backend error (`ValueError` / duplicate) aborts that
operation, leaving the state unchanged.  `Sim` is the simulation
invariant tying the exact-match state to the trie state. -/

inductive StOp (T : Type) where
  | sstore (qn : QName) (c : T)
  | sremove (qn : QName)
  | sclear
deriving DecidableEq, Repr

def applyD {T : Type} (qnameOf : T → QName) (d : DictStorage T) :
    StOp T → DictStorage T
  | .sstore qn c =>
      match DictStorage.store d qn c with
      | .ok d2 => d2
      | .error _ => d
  | .sremove qn => (DictStorage.removeD qnameOf d qn).2
  | .sclear => DictStorage.clearD d

def applyT {T : Type} (h1 h2 : String → Nat) (t : TrieStorage T) :
    StOp T → TrieStorage T
  | .sstore qn c =>
      match TrieStorage.store h1 h2 t qn c with
      | .ok t2 => t2
      | .error _ => t
  | .sremove qn => (TrieStorage.removeT t qn).2
  | .sclear => TrieStorage.clearT t

/-- The operations under which the two backends agree: a store files
the component under its own qname (as `ComponentRegistry.register`
does) and under a non-empty namespace (the trie key). -/
def GoodOp {T : Type} (qnameOf : T → QName) : StOp T → Prop
  | .sstore qn c => qn = qnameOf c ∧ qn.ns ≠ ""
  | .sremove _ => True
  | .sclear => True

/-- Simulation invariant between the two backend states. -/
structure Sim {T : Type} (qnameOf : T → QName) (h1 h2 : String → Nat)
    (d : DictStorage T) (t : TrieStorage T) : Prop where
  tinv : TSInv h1 h2 t
  look_eq : ∀ qn, alGet d.items qn = TrieStorage.rawLookup t qn
  items_coh : ∀ qn c, alGet d.items qn = some c → qnameOf c = qn
  bucket_coh : ∀ (k : List Char) bucket loc c,
    trieGet t.trie k = some bucket → alGet bucket loc = some c →
    qnameOf c = ⟨⟨k⟩, loc⟩
  idx_nodup : (d.namespace_index.map (·.1)).Nodup
  idx_mem : ∀ (ns : String) (x : T),
    x ∈ (alGet d.namespace_index ns).getD [] ↔
    ∃ loc, alGet ((trieGet t.trie ns.data).getD []) loc = some x

theorem rawLookup_eq {T : Type} (s : TrieStorage T) (qn : QName) :
    TrieStorage.rawLookup s qn =
      alGet ((trieGet s.trie qn.ns.data).getD []) qn.local_name := by
  rw [TrieStorage.rawLookup]
  cases hb : trieGet s.trie qn.ns.data with
  | none => rfl
  | some b => rfl

theorem alErase_nodup {K V : Type} [DecidableEq K] {l : List (K × V)}
    {k : K} (hn : (l.map (·.1)).Nodup) :
    ((alErase l k).map (·.1)).Nodup :=
  hn.sublist ((List.filter_sublist l).map (·.1))

theorem alGet_none_not_mem_keys {K V : Type} [DecidableEq K]
    {l : List (K × V)} {k : K} (h : alGet l k = none) :
    k ∉ l.map (·.1) := by
  intro hm
  obtain ⟨p, hp, hk⟩ := List.mem_map.mp hm
  have hf : l.find? (fun q => q.1 = k) = none := by
    cases hf : l.find? (fun q => q.1 = k) with
    | none => rfl
    | some q =>
        rw [alGet, hf] at h
        cases h
  have := List.find?_eq_none.mp hf p hp
  simp [hk] at this

theorem alSet_keys_nodup {K V : Type} [DecidableEq K] {l : List (K × V)}
    (hn : (l.map (·.1)).Nodup) (k : K) (v : V) :
    ((alSet l k v).map (·.1)).Nodup := by
  induction l with
  | nil => simp [alSet]
  | cons hd tl ih =>
      obtain ⟨k2, v2⟩ := hd
      simp only [List.map_cons, List.nodup_cons] at hn
      simp only [alSet]
      by_cases hk : k2 = k
      · rw [if_pos hk, List.map_cons, List.nodup_cons]
        subst hk
        exact hn
      · rw [if_neg hk, List.map_cons, List.nodup_cons]
        refine ⟨?_, ih hn.2⟩
        intro hmem
        rcases alSet_keys tl k v with he | he
        · rw [he] at hmem
          exact hn.1 hmem
        · rw [he] at hmem
          rcases List.mem_append.mp hmem with hm | hm
          · exact hn.1 hm
          · rw [List.mem_singleton] at hm
            exact hk hm

theorem Sim_empty {T : Type} (qnameOf : T → QName) (h1 h2 : String → Nat)
    (size num : Nat) :
    Sim qnameOf h1 h2 DictStorage.emptyD (TrieStorage.emptyTS size num) := by
  refine ⟨TSInv_emptyTS h1 h2 size num, ?_, ?_, ?_, ?_, ?_⟩
  · intro qn
    rw [TrieStorage.rawLookup]
    rw [show (TrieStorage.emptyTS (T := T) size num).trie =
      PatriciaTrie.emptyT from rfl, trieGet_emptyT]
    rfl
  · intro qn c h
    cases h
  · intro k bucket loc c hb
    rw [show (TrieStorage.emptyTS (T := T) size num).trie =
      PatriciaTrie.emptyT from rfl, trieGet_emptyT] at hb
    cases hb
  · simp [DictStorage.emptyD]
  · intro ns x
    rw [show (TrieStorage.emptyTS (T := T) size num).trie =
      PatriciaTrie.emptyT from rfl, trieGet_emptyT]
    simp [DictStorage.emptyD, alGet]

theorem Sim_clear {T : Type} {qnameOf : T → QName} {h1 h2 : String → Nat}
    {d : DictStorage T} {t : TrieStorage T} :
    Sim qnameOf h1 h2 (applyD qnameOf d .sclear) (applyT h1 h2 t .sclear) := by
  simp only [applyD, applyT, DictStorage.clearD]
  refine ⟨(TrieStorage.clear_spec h1 h2 t).1, ?_, ?_, ?_, ?_, ?_⟩
  · intro qn
    rw [rawLookup_eq, (TrieStorage.clear_spec h1 h2 t).2]
    rfl
  · intro qn c h
    cases h
  · intro k bucket loc c hb
    rw [show (TrieStorage.clearT t).trie = PatriciaTrie.emptyT from rfl,
      trieGet_emptyT] at hb
    cases hb
  · simp
  · intro ns x
    rw [(TrieStorage.clear_spec h1 h2 t).2]
    simp [alGet]

theorem Sim_store {T : Type} {qnameOf : T → QName} {h1 h2 : String → Nat}
    {d : DictStorage T} {t : TrieStorage T}
    (hs : Sim qnameOf h1 h2 d t) {qn : QName} {c : T}
    (hq : qn = qnameOf c) (hns : qn.ns ≠ "") :
    Sim qnameOf h1 h2 (applyD qnameOf d (.sstore qn c))
      (applyT h1 h2 t (.sstore qn c)) := by
  have hl2ne : ∀ qn2 : QName, qn2 ≠ qn → qn2.ns = qn.ns →
      qn2.local_name ≠ qn.local_name := by
    intro qn2 hne hnse he
    apply hne
    cases qn2
    cases qn
    simp only [QName.mk.injEq]
    exact ⟨hnse, he⟩
  cases hraw : TrieStorage.rawLookup t qn with
  | some c0 =>
      have hkd : alHasKey d.items qn = true := by
        rw [alHasKey_eq_isSome, hs.look_eq, hraw]
        rfl
      have hded : DictStorage.store d qn c =
          .error ("Component already registered: " ++ qn.expanded) := by
        rw [DictStorage.store, if_pos (by simp [hkd])]
      have hter := TrieStorage.store_dup h1 h2 hraw c
      simp only [applyD, applyT, hded, hter]
      exact hs
  | none =>
      have hkd : alHasKey d.items qn = false := by
        rw [alHasKey_eq_isSome, hs.look_eq, hraw]
        rfl
      have hded : DictStorage.store d qn c = .ok
          ⟨alSet d.items qn c,
            alSet d.namespace_index qn.ns
              (((alGet d.namespace_index qn.ns).getD []) ++ [c])⟩ := by
        rw [DictStorage.store, if_neg (by simp [hkd])]
      obtain ⟨s2, hok, hinv2, hbl, hget⟩ := TrieStorage.store_ok hs.tinv hns c hraw
      have hob : alGet ((trieGet t.trie qn.ns.data).getD []) qn.local_name =
          (none : Option T) := by
        rw [← rawLookup_eq]
        exact hraw
      simp only [applyD, applyT, hded, hok]
      refine ⟨hinv2, ?_, ?_, ?_, ?_, ?_⟩
      · intro qn2
        show alGet (alSet d.items qn c) qn2 = _
        rw [rawLookup_eq, hget qn2.ns.data]
        by_cases h2q : qn2 = qn
        · rw [h2q, if_pos rfl, Option.getD_some, alGet_alSet_self,
            alGet_alSet_self]
        · rw [alGet_alSet_ne _ _ _ _ h2q, hs.look_eq qn2, rawLookup_eq]
          by_cases hns2 : qn2.ns.data = qn.ns.data
          · rw [if_pos hns2, Option.getD_some, hns2]
            have hl2 := hl2ne qn2 h2q (strData_inj hns2)
            rw [alGet_alSet_ne _ _ _ _ hl2]
          · rw [if_neg hns2]
      · intro qn2 c2 h
        have hitems : (⟨alSet d.items qn c, alSet d.namespace_index qn.ns
            (((alGet d.namespace_index qn.ns).getD []) ++ [c])⟩ :
            DictStorage T).items = alSet d.items qn c := rfl
        rw [hitems] at h
        by_cases h2q : qn2 = qn
        · rw [h2q, alGet_alSet_self] at h
          cases h
          rw [h2q]
          exact hq.symm
        · rw [alGet_alSet_ne _ _ _ _ h2q] at h
          exact hs.items_coh qn2 c2 h
      · intro k bucket loc c2 hbk hblk
        rw [hget k] at hbk
        by_cases hk : k = qn.ns.data
        · rw [if_pos hk] at hbk
          cases hbk
          by_cases hl : loc = qn.local_name
          · rw [hl, alGet_alSet_self] at hblk
            cases hblk
            rw [hk, hl, ← hq]
          · rw [alGet_alSet_ne _ _ _ _ hl] at hblk
            cases hb : trieGet t.trie qn.ns.data with
            | none =>
                rw [hb, Option.getD_none, alGet_nil] at hblk
                cases hblk
            | some b =>
                rw [hb, Option.getD_some] at hblk
                have := hs.bucket_coh qn.ns.data b loc c2 hb hblk
                rw [hk]
                exact this
        · rw [if_neg hk] at hbk
          exact hs.bucket_coh k bucket loc c2 hbk hblk
      · show ((alSet d.namespace_index qn.ns
          (((alGet d.namespace_index qn.ns).getD []) ++ [c])).map (·.1)).Nodup
        exact alSet_keys_nodup hs.idx_nodup _ _
      · intro ns2 x
        show x ∈ (alGet (alSet d.namespace_index qn.ns
          (((alGet d.namespace_index qn.ns).getD []) ++ [c])) ns2).getD [] ↔ _
        rw [hget ns2.data]
        by_cases hn2 : ns2 = qn.ns
        · rw [hn2, alGet_alSet_self, Option.getD_some, if_pos rfl,
            Option.getD_some]
          constructor
          · intro hx
            rcases List.mem_append.mp hx with hx | hx
            · obtain ⟨loc, hloc⟩ := (hs.idx_mem qn.ns x).mp hx
              have hlne : loc ≠ qn.local_name := by
                intro he
                rw [he, hob] at hloc
                cases hloc
              exact ⟨loc, by rw [alGet_alSet_ne _ _ _ _ hlne]; exact hloc⟩
            · rw [List.mem_singleton] at hx
              subst hx
              exact ⟨qn.local_name, alGet_alSet_self _ _ _⟩
          · rintro ⟨loc, hloc⟩
            by_cases hl : loc = qn.local_name
            · rw [hl, alGet_alSet_self] at hloc
              cases hloc
              exact List.mem_append.mpr (Or.inr (List.mem_singleton_self _))
            · rw [alGet_alSet_ne _ _ _ _ hl] at hloc
              exact List.mem_append.mpr
                (Or.inl ((hs.idx_mem qn.ns x).mpr ⟨loc, hloc⟩))
        · rw [alGet_alSet_ne _ _ _ _ hn2,
            if_neg (fun he => hn2 (strData_inj he))]
          exact hs.idx_mem ns2 x

theorem Sim_remove {T : Type} {qnameOf : T → QName} {h1 h2 : String → Nat}
    {d : DictStorage T} {t : TrieStorage T}
    (hs : Sim qnameOf h1 h2 d t) (qn : QName) :
    Sim qnameOf h1 h2 (applyD qnameOf d (.sremove qn))
      (applyT h1 h2 t (.sremove qn)) := by
  have hl2ne : ∀ qn2 : QName, qn2 ≠ qn → qn2.ns = qn.ns →
      qn2.local_name ≠ qn.local_name := by
    intro qn2 hne hnse he
    apply hne
    cases qn2
    cases qn
    simp only [QName.mk.injEq]
    exact ⟨hnse, he⟩
  cases hraw : TrieStorage.rawLookup t qn with
  | none =>
      have hdr : alGet d.items qn = none := by
        rw [hs.look_eq]
        exact hraw
      have hD : DictStorage.removeD qnameOf d qn = (false, d) := by
        rw [DictStorage.removeD, hdr]
      have hT := (TrieStorage.remove_spec hs.tinv qn).1 hraw
      simp only [applyD, applyT, hD, hT]
      exact hs
  | some c0 =>
      obtain ⟨s2, hrem, hinv2, hbl, hget⟩ :=
        (TrieStorage.remove_spec hs.tinv qn).2 c0 hraw
      have hdr : alGet d.items qn = some c0 := by
        rw [hs.look_eq]
        exact hraw
      have hobs : ∃ bucket, trieGet t.trie qn.ns.data = some bucket ∧
          alGet bucket qn.local_name = some c0 := by
        have hra := hraw
        rw [rawLookup_eq] at hra
        cases hb : trieGet t.trie qn.ns.data with
        | none =>
            rw [hb, Option.getD_none, alGet_nil] at hra
            cases hra
        | some b =>
            rw [hb, Option.getD_some] at hra
            exact ⟨b, rfl, hra⟩
      obtain ⟨bucket, hb, hbc0⟩ := hobs
      have hbD : (trieGet t.trie qn.ns.data).getD [] = bucket := by
        rw [hb, Option.getD_some]
      have hcomps : ∃ compsL, alGet d.namespace_index qn.ns = some compsL := by
        have hm : c0 ∈ (alGet d.namespace_index qn.ns).getD [] :=
          (hs.idx_mem qn.ns c0).mpr ⟨qn.local_name, by rw [hbD]; exact hbc0⟩
        cases hg : alGet d.namespace_index qn.ns with
        | none =>
            rw [hg, Option.getD_none] at hm
            cases hm
        | some l => exact ⟨l, rfl⟩
      obtain ⟨compsL, hgc⟩ := hcomps
      have hD : DictStorage.removeD qnameOf d qn =
          (true, ⟨alErase d.items qn,
            if (compsL.filter (fun c => qnameOf c ≠ qn)).isEmpty then
              alErase d.namespace_index qn.ns
            else alSet d.namespace_index qn.ns
              (compsL.filter (fun c => qnameOf c ≠ qn))⟩) := by
        rw [DictStorage.removeD, hdr, hgc]
      have hiff : ∀ x, x ∈ compsL.filter (fun c2 => qnameOf c2 ≠ qn) ↔
          ∃ loc, alGet (alErase bucket qn.local_name) loc = some x := by
        intro x
        constructor
        · intro hx
          obtain ⟨hxc, hxq⟩ := List.mem_filter.mp hx
          have hxq2 : qnameOf x ≠ qn := by simpa using hxq
          obtain ⟨loc, hloc⟩ := (hs.idx_mem qn.ns x).mp
            (by rw [hgc, Option.getD_some]; exact hxc)
          rw [hbD] at hloc
          have hco := hs.bucket_coh qn.ns.data bucket loc x hb hloc
          have hlne : loc ≠ qn.local_name := by
            intro he
            apply hxq2
            rw [hco, he]
          exact ⟨loc, by rw [alGet_alErase_ne _ _ _ hlne]; exact hloc⟩
        · rintro ⟨loc, hloc⟩
          by_cases hl : loc = qn.local_name
          · rw [hl, alGet_alErase_self] at hloc
            cases hloc
          · rw [alGet_alErase_ne _ _ _ hl] at hloc
            have hxc : x ∈ compsL := by
              have hm := (hs.idx_mem qn.ns x).mpr ⟨loc, by rw [hbD]; exact hloc⟩
              rw [hgc, Option.getD_some] at hm
              exact hm
            have hco := hs.bucket_coh qn.ns.data bucket loc x hb hloc
            refine List.mem_filter.mpr ⟨hxc, ?_⟩
            simp only [ne_eq, decide_not, Bool.not_eq_eq_eq_not, Bool.not_true,
              decide_eq_false_iff_not]
            intro he
            apply hl
            rw [hco] at he
            have := congrArg QName.local_name he
            simpa using this
      simp only [applyD, applyT, hD, hrem]
      refine ⟨hinv2, ?_, ?_, ?_, ?_, ?_⟩
      · intro qn2
        show alGet (alErase d.items qn) qn2 = _
        rw [rawLookup_eq, hget qn2.ns.data]
        by_cases h2q : qn2 = qn
        · rw [h2q, if_pos rfl, Option.getD_some, alGet_alErase_self,
            alGet_alErase_self]
        · rw [alGet_alErase_ne _ _ _ h2q, hs.look_eq qn2, rawLookup_eq]
          by_cases hns2 : qn2.ns.data = qn.ns.data
          · rw [if_pos hns2, Option.getD_some, hns2]
            have hl2 := hl2ne qn2 h2q (strData_inj hns2)
            rw [alGet_alErase_ne _ _ _ hl2]
          · rw [if_neg hns2]
      · intro qn2 c2 h
        have h2 : alGet (alErase d.items qn) qn2 = some c2 := h
        by_cases h2q : qn2 = qn
        · rw [h2q, alGet_alErase_self] at h2
          cases h2
        · rw [alGet_alErase_ne _ _ _ h2q] at h2
          exact hs.items_coh qn2 c2 h2
      · intro k bucket2 loc c2 hbk hblk
        rw [hget k] at hbk
        by_cases hk : k = qn.ns.data
        · rw [if_pos hk] at hbk
          cases hbk
          by_cases hl : loc = qn.local_name
          · rw [hl, alGet_alErase_self] at hblk
            cases hblk
          · rw [alGet_alErase_ne _ _ _ hl, hbD] at hblk
            have := hs.bucket_coh qn.ns.data bucket loc c2 hb hblk
            rw [hk]
            exact this
        · rw [if_neg hk] at hbk
          exact hs.bucket_coh k bucket2 loc c2 hbk hblk
      · show ((if (compsL.filter (fun c => qnameOf c ≠ qn)).isEmpty then
            alErase d.namespace_index qn.ns
          else alSet d.namespace_index qn.ns
            (compsL.filter (fun c => qnameOf c ≠ qn))).map (·.1)).Nodup
        by_cases hce : (compsL.filter (fun c => qnameOf c ≠ qn)).isEmpty
        · rw [if_pos hce]
          exact alErase_nodup hs.idx_nodup
        · rw [if_neg hce]
          exact alSet_keys_nodup hs.idx_nodup _ _
      · intro ns2 x
        show x ∈ (alGet (if (compsL.filter (fun c => qnameOf c ≠ qn)).isEmpty
            then alErase d.namespace_index qn.ns
            else alSet d.namespace_index qn.ns
              (compsL.filter (fun c => qnameOf c ≠ qn))) ns2).getD [] ↔
          ∃ loc, alGet ((trieGet s2.trie ns2.data).getD []) loc = some x
        rw [hget ns2.data]
        by_cases hn2 : ns2 = qn.ns
        · rw [hn2, if_pos rfl, Option.getD_some, hbD]
          by_cases hce : (compsL.filter (fun c => qnameOf c ≠ qn)).isEmpty
          · rw [if_pos hce]
            rw [alGet_alErase_self, Option.getD_none]
            have hce2 : compsL.filter (fun c => qnameOf c ≠ qn) = [] := by
              simpa using hce
            constructor
            · intro hx
              cases hx
            · rintro ⟨loc, hloc⟩
              have hxf := (hiff x).mpr ⟨loc, hloc⟩
              rw [hce2] at hxf
              cases hxf
          · rw [if_neg hce]
            rw [alGet_alSet_self, Option.getD_some]
            exact hiff x
        · rw [if_neg (fun he => hn2 (strData_inj he))]
          by_cases hce : (compsL.filter (fun c => qnameOf c ≠ qn)).isEmpty
          · rw [if_pos hce]
            rw [alGet_alErase_ne _ _ _ hn2]
            exact hs.idx_mem ns2 x
          · rw [if_neg hce]
            rw [alGet_alSet_ne _ _ _ _ hn2]
            exact hs.idx_mem ns2 x

theorem Sim_apply {T : Type} {qnameOf : T → QName} {h1 h2 : String → Nat}
    {d : DictStorage T} {t : TrieStorage T}
    (hs : Sim qnameOf h1 h2 d t) (op : StOp T) (hg : GoodOp qnameOf op) :
    Sim qnameOf h1 h2 (applyD qnameOf d op) (applyT h1 h2 t op) := by
  cases op with
  | sstore qn c =>
      have hg2 : qn = qnameOf c ∧ qn.ns ≠ "" := hg
      exact Sim_store hs hg2.1 hg2.2
  | sremove qn => exact Sim_remove hs qn
  | sclear => exact Sim_clear

theorem Sim_foldl {T : Type} (qnameOf : T → QName) (h1 h2 : String → Nat) :
    ∀ (ops : List (StOp T)) (d : DictStorage T) (t : TrieStorage T),
      Sim qnameOf h1 h2 d t → (∀ op ∈ ops, GoodOp qnameOf op) →
      Sim qnameOf h1 h2 (ops.foldl (applyD qnameOf) d)
        (ops.foldl (applyT h1 h2) t) := by
  intro ops
  induction ops with
  | nil =>
      intro d t hs _
      simpa using hs
  | cons op rest ih =>
      intro d t hs hops
      rw [List.foldl_cons, List.foldl_cons]
      exact ih _ _ (Sim_apply hs op (hops op (List.mem_cons_self _ _)))
        (fun o ho => hops o (List.mem_cons_of_mem _ ho))

theorem Sim_lookup {T : Type} {qnameOf : T → QName} {h1 h2 : String → Nat}
    {d : DictStorage T} {t : TrieStorage T}
    (hs : Sim qnameOf h1 h2 d t) (qn : QName) :
    DictStorage.lookupD d qn = TrieStorage.lookupT h1 h2 t qn := by
  rw [DictStorage.lookupD, lookupT_eq_raw hs.tinv, hs.look_eq]

theorem Sim_bnp {T : Type} {qnameOf : T → QName} {h1 h2 : String → Nat}
    {d : DictStorage T} {t : TrieStorage T}
    (hs : Sim qnameOf h1 h2 d t) (pfxs : String) (x : T) :
    x ∈ DictStorage.byNamespacePfx d pfxs ↔
      x ∈ TrieStorage.byNamespacePfx t pfxs := by
  rw [DictStorage.byNamespacePfx, TrieStorage.byNamespacePfx]
  constructor
  · intro hx
    obtain ⟨e, he, hxe⟩ := List.mem_flatMap.mp hx
    obtain ⟨hei, hpf⟩ := List.mem_filter.mp he
    obtain ⟨k, l⟩ := e
    have hgete : alGet d.namespace_index k = some l :=
      mem_alGet_of_nodup hs.idx_nodup hei
    have hxl : x ∈ (alGet d.namespace_index k).getD [] := by
      rw [hgete, Option.getD_some]
      exact hxe
    obtain ⟨loc, hloc⟩ := (hs.idx_mem k x).mp hxl
    cases hb : trieGet t.trie k.data with
    | none =>
        rw [hb, Option.getD_none, alGet_nil] at hloc
        cases hloc
    | some bucket =>
        rw [hb, Option.getD_some] at hloc
        apply List.mem_flatMap.mpr
        refine ⟨k.data, ?_, ?_⟩
        · rw [keysWithPfx_mem hs.tinv.twf]
          refine ⟨?_, by rw [hb]; rfl⟩
          have hp2 : pfxs.data.isPrefixOf k.data = true := by simpa using hpf
          exact List.isPrefixOf_iff_prefix.mp hp2
        · have hbne : bucket.isEmpty = false := by
            cases hbk : bucket with
            | nil =>
                rw [hbk, alGet_nil] at hloc
                cases hloc
            | cons a r => rfl
          show x ∈ (match trieGet t.trie k.data with
            | none => ([] : List T)
            | some bucket => if bucket.isEmpty then []
              else bucket.map (fun p : String × T => p.2))
          rw [hb]
          show x ∈ (if bucket.isEmpty then [] else bucket.map (fun p : String × T => p.2))
          rw [if_neg (by simp [hbne])]
          exact List.mem_map.mpr ⟨(loc, x), alGet_mem hloc, rfl⟩
  · intro hx
    obtain ⟨q, hq, hxq⟩ := List.mem_flatMap.mp hx
    rw [keysWithPfx_mem hs.tinv.twf] at hq
    obtain ⟨hpf, hsome⟩ := hq
    have hxq2 : x ∈ (match trieGet t.trie q with
      | none => ([] : List T)
      | some bucket => if bucket.isEmpty then []
        else bucket.map (fun p : String × T => p.2)) := hxq
    cases hb : trieGet t.trie q with
    | none =>
        rw [hb] at hsome
        simp at hsome
    | some bucket =>
        rw [hb] at hxq2
        have hxq3 : x ∈ (if bucket.isEmpty then []
            else bucket.map (fun p : String × T => p.2)) := hxq2
        by_cases hbe : bucket.isEmpty
        · rw [if_pos hbe] at hxq3
          cases hxq3
        · rw [if_neg hbe] at hxq3
          obtain ⟨p, hmem, hx2⟩ := List.mem_map.mp hxq3
          have hnd := hs.tinv.bucket_nodup q bucket hb
          have h5 := mem_alGet_of_nodup hnd
            (show (p.1, p.2) ∈ bucket from hmem)
          rw [hx2] at h5
          have hxm : x ∈ (alGet d.namespace_index (⟨q⟩ : String)).getD [] :=
            (hs.idx_mem ⟨q⟩ x).mpr ⟨p.1, by
              show alGet ((trieGet t.trie q).getD []) p.1 = some x
              rw [hb, Option.getD_some]
              exact h5⟩
          cases hgete : alGet d.namespace_index (⟨q⟩ : String) with
          | none =>
              rw [hgete, Option.getD_none] at hxm
              cases hxm
          | some l =>
              rw [hgete, Option.getD_some] at hxm
              apply List.mem_flatMap.mpr
              refine ⟨(⟨q⟩, l), ?_, hxm⟩
              refine List.mem_filter.mpr ⟨alGet_mem hgete, ?_⟩
              show pfxs.data.isPrefixOf q = true
              exact List.isPrefixOf_iff_prefix.mpr hpf

/-- C6 (amended): applied identically to both backends from their empty
states, every operation sequence in which each store files the
component under its own qualified name with a non-empty namespace
(`GoodOp`) — removals and clears unrestricted — leaves the two backends
observably equal: `lookup` returns the same component or absence for
every name, and `by_namespace_prefix` returns the same set of
components for every prefix. -/
theorem claim_C6_backend_equivalence {T : Type} (qnameOf : T → QName)
    (h1 h2 : String → Nat) (size num : Nat) (ops : List (StOp T))
    (hops : ∀ op ∈ ops, GoodOp qnameOf op) :
    (∀ qn, DictStorage.lookupD
        (ops.foldl (applyD qnameOf) DictStorage.emptyD) qn =
      TrieStorage.lookupT h1 h2
        (ops.foldl (applyT h1 h2) (TrieStorage.emptyTS size num)) qn) ∧
    (∀ (pfxs : String) (x : T),
      x ∈ DictStorage.byNamespacePfx
        (ops.foldl (applyD qnameOf) DictStorage.emptyD) pfxs ↔
      x ∈ TrieStorage.byNamespacePfx
        (ops.foldl (applyT h1 h2) (TrieStorage.emptyTS size num)) pfxs) := by
  have hsim := Sim_foldl qnameOf h1 h2 ops DictStorage.emptyD
    (TrieStorage.emptyTS size num) (Sim_empty qnameOf h1 h2 size num) hops
  exact ⟨fun qn => Sim_lookup hsim qn, fun pfxs x => Sim_bnp hsim pfxs x⟩

/-- The qname map of the C6 witness. -/
def c6q : Nat → QName := fun _ => ⟨"http://a", "x"⟩

/-- C6 witness: one good store on both backends. -/
theorem claim_C6_witness :
    (∀ op ∈ [StOp.sstore (⟨"http://a", "x"⟩ : QName) (7 : Nat)],
      GoodOp c6q op) ∧
    ((∀ qn, DictStorage.lookupD
        ([StOp.sstore (⟨"http://a", "x"⟩ : QName) (7 : Nat)].foldl
          (applyD c6q) DictStorage.emptyD) qn =
      TrieStorage.lookupT hashA hashB
        ([StOp.sstore (⟨"http://a", "x"⟩ : QName) (7 : Nat)].foldl
          (applyT hashA hashB) (TrieStorage.emptyTS 8 1)) qn) ∧
    (∀ (pfxs : String) (x : Nat),
      x ∈ DictStorage.byNamespacePfx
        ([StOp.sstore (⟨"http://a", "x"⟩ : QName) (7 : Nat)].foldl
          (applyD c6q) DictStorage.emptyD) pfxs ↔
      x ∈ TrieStorage.byNamespacePfx
        ([StOp.sstore (⟨"http://a", "x"⟩ : QName) (7 : Nat)].foldl
          (applyT hashA hashB) (TrieStorage.emptyTS 8 1)) pfxs)) :=
  have hg : ∀ op ∈ [StOp.sstore (⟨"http://a", "x"⟩ : QName) (7 : Nat)],
      GoodOp c6q op := by
    intro op hop
    rw [List.mem_singleton] at hop
    subst hop
    exact ⟨rfl, by decide⟩
  ⟨hg, claim_C6_backend_equivalence c6q hashA hashB 8 1 _ hg⟩

/-- C6 counterexample, refuting the claim as stated in two ways it
explicitly covers.  (a) An empty-namespace store — which the claim
includes — succeeds on `DictStorage` but raises
`ValueError("Key cannot be empty")` on `TrieStorage`, after which
`lookup` disagrees.  (b) A store under a key different from the
component's own qname (the storage API permits it), followed by a
remove of that key: `DictStorage.remove` filters its namespace index by
the component's `qname` attribute and keeps the stale entry, while the
trie removes it — `by_namespace_prefix` then returns different sets. -/
theorem claim_C6_counterexample :
    (DictStorage.lookupD
        ([StOp.sstore (⟨"", "x"⟩ : QName) (7 : Nat)].foldl
          (applyD (fun _ => ⟨"", "x"⟩)) DictStorage.emptyD) ⟨"", "x"⟩ =
        some 7 ∧
      TrieStorage.lookupT hashA hashB
        ([StOp.sstore (⟨"", "x"⟩ : QName) (7 : Nat)].foldl
          (applyT hashA hashB) (TrieStorage.emptyTS 8 1)) ⟨"", "x"⟩ =
        none ∧
      TrieStorage.store hashA hashB (TrieStorage.emptyTS (T := Nat) 8 1)
        ⟨"", "x"⟩ 7 = .error "Key cannot be empty") ∧
    ((7 : Nat) ∈ DictStorage.byNamespacePfx
        ([StOp.sstore (⟨"a", "z"⟩ : QName) (7 : Nat),
          StOp.sremove ⟨"a", "z"⟩].foldl
          (applyD (fun _ => ⟨"a", "x"⟩)) DictStorage.emptyD) "a" ∧
      ¬ (7 : Nat) ∈ TrieStorage.byNamespacePfx
        ([StOp.sstore (⟨"a", "z"⟩ : QName) (7 : Nat),
          StOp.sremove ⟨"a", "z"⟩].foldl
          (applyT hashA hashB) (TrieStorage.emptyTS 8 1)) "a") := by
  refine ⟨⟨rfl, rfl, rfl⟩, ?_, ?_⟩
  · decide
  · decide

end Xsdmesh
